import Mathlib

/-!
Formal model of the h11 sans-I/O HTTP/1.1 protocol engine.

The repository ships only documentation, the changelog and auxiliary
tooling; the implementation modules themselves (the connection facade,
the per-role state machines, the readers and the writers) are not part
of the source tree here.  Every definition below is therefore modelled
from the specification document, staying as close as possible to its
words, and the claims are settled against this model.
-/

namespace H11

/-- Wire bytes, modelled as lists of naturals (each below 256 for real
data; the predicates below enforce the ranges the engine cares about). -/
abbrev Bytes := List Nat

/-- ASCII helper: view a (pure-ASCII) Lean string as wire bytes. -/
def asciiBytes (s : String) : Bytes := s.data.map Char.toNat

/-- Carriage return. -/
def bCR : Nat := 13
/-- Line feed. -/
def bLF : Nat := 10
/-- Space. -/
def bSP : Nat := 32
/-- Horizontal tab. -/
def bHTAB : Nat := 9
/-- Colon. -/
def bCOLON : Nat := 58

/-- CRLF line ending, the terminator the engine emits. -/
def crlf : Bytes := [bCR, bLF]

/-- Modelled from the spec: RFC 7230 tchar set used by the tokenizer for
methods and header names. -/
def tokenByte (b : Nat) : Bool :=
  (48 ≤ b && b ≤ 57) || (65 ≤ b && b ≤ 90) || (97 ≤ b && b ≤ 122) ||
  b == 33 || b == 35 || b == 36 || b == 37 || b == 38 || b == 39 ||
  b == 42 || b == 43 || b == 45 || b == 46 || b == 94 || b == 95 ||
  b == 96 || b == 124 || b == 126

/-- Modelled from the spec: request targets admit visible ASCII with no
whitespace and no control bytes. -/
def targetByte (b : Nat) : Bool := 33 ≤ b && b ≤ 126

/-- Modelled from the spec: header values contain no control characters
and no embedded newlines; horizontal tab is the one allowed exception. -/
def valueByte (b : Nat) : Bool := b == bHTAB || (32 ≤ b && b ≤ 255 && b != 127)

/-- Lowercase one ASCII byte. -/
def lowerByte (b : Nat) : Nat := if 65 ≤ b ∧ b ≤ 90 then b + 32 else b

/-- Lowercase a byte string, used to canonicalize header names. -/
def lowerBytes (b : Bytes) : Bytes := b.map lowerByte

/-- Decimal digit test for Content-Length values. -/
def digitByte (b : Nat) : Bool := 48 ≤ b && b ≤ 57

/-- Hexadecimal digit test for chunk-size lines. -/
def hexByte (b : Nat) : Bool :=
  (48 ≤ b && b ≤ 57) || (97 ≤ b && b ≤ 102) || (65 ≤ b && b ≤ 70)

/-- Numeric value of one hex digit. -/
def hexVal (b : Nat) : Nat :=
  if 48 ≤ b ∧ b ≤ 57 then b - 48
  else if 97 ≤ b ∧ b ≤ 102 then b - 87
  else b - 55

/-- Value of a big-endian string of decimal digits. -/
def decNat (bs : Bytes) : Nat := bs.foldl (fun acc b => acc * 10 + (b - 48)) 0

/-- Value of a big-endian string of hex digits. -/
def hexNat (bs : Bytes) : Nat := bs.foldl (fun acc b => acc * 16 + hexVal b) 0

/-- ASCII byte of one base-16 digit, lowercase letters. -/
def hexDigitByte (d : Nat) : Nat := if d < 10 then d + 48 else d + 87

/-- Fuelled worker producing base-16 digits, least significant first. -/
def hexDigitsLEGo : Nat → Nat → Bytes
  | 0, _ => []
  | _, 0 => []
  | fuel + 1, n + 1 => hexDigitByte ((n + 1) % 16) :: hexDigitsLEGo fuel ((n + 1) / 16)

/-- Hex digits of n, least significant first; empty for zero. -/
def hexDigitsLE (n : Nat) : Bytes := hexDigitsLEGo n n

/-- Modelled from the spec: lowercase hexadecimal rendering of a chunk
size, as the chunked body writer emits it. -/
def hexOfNat (n : Nat) : Bytes :=
  if n = 0 then [48] else (hexDigitsLE n).reverse

/-- Fuelled worker producing base-10 digits, least significant first. -/
def decDigitsLEGo : Nat → Nat → Bytes
  | 0, _ => []
  | _, 0 => []
  | fuel + 1, n + 1 => ((n + 1) % 10 + 48) :: decDigitsLEGo fuel ((n + 1) / 10)

/-- Decimal digits of n, least significant first; empty for zero. -/
def decDigitsLE (n : Nat) : Bytes := decDigitsLEGo n n

/-- Decimal rendering of a status code. -/
def decOfNat (n : Nat) : Bytes :=
  if n = 0 then [48] else (decDigitsLE n).reverse

/-- The two connection roles.  Fixed for the lifetime of a connection. -/
inductive Role
  | client
  | server
deriving DecidableEq, Repr

/-- The opposite role. -/
def Role.other : Role → Role
  | .client => .server
  | .server => .client

/-- Modelled from the spec: the per-role machine states of the missing
state-machine module. -/
inductive MState
  | idle
  | sendResponse
  | sendBody
  | done
  | mustClose
  | closed
  | mightSwitchProtocol
  | switchedProtocol
  | error
deriving DecidableEq, Repr

/-- Modelled from the spec: the protocol-switch sub-state of the missing
state-machine module.  A proposal records whether it came from an
Upgrade header and/or a CONNECT method. -/
inductive SwitchSub
  | noProposal
  | maySwitch (upgrade connect : Bool)
  | denied
  | switched
deriving DecidableEq, Repr

/-- One header entry: the raw name as written on the wire, the canonical
lowercased name, and the value. -/
structure HeaderEntry where
  rawName : Bytes
  name : Bytes
  value : Bytes
deriving DecidableEq, Repr

/-- An ordered header list. -/
abbrev Headers := List HeaderEntry

/-- Modelled from the spec: the tagged event variants of the missing
events module. -/
inductive Event
  | request (method : Bytes) (target : Bytes) (headers : Headers) (httpVersion : Bytes)
  | informationalResponse (statusCode : Nat) (headers : Headers) (httpVersion : Bytes)
      (reason : Bytes)
  | response (statusCode : Nat) (headers : Headers) (httpVersion : Bytes) (reason : Bytes)
  | data (d : Bytes) (chunkStart : Bool) (chunkEnd : Bool)
  | endOfMessage (headers : Headers)
  | connectionClosed
deriving DecidableEq, Repr

/-! ## Header utilities and validation -/

/-- Drop leading spaces and horizontal tabs. -/
def stripLeft (v : Bytes) : Bytes := v.dropWhile (fun b => b == bSP || b == bHTAB)

/-- Strip optional whitespace from both ends of a field value, as the
tokenizer does on parse. -/
def stripOWS (v : Bytes) : Bytes := (stripLeft (stripLeft v).reverse).reverse

/-- True when a value carries no leading or trailing whitespace. -/
def noEdgeWs (v : Bytes) : Bool :=
  (match v.head? with | some b => !(b == bSP || b == bHTAB) | none => true) &&
  (match v.getLast? with | some b => !(b == bSP || b == bHTAB) | none => true)

/-- Modelled from the spec: validity of one header entry in the missing
header model: token raw name, canonical lowercase name, value free of
control bytes and of edge whitespace. -/
def validEntry (e : HeaderEntry) : Bool :=
  e.rawName ≠ [] && e.rawName.all tokenByte && e.name == lowerBytes e.rawName &&
  e.value.all valueByte && noEdgeWs e.value

/-- All values carried by a given (lowercase) header name, in order. -/
def getHeader (hs : Headers) (nm : Bytes) : List Bytes :=
  (hs.filter (fun e => e.name == nm)).map HeaderEntry.value

/-- Comma-separated tokens of a header value, stripped and lowercased. -/
def commaTokens (v : Bytes) : List Bytes :=
  (v.splitOn 44).map (fun t => lowerBytes (stripOWS t))

/-- True when some Connection header lists the close token. -/
def hasConnectionClose (hs : Headers) : Bool :=
  (getHeader hs (asciiBytes "connection")).any (fun v => (commaTokens v).contains (asciiBytes "close"))

/-- Local protocol failures of the engine, as one coarse error type. -/
inductive LocalErr
  | invalidEvent
  | illegalInState
  | tooMuchData
  | tooLittleData
  | trailersWithoutChunked
  | notReady
deriving DecidableEq, Repr

/-- Decidable equality for Except results, used to evaluate the model on
concrete inputs. -/
instance exceptDecEq {ε α : Type} [DecidableEq ε] [DecidableEq α] : DecidableEq (Except ε α)
  | .error a, .error b =>
      if h : a = b then .isTrue (by subst h; rfl)
      else .isFalse (fun he => h (by cases he; rfl))
  | .error _, .ok _ => .isFalse (fun he => Except.noConfusion he)
  | .ok _, .error _ => .isFalse (fun he => Except.noConfusion he)
  | .ok a, .ok b =>
      if h : a = b then .isTrue (by subst h; rfl)
      else .isFalse (fun he => h (by cases he; rfl))

/-- Modelled from the spec: Content-Length occurrences are collapsed when
equal and reject when they differ; the surviving list keeps the first
occurrence in place. -/
def collapseCL : Headers → Option Bytes → Except LocalErr Headers
  | [], _ => .ok []
  | e :: rest, seen =>
      if e.name = asciiBytes "content-length" then
        match seen with
        | none => do
            let tl ← collapseCL rest (some e.value)
            return e :: tl
        | some v =>
            if e.value = v then collapseCL rest (some v)
            else .error .invalidEvent
      else do
        let tl ← collapseCL rest seen
        return e :: tl

/-- Modelled from the spec: header-block validation of the missing header
model: every entry is well formed, Content-Length values are decimal
integers and collapse, a Transfer-Encoding must be chunked, and the two
framing headers never coexist. -/
def normalizeHeaders (hs : Headers) : Except LocalErr Headers := do
  if hs.all validEntry then
    if (getHeader hs (asciiBytes "content-length")).all
        (fun v => v ≠ [] && v.all digitByte) then
      if (getHeader hs (asciiBytes "transfer-encoding")).all
          (fun v => lowerBytes v = asciiBytes "chunked") then
        if (getHeader hs (asciiBytes "transfer-encoding")) ≠ [] ∧
            (getHeader hs (asciiBytes "content-length")) ≠ [] then
          .error .invalidEvent
        else
          collapseCL hs none
      else .error .invalidEvent
    else .error .invalidEvent
  else .error .invalidEvent

/-- Declared Content-Length of a header block, when present. -/
def contentLengthOf (hs : Headers) : Option Nat :=
  match getHeader hs (asciiBytes "content-length") with
  | [] => none
  | v :: _ => some (decNat v)

/-- True when a chunked Transfer-Encoding is declared. -/
def hasChunkedTE (hs : Headers) : Bool :=
  getHeader hs (asciiBytes "transfer-encoding") ≠ []

/-! ## Body framing -/

/-- Modelled from the spec: the per-direction body framing enum of the
missing body reader and writer. -/
inductive Framing
  | noBody
  | contentLength (n : Nat)
  | chunked
  | readUntilClose
deriving DecidableEq, Repr

/-- Modelled from the spec: framing of a request body decided from its
headers (Transfer-Encoding wins, then Content-Length, else no body). -/
def requestFraming (hs : Headers) : Framing :=
  if hasChunkedTE hs then .chunked
  else match contentLengthOf hs with
    | some n => .contentLength n
    | none => .noBody

/-- Modelled from the spec: framing of a response body decided from the
status, the request method this response answers, and the headers. -/
def responseFraming (requestMethod : Option Bytes) (status : Nat) (hs : Headers) : Framing :=
  if status < 200 ∨ status = 204 ∨ status = 304 then .noBody
  else if requestMethod = some (asciiBytes "HEAD") then .noBody
  else if requestMethod = some (asciiBytes "CONNECT") ∧ 200 ≤ status ∧ status < 300 then .noBody
  else if hasChunkedTE hs then .chunked
  else match contentLengthOf hs with
    | some n => .contentLength n
    | none => .readUntilClose

/-! ## Event validation -/

/-- Modelled from the spec: validation performed when a Request event is
constructed: token method, printable target, two-digit version, valid
normalized headers, and exactly one Host on HTTP/1.1. -/
def validRequest (method target : Bytes) (hs : Headers) (ver : Bytes) : Bool :=
  method ≠ [] && method.all tokenByte &&
  target ≠ [] && target.all targetByte &&
  (ver = asciiBytes "1.1" || ver = asciiBytes "1.0") &&
  (normalizeHeaders hs matches .ok _) &&
  (decide (ver = asciiBytes "1.1") → (getHeader hs (asciiBytes "host")).length == 1)

/-- Modelled from the spec: validation of a Response or
InformationalResponse event: status in range and valid headers. -/
def validResponse (informational : Bool) (status : Nat) (hs : Headers) (ver : Bytes) : Bool :=
  (if informational then 100 ≤ status && status ≤ 199 else 200 ≤ status && status ≤ 999) &&
  (ver = asciiBytes "1.1" || ver = asciiBytes "1.0") &&
  (normalizeHeaders hs matches .ok _)

/-! ## The connection state machine -/

/-- Modelled from the spec: the joint state of the two per-role machines
plus the keep-alive latch and the protocol-switch sub-state. -/
structure CState where
  client : MState
  server : MState
  keepAlive : Bool
  switch : SwitchSub
deriving DecidableEq, Repr

/-- State of the machine for a given role. -/
def CState.get (s : CState) : Role → MState
  | .client => s.client
  | .server => s.server

/-- The fresh joint state: both sides idle, keep-alive on, no proposal. -/
def CState.initial : CState :=
  { client := .idle, server := .idle, keepAlive := true, switch := .noProposal }

/-- Modelled from the spec: event-triggered transitions of the client
machine. -/
def clientTransition : MState → Event → Option MState
  | .idle, .request .. => some .sendBody
  | .idle, .connectionClosed => some .closed
  | .sendBody, .data .. => some .sendBody
  | .sendBody, .endOfMessage _ => some .done
  | .done, .connectionClosed => some .closed
  | .mustClose, .connectionClosed => some .closed
  | .closed, .connectionClosed => some .closed
  | _, _ => none

/-- Modelled from the spec: event-triggered transitions of the server
machine.  Sending a Response directly from IDLE is the documented path
for error responses when no request ever registered. -/
def serverTransition : MState → Event → Option MState
  | .idle, .connectionClosed => some .closed
  | .idle, .response .. => some .sendBody
  | .sendResponse, .informationalResponse .. => some .sendResponse
  | .sendResponse, .response .. => some .sendBody
  | .sendBody, .data .. => some .sendBody
  | .sendBody, .endOfMessage _ => some .done
  | .done, .connectionClosed => some .closed
  | .mustClose, .connectionClosed => some .closed
  | .closed, .connectionClosed => some .closed
  | _, _ => none

/-- Modelled from the spec: the state-triggered coupling rules, applied
in an order that reaches their fixed point in one pass: a pending switch
proposal parks a DONE client in MIGHT_SWITCH_PROTOCOL, a resolved denial
releases it, a disabled keep-alive or a closed or failed peer turns DONE
into MUST_CLOSE, and a completed switch moves both sides to
SWITCHED_PROTOCOL. -/
def couple (s : CState) : CState :=
  if s.switch = .switched then
    { s with
      client := if s.client = .error then .error else .switchedProtocol
      server := if s.server = .error then .error else .switchedProtocol }
  else
    let c1 := if (s.switch matches .maySwitch ..) ∧ s.client = .done then
        .mightSwitchProtocol else s.client
    let c2 := if ¬(s.switch matches .maySwitch ..) ∧ c1 = .mightSwitchProtocol then
        .done else c1
    let c3 := if c2 = .done ∧ (¬s.keepAlive ∨ s.server = .closed ∨ s.server = .error) then
        .mustClose else c2
    let v3 := if s.server = .done ∧ (¬s.keepAlive ∨ c2 = .closed ∨ c2 = .error) then
        .mustClose else s.server
    { s with client := c3, server := v3 }

/-- Modelled from the spec: processing one event fired by a role: the
event-triggered transition of that machine (a client Request also moves
an idle server to SEND_RESPONSE), rejected when no transition exists,
followed by the coupling rules. -/
def processEvent (s : CState) (role : Role) (ev : Event) : Option CState :=
  match role with
  | .client =>
      match clientTransition s.client ev with
      | none => none
      | some c =>
          let s1 : CState := { s with client := c }
          let s2 : Option CState := match ev with
            | .request .. => if s.server = .idle then some { s1 with server := .sendResponse }
                             else none
            | _ => some s1
          s2.map couple
  | .server =>
      match serverTransition s.server ev with
      | none => none
      | some v => some (couple { s with server := v })

/-- Modelled from the spec: the reset operation of the state machine:
permitted only when both sides are DONE, keep-alive is enabled and the
switch sub-state is not switched; it returns both sides to IDLE and
touches nothing else. -/
def CState.startNextCycle (s : CState) : Except LocalErr CState :=
  if s.client = .done ∧ s.server = .done ∧ s.keepAlive ∧ s.switch ≠ .switched then
    .ok { s with client := .idle, server := .idle }
  else
    .error .notReady

/-! ## Writers -/

/-- Wire form of one header entry: raw name, colon, space, value, CRLF. -/
def renderEntry (e : HeaderEntry) : Bytes :=
  e.rawName ++ [bCOLON, bSP] ++ e.value ++ crlf

/-- Wire form of a header sequence, in the order given. -/
def renderEntries (hs : Headers) : Bytes := (hs.map renderEntry).flatten

/-- True when an entry is a Host header. -/
def isHost (e : HeaderEntry) : Bool := e.name == asciiBytes "host"

/-- Modelled from the spec and changelog: the header-block writer of the
missing writer module sends any Host header first, as recommended by
RFC 7230, then every other header in its original order, then the
terminating blank line. -/
def writeHeaders (hs : Headers) : Bytes :=
  renderEntries (hs.filter isHost) ++ renderEntries (hs.filter (fun e => !isHost e)) ++ crlf

/-- Modelled from the spec: the request start-line writer; the outgoing
version is always 1.1. -/
def writeRequestLine (method target : Bytes) : Bytes :=
  method ++ [bSP] ++ target ++ [bSP] ++ asciiBytes "HTTP/1.1" ++ crlf

/-- Modelled from the spec: full wire form of a Request event. -/
def writeRequest (method target : Bytes) (hs : Headers) : Bytes :=
  writeRequestLine method target ++ writeHeaders hs

/-- Modelled from the spec: the status-line writer; reason may be empty
and the outgoing version is always 1.1. -/
def writeStatusLine (status : Nat) (reason : Bytes) : Bytes :=
  asciiBytes "HTTP/1.1" ++ [bSP] ++ decOfNat status ++ [bSP] ++ reason ++ crlf

/-- Modelled from the spec: full wire form of a response header block. -/
def writeResponse (status : Nat) (reason : Bytes) (hs : Headers) : Bytes :=
  writeStatusLine status reason ++ writeHeaders hs

/-- Modelled from the spec: the Content-Length body writer sending one
Data payload: the payload passes through unless it would overshoot the
declared length, and the remaining budget shrinks by its size. -/
def contentLengthSendData (remaining : Nat) (d : Bytes) : Except LocalErr (Bytes × Nat) :=
  if d.length ≤ remaining then .ok (d, remaining - d.length)
  else .error .tooMuchData

/-- Modelled from the spec: the Content-Length body writer at
EndOfMessage: the full declared length must have been sent and trailers
are rejected under this framing. -/
def contentLengthSendEom (remaining : Nat) (trailers : Headers) : Except LocalErr Bytes :=
  if remaining ≠ 0 then .error .tooLittleData
  else if trailers ≠ [] then .error .trailersWithoutChunked
  else .ok []

/-- Modelled from the spec and changelog: the chunked body writer encodes
each Data payload as one chunk of size-hex, CRLF, payload, CRLF, and
emits nothing at all for an empty payload. -/
def chunkedSendData (d : Bytes) : Bytes :=
  if d = [] then [] else hexOfNat d.length ++ crlf ++ d ++ crlf

/-- Modelled from the spec: the chunked body writer at EndOfMessage: the
zero chunk, then any trailer headers, then the final CRLF. -/
def chunkedSendEom (trailers : Headers) : Bytes :=
  asciiBytes "0" ++ crlf ++ writeHeaders trailers

/-- Modelled from the spec: the read-until-close body writer: payloads
pass through unframed and trailers are rejected. -/
def untilCloseSendEom (trailers : Headers) : Except LocalErr Bytes :=
  if trailers ≠ [] then .error .trailersWithoutChunked else .ok []

/-- Summed length of a list of payloads. -/
def sumLens (ds : List Bytes) : Nat := (ds.map List.length).sum

/-- Error outcomes of a Content-Length framed message body, recording
which Data event overshot. -/
inductive CLErr
  | tooMuch (i : Nat)
  | tooLittle
deriving DecidableEq, Repr

/-- Modelled from the spec: sending a list of Data payloads through the
Content-Length body writer, indexed so a failure names the offending
event. -/
def runCLData (remaining i : Nat) : List Bytes → Except CLErr Nat
  | [] => .ok remaining
  | d :: rest =>
      match contentLengthSendData remaining d with
      | .ok (_, r) => runCLData r (i + 1) rest
      | .error _ => .error (.tooMuch i)

/-- Modelled from the spec: a whole Content-Length framed message body:
all Data payloads, then EndOfMessage with no trailers. -/
def runCLMessage (n : Nat) (ds : List Bytes) : Except CLErr Unit :=
  match runCLData n 0 ds with
  | .error e => .error e
  | .ok r =>
      match contentLengthSendEom r [] with
      | .ok _ => .ok ()
      | .error _ => .error .tooLittle

/-! ## The receive buffer: bounded line and header-block extraction -/

/-- Split a byte string at its first LF, when there is one. -/
def splitAtLF : Bytes → Option (Bytes × Bytes)
  | [] => none
  | b :: rest =>
      if b = bLF then some ([], rest)
      else (splitAtLF rest).map (fun p => (b :: p.1, p.2))

/-- Drop one trailing CR, the one belonging to a CRLF terminator. -/
def dropTrailCR (l : Bytes) : Bytes :=
  if l.getLast? = some bCR then l.dropLast else l

/-- Modelled from the spec: split the first line off the buffer.  A line
ends at the first LF (bare LF is tolerated); one CR immediately before
the LF belongs to the terminator.  Returns the line body and the bytes
after the terminator, or nothing when no full line is buffered yet. -/
def splitLine (b : Bytes) : Option (Bytes × Bytes) :=
  (splitAtLF b).map (fun p => (dropTrailCR p.1, p.2))

/-- A successful LF split decomposes the buffer around its first LF. -/
theorem splitAtLF_eq {b l r : Bytes} (h : splitAtLF b = some (l, r)) :
    b = l ++ bLF :: r ∧ bLF ∉ l := by
  induction b generalizing l r with
  | nil => simp [splitAtLF] at h
  | cons x xs ih =>
      by_cases hx : x = bLF
      · subst hx
        simp [splitAtLF] at h
        simp [h.1, h.2]
      · simp only [splitAtLF, if_neg hx, Option.map_eq_some'] at h
        obtain ⟨⟨p1, p2⟩, hp, he⟩ := h
        cases he
        obtain ⟨h1, h2⟩ := ih (l := p1) (r := p2) hp
        refine ⟨by simp [h1], ?_⟩
        simp only [List.mem_cons, not_or]
        exact ⟨fun he => hx he.symm, h2⟩

/-- Splitting the explicit decomposition recovers its pieces. -/
theorem splitAtLF_append {l r : Bytes} (h : bLF ∉ l) :
    splitAtLF (l ++ bLF :: r) = some (l, r) := by
  induction l with
  | nil => simp [splitAtLF]
  | cons x xs ih =>
      have hx : x ≠ bLF := by intro he; exact h (by simp [he])
      have hxs : bLF ∉ xs := fun hm => h (by simp [hm])
      simp [splitAtLF, hx, ih hxs]

/-- A buffer with no LF has no complete line. -/
theorem splitAtLF_none {b : Bytes} (h : bLF ∉ b) : splitAtLF b = none := by
  induction b with
  | nil => rfl
  | cons x xs ih =>
      have hx : x ≠ bLF := by intro he; exact h (by simp [he])
      have hxs : bLF ∉ xs := fun hm => h (by simp [hm])
      simp [splitAtLF, hx, ih hxs]

/-- A successful line split strictly shrinks the buffer. -/
theorem splitLine_rest_lt {b : Bytes} {l r : Bytes} (h : splitLine b = some (l, r)) :
    r.length < b.length := by
  simp only [splitLine, Option.map_eq_some'] at h
  obtain ⟨p, hp, he⟩ := h
  obtain ⟨h1, _⟩ := splitAtLF_eq (b := b) (l := p.1) (r := p.2) (by simpa using hp)
  cases he
  simp [h1]
  omega

/-- Fuelled worker collecting header-block lines up to the first blank
line; every recursion step consumes at least one buffered byte, so any
fuel beyond the buffer length is enough. -/
def extractLinesGo : Nat → Bytes → Option (List Bytes × Bytes)
  | 0, _ => none
  | fuel + 1, b =>
      match splitLine b with
      | none => none
      | some (l, rest) =>
          if l = [] then some ([], rest)
          else
            match extractLinesGo fuel rest with
            | none => none
            | some (ls, r) => some (l :: ls, r)

/-- Modelled from the spec: collect header-block lines up to and
including the first blank line; nothing if the blank line has not
arrived yet. -/
def extractLines (b : Bytes) : Option (List Bytes × Bytes) :=
  extractLinesGo (b.length + 1) b

/-- Outcome of a bounded extraction from the receive buffer. -/
inductive Extract (α : Type)
  | ok (v : α) (rest : Bytes) (consumed : Nat)
  | needData
  | tooLong
deriving DecidableEq, Repr

/-- Modelled from the spec: the default maximum size of one line. -/
def maxLineSize : Nat := 16384

/-- Modelled from the spec: the default maximum size of a header block. -/
def maxHeadersSize : Nat := 32768

/-- Modelled from the spec: bounded header-block extraction: succeed when
the blank line lies within the size bound, ask for more data while the
buffer is small, and reject oversized blocks either way. -/
def extractBlock (limit : Nat) (b : Bytes) : Extract (List Bytes) :=
  match extractLines b with
  | some (ls, r) =>
      if b.length - r.length ≤ limit then .ok ls r (b.length - r.length) else .tooLong
  | none => if b.length < limit then .needData else .tooLong

/-- Modelled from the spec: bounded single-line extraction with the same
policy, used for chunk-size lines. -/
def extractLine (limit : Nat) (b : Bytes) : Extract Bytes :=
  match splitLine b with
  | some (l, r) =>
      if b.length - r.length ≤ limit then .ok l r (b.length - r.length) else .tooLong
  | none => if b.length < limit then .needData else .tooLong

/-! ## The tokenizer -/

/-- Modelled from the spec: parse one header line into an entry: token
name up to the first colon, then the OWS-stripped value; whitespace in
the name or a missing colon rejects. -/
def parseHeaderLine (l : Bytes) : Option HeaderEntry :=
  let nm := l.takeWhile (fun b => b != bCOLON)
  match l.dropWhile (fun b => b != bCOLON) with
  | [] => none
  | _ :: v =>
      if nm ≠ [] ∧ nm.all tokenByte ∧ (stripOWS v).all valueByte then
        some { rawName := nm, name := lowerBytes nm, value := stripOWS v }
      else none

/-- Modelled from the spec: fold one obsolete continuation line into the
value built so far, with a single-space separator. -/
def foldContinuation (v cont : Bytes) : Bytes := stripOWS (v ++ bSP :: stripOWS cont)

/-- True when a line is an obsolete-line-folding continuation. -/
def isContinuation (l : Bytes) : Bool :=
  match l.head? with
  | some b => b == bSP || b == bHTAB
  | none => false

/-- Worker for header-line parsing carrying the entry still open to
continuation lines. -/
def parseHeaderLinesAux (cur : HeaderEntry) : List Bytes → Option Headers
  | [] => some [cur]
  | l :: rest =>
      if isContinuation l then
        let v := foldContinuation cur.value l
        if v.all valueByte then parseHeaderLinesAux { cur with value := v } rest else none
      else
        match parseHeaderLine l with
        | none => none
        | some e => (parseHeaderLinesAux e rest).map (cur :: ·)

/-- Modelled from the spec: parse the header lines of a block, applying
obsolete line folding; a leading continuation line rejects. -/
def parseHeaderLines : List Bytes → Option Headers
  | [] => some []
  | l :: rest =>
      if isContinuation l then none
      else
        match parseHeaderLine l with
        | none => none
        | some e => parseHeaderLinesAux e rest

/-- Modelled from the spec: parse a request line: token method, space,
printable target, space, HTTP slash digit dot digit. -/
def parseRequestLine (l : Bytes) : Option (Bytes × Bytes × Bytes) :=
  let m := l.takeWhile (fun b => b != bSP)
  match l.dropWhile (fun b => b != bSP) with
  | [] => none
  | _ :: r2 =>
      let t := r2.takeWhile (fun b => b != bSP)
      match r2.dropWhile (fun b => b != bSP) with
      | [] => none
      | _ :: v =>
          match v with
          | [72, 84, 84, 80, 47, d1, 46, d2] =>
              if digitByte d1 ∧ digitByte d2 then some (m, t, [d1, 46, d2]) else none
          | _ => none

/-- Modelled from the spec: parse a status line: HTTP slash digit dot
digit, space, three status digits, then an optional reason phrase that
may also be missing entirely. -/
def parseStatusLine (l : Bytes) : Option (Bytes × Nat × Bytes) :=
  match l with
  | 72 :: 84 :: 84 :: 80 :: 47 :: d1 :: 46 :: d2 :: 32 :: s1 :: s2 :: s3 :: rest =>
      if digitByte d1 ∧ digitByte d2 ∧ digitByte s1 ∧ digitByte s2 ∧ digitByte s3 then
        let status := (s1 - 48) * 100 + (s2 - 48) * 10 + (s3 - 48)
        match rest with
        | [] => some ([d1, 46, d2], status, [])
        | 32 :: rr => some ([d1, 46, d2], status, rr)
        | _ => none
      else none
  | _ => none

/-- Modelled from the spec: parse a chunk-size line: hex digits, then
optionally whitespace and a discarded extension section. -/
def parseChunkSize (l : Bytes) : Option Nat :=
  let ds := l.takeWhile hexByte
  if ds = [] then none
  else
    match stripLeft (l.dropWhile hexByte) with
    | [] => some (hexNat ds)
    | 59 :: _ => some (hexNat ds)
    | _ => none

/-! ## Body readers -/

/-- Modelled from the spec: the incremental state of the body reader. -/
inductive BRState
  | cl (remaining : Nat)
  | chunk (bytesInChunk toDiscard : Nat) (first inTrailer : Bool)
  | untilClose
deriving DecidableEq, Repr

/-- Remote protocol failures seen by the receiving side. -/
inductive RemoteErr
  | malformed
  | tooLong
  | prematureEof
  | peerInError
  | protocolViolation
deriving DecidableEq, Repr

/-- One step of a reader: an event with the bytes it consumed and the
next body state, a request for more data that may still have consumed
bytes, or a protocol failure. -/
inductive RStep
  | out (e : Event) (consumed : Nat) (next : Option BRState)
  | more (consumed : Nat) (next : Option BRState)
  | fail (r : RemoteErr)
deriving DecidableEq, Repr

/-- Modelled from the spec: one step of the Content-Length body reader:
done budgets emit EndOfMessage, otherwise stream whatever portion of the
budget is buffered. -/
def clStep (remaining : Nat) (buf : Bytes) : RStep :=
  if remaining = 0 then .out (.endOfMessage []) 0 none
  else if buf = [] then .more 0 (some (.cl remaining))
  else
    let t := min remaining buf.length
    .out (.data (buf.take t) false false) t (some (.cl (remaining - t)))

/-- Modelled from the spec: emit buffered payload of the current chunk:
the first emission for a chunk is flagged chunk-start, the one that
exhausts it chunk-end, and a finished chunk leaves two terminator bytes
to discard. -/
def chunkedEmit (n : Nat) (first : Bool) (consumed : Nat) (buf : Bytes) : RStep :=
  if buf = [] then .more consumed (some (.chunk n 0 first false))
  else
    let u := min n buf.length
    .out (.data (buf.take u) first (u == n)) (consumed + u)
        (some (.chunk (n - u) (if u == n then 2 else 0) false false))

/-- Modelled from the spec: one step of the chunked body reader: finish
the pending trailer section, else discard a finished chunk's
terminator, refill the chunk budget from a size line (a zero size opens
the trailer section at once), and stream chunk payload. -/
def chunkedStep (bytesInChunk toDiscard : Nat) (first inTrailer : Bool) (buf : Bytes) : RStep :=
  if inTrailer then
    match extractBlock maxHeadersSize buf with
    | .needData => .more 0 (some (.chunk 0 0 false true))
    | .tooLong => .fail .tooLong
    | .ok lines _ consumed =>
        match parseHeaderLines lines with
        | none => .fail .malformed
        | some ts => .out (.endOfMessage ts) consumed none
  else
    let t := min toDiscard buf.length
    let buf1 := buf.drop t
    if toDiscard - t > 0 then .more t (some (.chunk bytesInChunk (toDiscard - t) first false))
    else if bytesInChunk = 0 then
      match extractLine maxLineSize buf1 with
      | .needData => .more t (some (.chunk 0 0 false false))
      | .tooLong => .fail .tooLong
      | .ok line rest c1 =>
          match parseChunkSize line with
          | none => .fail .malformed
          | some 0 =>
              match extractBlock maxHeadersSize rest with
              | .needData => .more (t + c1) (some (.chunk 0 0 false true))
              | .tooLong => .fail .tooLong
              | .ok lines _ c2 =>
                  match parseHeaderLines lines with
                  | none => .fail .malformed
                  | some ts => .out (.endOfMessage ts) (t + c1 + c2) none
          | some (n + 1) => chunkedEmit (n + 1) true (t + c1) rest
    else chunkedEmit bytesInChunk first t buf1

/-- Modelled from the spec: one step of the read-until-close body
reader: stream everything buffered; the end is signalled by EOF. -/
def untilCloseStep (buf : Bytes) : RStep :=
  if buf = [] then .more 0 (some .untilClose)
  else .out (.data buf false false) buf.length (some .untilClose)

/-- Dispatch one body-reader step on its state. -/
def bodyStep : BRState → Bytes → RStep
  | .cl r, buf => clStep r buf
  | .chunk n d f tr, buf => chunkedStep n d f tr buf
  | .untilClose, buf => untilCloseStep buf

/-! ## The connection facade -/

/-- Modelled from the spec: the incremental state of the body writer. -/
inductive WBState
  | wcl (remaining : Nat)
  | wchunk
  | wuntil
deriving DecidableEq, Repr

/-- Reader installed for a freshly decided body framing. -/
def framingToReader : Framing → BRState
  | .noBody => .cl 0
  | .contentLength n => .cl n
  | .chunked => .chunk 0 0 false false
  | .readUntilClose => .untilClose

/-- Writer installed for a freshly decided body framing. -/
def framingToWriter : Framing → WBState
  | .noBody => .wcl 0
  | .contentLength n => .wcl n
  | .chunked => .wchunk
  | .readUntilClose => .wuntil

/-- Modelled from the spec: the connection facade state: role, joint
machine state, the peer's HTTP version, the method of the current
cycle's request, the receive buffer with its EOF latch, and the
in-flight body reader and writer. -/
structure Connection where
  ourRole : Role
  cstate : CState
  theirHttpVersion : Option Bytes
  requestMethod : Option Bytes
  buffer : Bytes
  eofReceived : Bool
  readerBody : Option BRState
  writerBody : Option WBState
deriving DecidableEq, Repr

/-- A fresh connection in the given role. -/
def Connection.fresh (r : Role) : Connection :=
  { ourRole := r, cstate := .initial, theirHttpVersion := none, requestMethod := none,
    buffer := [], eofReceived := false, readerBody := none, writerBody := none }

/-- The peer's role. -/
def Connection.theirRole (c : Connection) : Role := c.ourRole.other

/-- Machine state of our own side. -/
def Connection.ourState (c : Connection) : MState := c.cstate.get c.ourRole

/-- Machine state of the peer's side. -/
def Connection.theirState (c : Connection) : MState := c.cstate.get c.theirRole

/-- Replace the machine state of one role. -/
def CState.set (s : CState) (r : Role) (m : MState) : CState :=
  match r with
  | .client => { s with client := m }
  | .server => { s with server := m }

/-- Modelled from the spec: a failing side transitions to ERROR and the
coupling rules fire once more. -/
def Connection.setTheirError (c : Connection) : Connection :=
  { c with cstate := couple (c.cstate.set c.theirRole .error) }

/-- Modelled from the spec: our own side transitions to ERROR on a local
protocol error raised by send. -/
def Connection.setOurError (c : Connection) : Connection :=
  { c with cstate := couple (c.cstate.set c.ourRole .error) }

/-- Modelled from the spec: receive bytes; empty input is the EOF
signal, and data after EOF is a usage error. -/
def receiveData (c : Connection) (b : Bytes) : Option Connection :=
  if b = [] then some { c with eofReceived := true }
  else if c.eofReceived then none
  else some { c with buffer := c.buffer ++ b }

/-- Modelled from the spec: the raw unconsumed buffer contents plus the
EOF latch, for the next owner after a switch or an unclean close. -/
def trailingData (c : Connection) : Bytes × Bool := (c.buffer, c.eofReceived)

/-- Modelled from the spec: keep-alive survives an event only when the
peer (in effect) speaks HTTP/1.1 and no Connection: close was sent. -/
def keepAliveOf (hs : Headers) (v : Bytes) : Bool :=
  !hasConnectionClose hs && v == asciiBytes "1.1"

/-- Modelled from the spec: a CONNECT method or an Upgrade header on a
request opens a switch proposal. -/
def switchProposalUpdate (s : CState) (m : Bytes) (hs : Headers) : CState :=
  let u := getHeader hs (asciiBytes "upgrade") ≠ []
  let cn := m = asciiBytes "CONNECT"
  if u ∨ cn then { s with switch := .maySwitch u cn } else s

/-- Modelled from the spec: whether a response decides a pending switch
proposal in its favor: a 2xx answer to CONNECT, or 101 Switching
Protocols to an Upgrade proposal. -/
def switchAccepted (sw : SwitchSub) (informational : Bool) (status : Nat) : Bool :=
  match sw with
  | .maySwitch u cn =>
      if informational then u && status == 101
      else cn && 200 ≤ status && status < 300
  | _ => false

/-- Modelled from the spec: joint-state effect of a deciding response:
acceptance completes the switch for both sides, any other final
response turns a pending proposal into a denial. -/
def resolveSwitch (s : CState) (informational : Bool) (status : Nat) : Option CState :=
  if switchAccepted s.switch informational status then
    if s.server = .idle ∨ s.server = .sendResponse then
      some (couple { s with switch := .switched, server := .switchedProtocol })
    else none
  else none

/-- Modelled from the spec: state bookkeeping shared by the sending and
the receiving side when a response event passes through: resolve any
pending proposal, else run the ordinary transition; then apply the
keep-alive latch. -/
def processResponseEvent (s : CState) (role : Role) (status : Nat) (hs : Headers)
    (v : Bytes) (reason : Bytes) : Option CState := do
  let s0 := if (s.switch matches .maySwitch ..) ∧ ¬switchAccepted s.switch false status then
      { s with switch := .denied } else s
  let s1 ← match resolveSwitch s0 false status with
    | some sw => some sw
    | none => processEvent s0 role (.response status hs v reason)
  if keepAliveOf hs v then some s1 else some (couple { s1 with keepAlive := false })

/-- Modelled from the spec: connection bookkeeping for an event received
from the peer: machine transitions, peer version recording, switch
proposals and resolutions, keep-alive, and body-reader installation. -/
def processReceivedEvent (c : Connection) (e : Event) : Option Connection :=
  match e with
  | .request m t hs v => do
      let s1 := switchProposalUpdate c.cstate m hs
      let s2 ← processEvent s1 .client (.request m t hs v)
      let s3 := if keepAliveOf hs v then s2 else couple { s2 with keepAlive := false }
      return { c with
               cstate := s3
               theirHttpVersion := some v
               requestMethod := some m
               readerBody := some (framingToReader (requestFraming hs)) }
  | .response status hs v reason => do
      let accepted := switchAccepted c.cstate.switch false status
      let s3 ← processResponseEvent c.cstate .server status hs v reason
      return { c with
               cstate := s3
               theirHttpVersion := some v
               readerBody := if accepted then none else
                 some (framingToReader (responseFraming c.requestMethod status hs)) }
  | .informationalResponse status hs v reason => do
      let s1 ←
        if switchAccepted c.cstate.switch true status then resolveSwitch c.cstate true status
        else processEvent c.cstate .server (.informationalResponse status hs v reason)
      return { c with cstate := s1, theirHttpVersion := some v }
  | _ => do
      let s1 ← processEvent c.cstate c.theirRole e
      return { c with cstate := s1 }

/-- Modelled from the spec: parse a request header block into a Request
event, validating it as event construction would. -/
def requestStep (buf : Bytes) : RStep :=
  match extractBlock maxHeadersSize buf with
  | .needData => .more 0 none
  | .tooLong => .fail .tooLong
  | .ok lines _ consumed =>
      match lines with
      | [] => .fail .malformed
      | rl :: hls =>
          match parseRequestLine rl, parseHeaderLines hls with
          | some (m, t, v), some hs =>
              if validRequest m t hs v then .out (.request m t hs v) consumed none
              else .fail .malformed
          | _, _ => .fail .malformed

/-- Modelled from the spec: parse a response header block into a
Response or InformationalResponse event, validating it as event
construction would. -/
def responseStep (buf : Bytes) : RStep :=
  match extractBlock maxHeadersSize buf with
  | .needData => .more 0 none
  | .tooLong => .fail .tooLong
  | .ok lines _ consumed =>
      match lines with
      | [] => .fail .malformed
      | sl :: hls =>
          match parseStatusLine sl, parseHeaderLines hls with
          | some (v, status, reason), some hs =>
              if status ≤ 199 then
                if validResponse true status hs v then
                  .out (.informationalResponse status hs v reason) consumed none
                else .fail .malformed
              else
                if validResponse false status hs v then
                  .out (.response status hs v reason) consumed none
                else .fail .malformed
          | _, _ => .fail .malformed

/-- Result of pulling on the event stream: an event, or one of the two
control sentinels. -/
inductive NextRes
  | ev (e : Event)
  | needData
  | paused
deriving DecidableEq, Repr

/-- Modelled from the spec: the event produced when a reader runs dry
exactly at EOF: clean close outside a body, EndOfMessage for a
read-until-close body, and a premature-close error inside any other
body. -/
def eofOutcome (c : Connection) : Except RemoteErr Event :=
  if c.theirState = .sendBody then
    match c.readerBody with
    | some .untilClose => .ok (.endOfMessage [])
    | _ => .error .prematureEof
  else .ok .connectionClosed

/-- Modelled from the spec: select and run one step of the reader that
serves the peer's current state: header blocks while a start-line is
due, the installed body reader during a body, and nothing at all in the
finished states. -/
def readerStep (c : Connection) : RStep :=
  match c.theirRole, c.theirState with
  | .client, .idle => requestStep c.buffer
  | .server, .idle => responseStep c.buffer
  | .server, .sendResponse => responseStep c.buffer
  | _, .sendBody =>
      match c.readerBody with
      | some st => bodyStep st c.buffer
      | none => .fail .protocolViolation
  | _, _ => if c.buffer = [] then .more 0 c.readerBody else .fail .protocolViolation

/-- Modelled from the spec: pull the next event off the receive side: a
failed peer keeps failing, the paused conditions report the paused
sentinel without touching the buffer, and otherwise the reader for the
peer's current state runs one step, its event is fed through the state
machine, and EOF is turned into the appropriate outcome. -/
def nextEvent (c : Connection) : Except RemoteErr NextRes × Connection :=
  if c.theirState = .error then (.error .peerInError, c)
  else if c.theirState = .done ∧ c.buffer ≠ [] then (.ok .paused, c)
  else if c.theirState = .mightSwitchProtocol ∨ c.theirState = .switchedProtocol then
    (.ok .paused, c)
  else
    match readerStep c with
    | .fail r => (.error r, c.setTheirError)
    | .out e n next =>
        let c1 := { c with buffer := c.buffer.drop n, readerBody := next }
        match processReceivedEvent c1 e with
        | some c2 => (.ok (.ev e), c2)
        | none => (.error .protocolViolation, c1.setTheirError)
    | .more n next =>
        let c1 := { c with buffer := c.buffer.drop n, readerBody := next }
        if c1.eofReceived then
          if c1.buffer = [] then
            match eofOutcome c1 with
            | .ok e =>
                let c2 := { c1 with readerBody := none }
                match processReceivedEvent c2 e with
                | some c3 => (.ok (.ev e), c3)
                | none => (.error .protocolViolation, c2.setTheirError)
            | .error r => (.error r, c1.setTheirError)
          else (.error .prematureEof, c1.setTheirError)
        else (.ok .needData, c1)

/-! ## Sending -/

/-- Modelled from the spec: the engine-inserted chunked framing header,
with its titlecased canonical name. -/
def addedTE : HeaderEntry :=
  { rawName := asciiBytes "Transfer-Encoding", name := asciiBytes "transfer-encoding",
    value := asciiBytes "chunked" }

/-- Modelled from the spec: the engine-inserted close header, with its
titlecased canonical name. -/
def addedClose : HeaderEntry :=
  { rawName := asciiBytes "Connection", name := asciiBytes "connection",
    value := asciiBytes "close" }

/-- Modelled from the spec: decide the write framing of a response and
adjust its headers: bodyless statuses use a zero length, an explicit
Content-Length is respected, an HTTP/1.1 peer gets chunked framing
(inserted when absent), and an older or unknown peer gets
read-until-close with Transfer-Encoding stripped and close forced;
a disabled keep-alive also forces the close header. -/
def responseWriterSetup (reqMethod : Option Bytes) (theirVer : Option Bytes)
    (keepAlive : Bool) (status : Nat) (hs : Headers) : Headers × Framing :=
  let withClose : Headers → Headers := fun h =>
    if keepAlive ∨ hasConnectionClose h then h else h ++ [addedClose]
  let special := status = 204 ∨ status = 304 ∨ reqMethod = some (asciiBytes "HEAD") ∨
      (reqMethod = some (asciiBytes "CONNECT") ∧ 200 ≤ status ∧ status < 300)
  if special then (withClose hs, .contentLength 0)
  else
    match contentLengthOf hs with
    | some n => (withClose hs, .contentLength n)
    | none =>
        if theirVer = some (asciiBytes "1.1") then
          if hasChunkedTE hs then (withClose hs, .chunked)
          else (withClose (hs ++ [addedTE]), .chunked)
        else
          let hs1 := hs.filter (fun e => e.name ≠ asciiBytes "transfer-encoding")
          ((if hasConnectionClose hs1 then hs1 else hs1 ++ [addedClose]), .readUntilClose)

/-- Modelled from the spec: send an event: a failed side keeps failing,
event validation and state-machine legality are checked, response
framing headers are adjusted, the body writer frames Data and
EndOfMessage, and every local protocol error moves our side to ERROR.
Returns the wire bytes, or nothing in place of bytes for
ConnectionClosed. -/
def send (c : Connection) (e : Event) : Except LocalErr (Option Bytes) × Connection :=
  let fail : LocalErr → Except LocalErr (Option Bytes) × Connection :=
    fun er => (.error er, c.setOurError)
  if c.ourState = .error then (.error .illegalInState, c)
  else
    match e with
    | .request m t hs v =>
        if c.ourRole ≠ .client then fail .illegalInState
        else if v ≠ asciiBytes "1.1" then fail .invalidEvent
        else if ¬ validRequest m t hs v then fail .invalidEvent
        else
          let s1 := switchProposalUpdate c.cstate m hs
          match processEvent s1 .client (.request m t hs v) with
          | none => fail .illegalInState
          | some s2 =>
              let s3 := if keepAliveOf hs v then s2 else couple { s2 with keepAlive := false }
              (.ok (some (writeRequest m t hs)),
               { c with
                 cstate := s3
                 requestMethod := some m
                 writerBody := some (framingToWriter (requestFraming hs)) })
    | .response status hs v reason =>
        if c.ourRole ≠ .server then fail .illegalInState
        else if v ≠ asciiBytes "1.1" then fail .invalidEvent
        else if ¬ validResponse false status hs v then fail .invalidEvent
        else
          let pair := responseWriterSetup c.requestMethod c.theirHttpVersion
              c.cstate.keepAlive status hs
          match processResponseEvent c.cstate .server status pair.1 v reason with
          | none => fail .illegalInState
          | some s3 =>
              (.ok (some (writeResponse status reason pair.1)),
               { c with cstate := s3, writerBody := some (framingToWriter pair.2) })
    | .informationalResponse status hs v reason =>
        if c.ourRole ≠ .server then fail .illegalInState
        else if v ≠ asciiBytes "1.1" then fail .invalidEvent
        else if ¬ validResponse true status hs v then fail .invalidEvent
        else
          let step := if switchAccepted c.cstate.switch true status then
              resolveSwitch c.cstate true status
            else processEvent c.cstate .server (.informationalResponse status hs v reason)
          match step with
          | none => fail .illegalInState
          | some s1 =>
              (.ok (some (writeResponse status reason hs)), { c with cstate := s1 })
    | .data d _ _ =>
        match processEvent c.cstate c.ourRole e with
        | none => fail .illegalInState
        | some s2 =>
            match c.writerBody with
            | some (.wcl r) =>
                match contentLengthSendData r d with
                | .ok (bs, r2) =>
                    (.ok (some bs), { c with cstate := s2, writerBody := some (.wcl r2) })
                | .error er => fail er
            | some .wchunk => (.ok (some (chunkedSendData d)), { c with cstate := s2 })
            | some .wuntil => (.ok (some d), { c with cstate := s2 })
            | none => fail .illegalInState
    | .endOfMessage ts =>
        match processEvent c.cstate c.ourRole e with
        | none => fail .illegalInState
        | some s2 =>
            match c.writerBody with
            | some (.wcl r) =>
                match contentLengthSendEom r ts with
                | .ok bs =>
                    (.ok (some bs), { c with cstate := s2, writerBody := none })
                | .error er => fail er
            | some .wchunk =>
                if normalizeHeaders ts matches .ok _ then
                  (.ok (some (chunkedSendEom ts)), { c with cstate := s2, writerBody := none })
                else fail .invalidEvent
            | some .wuntil =>
                match untilCloseSendEom ts with
                | .ok bs => (.ok (some bs), { c with cstate := s2, writerBody := none })
                | .error er => fail er
            | none => fail .illegalInState
    | .connectionClosed =>
        match processEvent c.cstate c.ourRole e with
        | none => fail .illegalInState
        | some s2 => (.ok none, { c with cstate := s2 })

/-- Modelled from the spec: explicit connection reset between cycles:
delegates the permission check and the state reset to the joint state
machine, clears the per-cycle method and body framing state, and keeps
the peer's HTTP version, the buffer, and both sub-states. -/
def startNextCycle (c : Connection) : Except LocalErr Connection :=
  match c.cstate.startNextCycle with
  | .error e => .error e
  | .ok cs =>
      .ok { c with
            cstate := cs
            requestMethod := none
            readerBody := none
            writerBody := none }

/-- Modelled from the spec: the paused condition: pipelined bytes after
the peer finished, a switch proposal awaiting its decision, or a
completed protocol switch. -/
def pausedCond (c : Connection) : Prop :=
  (c.theirState = .done ∧ c.buffer ≠ []) ∨ c.theirState = .mightSwitchProtocol ∨
    c.theirState = .switchedProtocol

instance (c : Connection) : Decidable (pausedCond c) := by
  unfold pausedCond; infer_instance

/-! ## Whole-run harnesses -/

/-- Send a sequence of events, collecting every returned byte chunk; the
run stops at the first local protocol error. -/
def sendAll : Connection → List Event → Except LocalErr (List Bytes × Connection)
  | c, [] => .ok ([], c)
  | c, e :: rest =>
      match send c e with
      | (.ok ob, c1) =>
          match sendAll c1 rest with
          | .ok (bs, c2) => .ok (ob.toList ++ bs, c2)
          | .error er => .error er
      | (.error er, _) => .error er

/-- Pump the receive side: call next_event repeatedly, collecting events
until it reports need-data or paused or raises. -/
def pump : Nat → Connection → List Event × Except RemoteErr NextRes × Connection
  | 0, c => ([], .ok .needData, c)
  | fuel + 1, c =>
      match nextEvent c with
      | (.ok (.ev e), c1) =>
          let r := pump fuel c1
          (e :: r.1, r.2.1, r.2.2)
      | (.ok .needData, c1) => ([], .ok .needData, c1)
      | (.ok .paused, c1) => ([], .ok .paused, c1)
      | (.error r, c1) => ([], .error r, c1)

/-- Feed one byte string to a fresh connection of the given role and
pump every event out of it. -/
def feedAll (r : Role) (wire : Bytes) : List Event × Except RemoteErr NextRes × Connection :=
  pump (2 * wire.length + 2) { Connection.fresh r with buffer := wire }

/-! ## Claim C6: connection reset -/

/-- C6: start_next_cycle succeeds exactly when both per-role states are
DONE, keep-alive is enabled and the switch sub-state is not switched; on
success both sides return to IDLE while the peer's HTTP version and the
keep-alive and switch sub-states are unchanged; otherwise it raises a
local protocol error (and, the model being functional, no changed
connection is produced). -/
theorem h11_c6_start_next_cycle (c : Connection) :
    ((∃ c2 : Connection, startNextCycle c = .ok c2) ↔
      (c.cstate.client = .done ∧ c.cstate.server = .done ∧ c.cstate.keepAlive = true ∧
        c.cstate.switch ≠ .switched)) ∧
    (∀ c2 : Connection, startNextCycle c = .ok c2 →
      c2.cstate.client = .idle ∧ c2.cstate.server = .idle ∧
      c2.theirHttpVersion = c.theirHttpVersion ∧
      c2.cstate.keepAlive = c.cstate.keepAlive ∧
      c2.cstate.switch = c.cstate.switch ∧
      c2.ourRole = c.ourRole ∧ c2.buffer = c.buffer) ∧
    (¬(c.cstate.client = .done ∧ c.cstate.server = .done ∧ c.cstate.keepAlive = true ∧
        c.cstate.switch ≠ .switched) → startNextCycle c = .error .notReady) := by
  unfold startNextCycle CState.startNextCycle
  by_cases h : c.cstate.client = .done ∧ c.cstate.server = .done ∧
      c.cstate.keepAlive = true ∧ c.cstate.switch ≠ .switched
  · have h' : c.cstate.client = .done ∧ c.cstate.server = .done ∧
        c.cstate.keepAlive ∧ c.cstate.switch ≠ .switched := by
      refine ⟨h.1, h.2.1, ?_, h.2.2.2⟩
      simp [h.2.2.1]
    rw [if_pos h']
    refine ⟨⟨fun _ => h, fun _ => ⟨_, rfl⟩⟩, ?_, fun hn => absurd h hn⟩
    intro c2 hc2
    cases hc2
    exact ⟨rfl, rfl, rfl, rfl, rfl, rfl, rfl⟩
  · have h' : ¬(c.cstate.client = .done ∧ c.cstate.server = .done ∧
        c.cstate.keepAlive ∧ c.cstate.switch ≠ .switched) := by
      intro hx
      exact h ⟨hx.1, hx.2.1, by simpa using hx.2.2.1, hx.2.2.2⟩
    rw [if_neg h']
    refine ⟨⟨fun hex => ?_, fun hx => absurd hx h⟩, ?_, fun _ => rfl⟩
    · obtain ⟨c2, hc2⟩ := hex
      cases hc2
    · intro c2 hc2
      cases hc2

/-- A connection with both sides DONE, as left after one full cycle. -/
def doneConn : Connection :=
  { Connection.fresh .client with
    cstate := { client := .done, server := .done, keepAlive := true, switch := .noProposal }
    theirHttpVersion := some (asciiBytes "1.1") }

/-- C6 witness: on a concrete finished connection the reset succeeds,
returns both sides to IDLE, and preserves the peer version and the
sub-states; and on a fresh (IDLE) connection it fails. -/
theorem h11_c6_start_next_cycle_witness :
    (∃ c2 : Connection, startNextCycle doneConn = .ok c2) ∧
    (∀ c2 : Connection, startNextCycle doneConn = .ok c2 →
      c2.cstate.client = .idle ∧ c2.cstate.server = .idle ∧
      c2.theirHttpVersion = some (asciiBytes "1.1")) ∧
    startNextCycle (Connection.fresh .server) = .error .notReady := by
  refine ⟨(h11_c6_start_next_cycle doneConn).1.2 (by decide), ?_, ?_⟩
  · intro c2 h
    have := (h11_c6_start_next_cycle doneConn).2.1 c2 h
    exact ⟨this.1, this.2.1, this.2.2.1⟩
  · exact (h11_c6_start_next_cycle (Connection.fresh .server)).2.2 (by decide)

/-! ## Claim C9: error responses straight from IDLE -/

/-- The coupling pass never changes the switch sub-state. -/
theorem couple_switch (s : CState) : (couple s).switch = s.switch := by
  unfold couple; split <;> rfl

/-- The coupling pass never changes the keep-alive latch. -/
theorem couple_keepAlive (s : CState) : (couple s).keepAlive = s.keepAlive := by
  unfold couple; split <;> rfl

/-- A server in SEND_BODY stays there under the coupling pass when no
switch has completed. -/
theorem couple_server_sendBody (s : CState) (hsw : s.switch ≠ .switched)
    (hsv : s.server = .sendBody) : (couple s).server = .sendBody := by
  unfold couple
  rw [if_neg hsw]
  simp [hsv]

/-- A response sent or received with no pending proposal moves an IDLE
or SEND_RESPONSE server to SEND_BODY through the shared bookkeeping. -/
theorem processResponseEvent_server_state (s : CState) (status : Nat) (hs : Headers)
    (v reason : Bytes) (hsw : s.switch = .noProposal)
    (hsv : s.server = .idle ∨ s.server = .sendResponse) :
    ∃ s3 : CState, processResponseEvent s .server status hs v reason = some s3 ∧
      s3.server = .sendBody := by
  obtain ⟨sc, sv, ka, sw⟩ := s
  simp only at hsw hsv
  subst hsw
  by_cases hka : keepAliveOf hs v = true <;>
    rcases hsv with h | h <;> subst h <;>
    simp only [processResponseEvent, resolveSwitch, switchAccepted, processEvent,
      serverTransition, couple, Bind.bind, Option.bind, hka, reduceCtorEq, reduceIte,
      false_and, and_false, not_false_eq_true, true_and, and_true, if_false, if_true,
      Bool.false_eq_true, ite_false, ite_true] <;>
    exact ⟨_, rfl, by simp⟩

/-- Shared workhorse: a server-role connection whose server state is
IDLE accepts a valid Response through send and moves to SEND_BODY. -/
theorem sendResponse_from_idle (c : Connection) (status : Nat) (hs : Headers)
    (reason : Bytes)
    (hrole : c.ourRole = .server) (hidle : c.ourState = .idle)
    (hsw : c.cstate.switch = .noProposal)
    (hv : validResponse false status hs (asciiBytes "1.1") = true) :
    ∃ (bs : Bytes) (c2 : Connection),
      send c (.response status hs (asciiBytes "1.1") reason) = (.ok (some bs), c2) ∧
      c2.ourState = .sendBody := by
  have hsv : c.cstate.server = .idle := by
    simpa [Connection.ourState, hrole, CState.get] using hidle
  have hne : c.ourState ≠ .error := by rw [hidle]; intro h; cases h
  simp only [send, if_neg hne, hrole]
  simp only [ne_eq, not_true_eq_false, if_false, reduceIte, hv, not_true_eq_false]
  obtain ⟨s3, hps, hs3⟩ := processResponseEvent_server_state c.cstate status
    (responseWriterSetup c.requestMethod c.theirHttpVersion c.cstate.keepAlive status hs).1
    (asciiBytes "1.1") reason hsw (Or.inl hsv)
  rw [hps]
  refine ⟨_, _, rfl, ?_⟩
  simp [Connection.ourState, CState.get, hs3]

/-- C9: a server-role connection whose server state is IDLE may legally
send a Response even though no Request was ever received: send returns
bytes without raising and the server state moves to SEND_BODY.  This is
the path used for error responses such as 400 or 408. -/
theorem h11_c9_response_from_idle (c : Connection) (status : Nat) (hs : Headers)
    (reason : Bytes)
    (hrole : c.ourRole = .server) (hidle : c.ourState = .idle)
    (hsw : c.cstate.switch = .noProposal)
    (hv : validResponse false status hs (asciiBytes "1.1") = true) :
    ∃ (bs : Bytes) (c2 : Connection),
      send c (.response status hs (asciiBytes "1.1") reason) = (.ok (some bs), c2) ∧
      c2.ourState = .sendBody :=
  sendResponse_from_idle c status hs reason hrole hidle hsw hv

/-- C9 witness: a fresh server connection sends a 400 Bad Request from
IDLE without raising and lands in SEND_BODY. -/
theorem h11_c9_response_from_idle_witness :
    ∃ (bs : Bytes) (c2 : Connection),
      send (Connection.fresh .server)
        (.response 400 [] (asciiBytes "1.1") (asciiBytes "Bad Request")) =
        (.ok (some bs), c2) ∧
      c2.ourState = .sendBody :=
  h11_c9_response_from_idle (Connection.fresh .server) 400 [] (asciiBytes "Bad Request")
    (by decide) (by decide) (by decide) (by decide)

/-! ## Claim C3: Content-Length exactness -/

/-- Summed payload length of an empty list. -/
theorem sumLens_nil : sumLens [] = 0 := rfl

/-- Summed payload length of a cons. -/
theorem sumLens_cons (d : Bytes) (ds : List Bytes) :
    sumLens (d :: ds) = d.length + sumLens ds := by
  simp [sumLens]

/-- One unfolding of the Content-Length body run. -/
theorem runCLData_cons (r i : Nat) (d : Bytes) (ds : List Bytes) :
    runCLData r i (d :: ds) =
      if d.length ≤ r then runCLData (r - d.length) (i + 1) ds
      else .error (.tooMuch i) := by
  simp only [runCLData, contentLengthSendData]
  by_cases h : d.length ≤ r
  · simp only [if_pos h]
  · simp only [if_neg h]

/-- The Data stage of a Content-Length run never reports a shortfall;
that is EndOfMessage's complaint. -/
theorem runCLData_not_tooLittle (ds : List Bytes) : ∀ r i : Nat,
    runCLData r i ds ≠ .error .tooLittle := by
  induction ds with
  | nil => intro r i h; cases h
  | cons d ds ih =>
      intro r i h
      rw [runCLData_cons] at h
      by_cases hle : d.length ≤ r
      · rw [if_pos hle] at h; exact ih _ _ h
      · rw [if_neg hle] at h; cases h

/-- Full characterization of a Content-Length body run: success returns
the leftover budget exactly when the payloads fit, and a failure names
the first payload that would overshoot. -/
theorem runCLData_spec (ds : List Bytes) : ∀ r i : Nat,
    (∀ r2 : Nat, runCLData r i ds = .ok r2 ↔ (sumLens ds ≤ r ∧ r2 = r - sumLens ds)) ∧
    (∀ j : Nat, runCLData r i ds = .error (.tooMuch j) ↔
      (i ≤ j ∧ j - i < ds.length ∧ sumLens (ds.take (j - i)) ≤ r ∧
        r < sumLens (ds.take (j - i + 1)))) := by
  induction ds with
  | nil =>
      intro r i
      constructor
      · intro r2
        simp only [runCLData, sumLens_nil]
        constructor
        · intro h; cases h; exact ⟨Nat.zero_le r, by omega⟩
        · intro h; rw [h.2, Nat.sub_zero]
      · intro j
        simp only [runCLData, List.length_nil]
        constructor
        · intro h; cases h
        · intro h; omega
  | cons d ds ih =>
      intro r i
      by_cases hle : d.length ≤ r
      · constructor
        · intro r2
          rw [runCLData_cons, if_pos hle]
          rw [(ih (r - d.length) (i + 1)).1 r2]
          simp only [sumLens_cons]
          omega
        · intro j
          rw [runCLData_cons, if_pos hle]
          rw [(ih (r - d.length) (i + 1)).2 j]
          by_cases hj : i + 1 ≤ j
          · have h1 : j - i = (j - (i + 1)) + 1 := by omega
            rw [h1, List.take_succ_cons, List.take_succ_cons, sumLens_cons, sumLens_cons]
            simp only [List.length_cons]
            omega
          · constructor
            · intro h; omega
            · intro h
              exfalso
              have hji : j = i := by omega
              subst hji
              have h4 := h.2.2.2
              rw [Nat.sub_self] at h4
              rw [show (0 + 1 : Nat) = Nat.succ 0 from rfl, List.take_succ_cons,
                List.take_zero, sumLens_cons, sumLens_nil] at h4
              omega
      · constructor
        · intro r2
          rw [runCLData_cons, if_neg hle]
          constructor
          · intro h; cases h
          · intro h
            have := h.1
            rw [sumLens_cons] at this
            omega
        · intro j
          rw [runCLData_cons, if_neg hle]
          constructor
          · intro h
            cases h
            refine ⟨Nat.le_refl i, by simp, ?_, ?_⟩
            · rw [Nat.sub_self, List.take_zero, sumLens_nil]
              exact Nat.zero_le r
            · rw [Nat.sub_self]
              rw [show (0 + 1 : Nat) = Nat.succ 0 from rfl, List.take_succ_cons,
                List.take_zero, sumLens_cons, sumLens_nil]
              omega
          · intro h
            obtain ⟨h1, h2, h3, h4⟩ := h
            by_cases hj : j = i
            · rw [hj]
            · exfalso
              have hgt : i + 1 ≤ j := by omega
              have hsub : j - i = (j - (i + 1)) + 1 := by omega
              rw [hsub, List.take_succ_cons, sumLens_cons] at h3
              omega

/-- C3: under Content-Length framing with declared length n, the body
writer errors exactly at the first Data event whose payload would push
the cumulative length beyond n, errors at EndOfMessage exactly when the
total stayed short of n, and a run that raises no error has Data
payloads summing to exactly n. -/
theorem h11_c3_content_length_exact (n : Nat) (ds : List Bytes) :
    (runCLMessage n ds = .ok () ↔ sumLens ds = n) ∧
    (runCLMessage n ds = .error .tooLittle ↔ sumLens ds < n) ∧
    (∀ i : Nat, runCLMessage n ds = .error (.tooMuch i) ↔
      (i < ds.length ∧ sumLens (ds.take i) ≤ n ∧ n < sumLens (ds.take (i + 1)))) := by
  have hspec := runCLData_spec ds n 0
  unfold runCLMessage
  cases hrun : runCLData n 0 ds with
  | error e =>
      cases e with
      | tooMuch j =>
          have hj := (hspec.2 j).1 hrun
          simp only [Nat.sub_zero] at hj
          have hnotok : ¬ sumLens ds ≤ n := by
            intro hle2
            have hx := (hspec.1 (n - sumLens ds)).2 ⟨hle2, rfl⟩
            rw [hrun] at hx
            cases hx
          refine ⟨?_, ?_, ?_⟩
          · constructor
            · intro h; cases h
            · intro h; omega
          · constructor
            · intro h; cases h
            · intro h; omega
          · intro i
            constructor
            · intro h
              cases h
              exact ⟨hj.2.1, hj.2.2.1, hj.2.2.2⟩
            · intro h
              obtain ⟨h1, h2, h3⟩ := h
              have hji := (hspec.2 i).2 ⟨Nat.zero_le i, by simpa using h1,
                by simpa using h2, by simpa using h3⟩
              rw [hrun] at hji
              cases hji
              rfl
      | tooLittle => exact absurd hrun (runCLData_not_tooLittle ds n 0)
  | ok r =>
      have hok := (hspec.1 r).1 hrun
      by_cases hr : r = 0
      · subst hr
        simp only [show contentLengthSendEom 0 [] = .ok [] from rfl]
        refine ⟨?_, ?_, ?_⟩
        · constructor
          · intro _; omega
          · intro _; trivial
        · constructor
          · intro h; cases h
          · intro h; omega
        · intro i
          constructor
          · intro h; cases h
          · intro h
            obtain ⟨h1, h2, h3⟩ := h
            have hji := (hspec.2 i).2 ⟨Nat.zero_le i, by simpa using h1,
              by simpa using h2, by simpa using h3⟩
            rw [hrun] at hji
            cases hji
      · have hceom : contentLengthSendEom r [] = .error .tooLittleData := by
          unfold contentLengthSendEom
          rw [if_pos hr]
        simp only [hceom]
        refine ⟨?_, ?_, ?_⟩
        · constructor
          · intro h; cases h
          · intro h; omega
        · constructor
          · intro _; omega
          · intro _; trivial
        · intro i
          constructor
          · intro h; cases h
          · intro h
            obtain ⟨h1, h2, h3⟩ := h
            have hji := (hspec.2 i).2 ⟨Nat.zero_le i, by simpa using h1,
              by simpa using h2, by simpa using h3⟩
            rw [hrun] at hji
            cases hji

/-- C3 witness: with declared length 4, payloads ab and cd pass exactly;
against 5 the EndOfMessage is short; against 3 the second Data (index 1)
overshoots. -/
theorem h11_c3_content_length_exact_witness :
    runCLMessage 4 [asciiBytes "ab", asciiBytes "cd"] = .ok () ∧
    runCLMessage 5 [asciiBytes "ab", asciiBytes "cd"] = .error .tooLittle ∧
    runCLMessage 3 [asciiBytes "ab", asciiBytes "cd"] = .error (.tooMuch 1) := by
  refine ⟨(h11_c3_content_length_exact 4 [asciiBytes "ab", asciiBytes "cd"]).1.mpr (by decide),
    (h11_c3_content_length_exact 5 [asciiBytes "ab", asciiBytes "cd"]).2.1.mpr (by decide),
    ((h11_c3_content_length_exact 3 [asciiBytes "ab", asciiBytes "cd"]).2.2 1).mpr (by decide)⟩

/-! ## Claim C4: chunked write framing -/

/-- Hex digit bytes decode back to their value. -/
theorem hexVal_hexDigitByte (k : Nat) (h : k < 16) : hexVal (hexDigitByte k) = k := by
  unfold hexVal hexDigitByte
  split_ifs <;> omega

/-- Hex digit bytes are hex digits. -/
theorem hexByte_hexDigitByte (k : Nat) (h : k < 16) : hexByte (hexDigitByte k) = true := by
  unfold hexByte hexDigitByte
  split_ifs <;> simp <;> omega

/-- The little-endian digit expansion evaluates back to its number and
consists of hex digits. -/
theorem hexDigitsLEGo_spec : ∀ fuel n : Nat, n ≤ fuel →
    (hexDigitsLEGo fuel n).foldr (fun b acc => acc * 16 + hexVal b) 0 = n ∧
    ∀ b ∈ hexDigitsLEGo fuel n, hexByte b = true := by
  intro fuel
  induction fuel with
  | zero =>
      intro n hn
      have : n = 0 := Nat.le_zero.mp hn
      subst this
      exact ⟨rfl, by intro b hb; cases hb⟩
  | succ fuel ih =>
      intro n hn
      match n with
      | 0 => exact ⟨rfl, by intro b hb; cases hb⟩
      | m + 1 =>
          have hdiv : (m + 1) / 16 ≤ fuel := by
            have := Nat.div_lt_self (Nat.succ_pos m) (show 1 < 16 by omega)
            omega
          obtain ⟨ih1, ih2⟩ := ih ((m + 1) / 16) hdiv
          have hmod : (m + 1) % 16 < 16 := Nat.mod_lt _ (by omega)
          constructor
          · simp only [hexDigitsLEGo, List.foldr_cons, ih1, hexVal_hexDigitByte _ hmod]
            omega
          · intro b hb
            simp only [hexDigitsLEGo, List.mem_cons] at hb
            rcases hb with hb | hb
            · rw [hb]; exact hexByte_hexDigitByte _ hmod
            · exact ih2 b hb

/-- The hexadecimal rendering of a chunk size decodes to the size. -/
theorem hexNat_hexOfNat (n : Nat) : hexNat (hexOfNat n) = n := by
  unfold hexOfNat
  by_cases h : n = 0
  · subst h; rfl
  · rw [if_neg h]
    unfold hexNat
    rw [List.foldl_reverse]
    exact (hexDigitsLEGo_spec n n (Nat.le_refl n)).1

/-- The hexadecimal rendering of a chunk size uses only hex digits. -/
theorem hexOfNat_all_hex (n : Nat) : (hexOfNat n).all hexByte = true := by
  unfold hexOfNat
  by_cases h : n = 0
  · subst h; rfl
  · rw [if_neg h]
    rw [List.all_eq_true]
    intro b hb
    rw [List.mem_reverse] at hb
    exact (hexDigitsLEGo_spec n n (Nat.le_refl n)).2 b hb

/-- The hexadecimal rendering of a chunk size is never empty. -/
theorem hexOfNat_ne_nil (n : Nat) : hexOfNat n ≠ [] := by
  unfold hexOfNat
  by_cases h : n = 0
  · subst h; simp
  · rw [if_neg h]
    intro hc
    have : hexDigitsLE n = [] := by
      have := congrArg List.reverse hc
      simpa using this
    match n, h with
    | m + 1, _ =>
        unfold hexDigitsLE hexDigitsLEGo at this
        cases this

/-- C4: under chunked write framing every Data with a nonempty payload
becomes exactly one chunk: a nonempty hex size line decoding to the
payload length, CRLF, the payload, CRLF; an empty Data emits no bytes at
all; and EndOfMessage becomes the zero chunk followed by the trailer
headers and a final CRLF. -/
theorem h11_c4_chunked_writer :
    (∀ d : Bytes, d ≠ [] →
      ∃ sizeline : Bytes, sizeline ≠ [] ∧ sizeline.all hexByte = true ∧
        hexNat sizeline = d.length ∧
        chunkedSendData d = sizeline ++ crlf ++ d ++ crlf) ∧
    chunkedSendData [] = [] ∧
    (∀ trailers : Headers, (∀ e ∈ trailers, isHost e = false) →
      chunkedSendEom trailers = [48] ++ crlf ++ renderEntries trailers ++ crlf) := by
  refine ⟨?_, rfl, ?_⟩
  · intro d hd
    refine ⟨hexOfNat d.length, hexOfNat_ne_nil _, hexOfNat_all_hex _, hexNat_hexOfNat _, ?_⟩
    unfold chunkedSendData
    rw [if_neg hd]
  · intro trailers hnh
    unfold chunkedSendEom writeHeaders
    have h1 : trailers.filter isHost = [] := by
      rw [List.filter_eq_nil_iff]
      intro e he
      rw [hnh e he]
      intro hc
      cases hc
    have h2 : trailers.filter (fun e => !isHost e) = trailers := by
      rw [List.filter_eq_self]
      intro e he
      rw [hnh e he]
      rfl
    rw [h1, h2]
    rfl

/-- C4 witness: the concrete encodings of a two-byte Data, an empty
Data, and an EndOfMessage with one trailer header. -/
theorem h11_c4_chunked_writer_witness :
    (∃ sizeline : Bytes, sizeline ≠ [] ∧ sizeline.all hexByte = true ∧
      hexNat sizeline = (asciiBytes "ab").length ∧
      chunkedSendData (asciiBytes "ab") = sizeline ++ crlf ++ asciiBytes "ab" ++ crlf) ∧
    chunkedSendData [] = [] ∧
    chunkedSendEom
        [{ rawName := asciiBytes "X-Trailer", name := asciiBytes "x-trailer",
           value := asciiBytes "t" }] =
      [48] ++ crlf ++
        renderEntries
          [{ rawName := asciiBytes "X-Trailer", name := asciiBytes "x-trailer",
             value := asciiBytes "t" }] ++ crlf := by
  refine ⟨h11_c4_chunked_writer.1 (asciiBytes "ab") (by decide), h11_c4_chunked_writer.2.1, ?_⟩
  exact h11_c4_chunked_writer.2.2 _ (by decide)

/-! ## Claim C10: the Host header is sent first -/

/-- C10: when a Request event is serialized, the Host header is written
first in the outgoing header block no matter where it sat in the
event's header list, and all other headers keep their relative order. -/
theorem h11_c10_host_header_first (m t : Bytes) (pre post : Headers) (h : HeaderEntry)
    (hh : isHost h = true)
    (hpre : ∀ e ∈ pre, isHost e = false)
    (hpost : ∀ e ∈ post, isHost e = false) :
    writeRequest m t (pre ++ h :: post) =
      writeRequestLine m t ++ renderEntry h ++ renderEntries (pre ++ post) ++ crlf := by
  unfold writeRequest writeHeaders
  have hfpre : pre.filter isHost = [] := by
    rw [List.filter_eq_nil_iff]
    intro e he hc
    rw [hpre e he] at hc
    cases hc
  have hfpost : post.filter isHost = [] := by
    rw [List.filter_eq_nil_iff]
    intro e he hc
    rw [hpost e he] at hc
    cases hc
  have h1 : (pre ++ h :: post).filter isHost = [h] := by
    rw [List.filter_append, List.filter_cons_of_pos hh, hfpre, hfpost]
    rfl
  have hspre : pre.filter (fun e => !isHost e) = pre := by
    rw [List.filter_eq_self]
    intro e he
    rw [hpre e he]
    rfl
  have hspost : post.filter (fun e => !isHost e) = post := by
    rw [List.filter_eq_self]
    intro e he
    rw [hpost e he]
    rfl
  have h2 : (pre ++ h :: post).filter (fun e => !isHost e) = pre ++ post := by
    rw [List.filter_append, List.filter_cons_of_neg (by rw [hh]; intro hc; cases hc),
      hspre, hspost]
  rw [h1, h2]
  simp [renderEntries]

/-- C10 witness: a Host entry listed second is nonetheless serialized
directly after the request line, before the other header. -/
theorem h11_c10_host_header_first_witness :
    writeRequest (asciiBytes "GET") (asciiBytes "/")
        [{ rawName := asciiBytes "Accept", name := asciiBytes "accept",
           value := asciiBytes "*/*" },
         { rawName := asciiBytes "Host", name := asciiBytes "host",
           value := asciiBytes "example.com" }] =
      writeRequestLine (asciiBytes "GET") (asciiBytes "/") ++
        renderEntry { rawName := asciiBytes "Host", name := asciiBytes "host",
                      value := asciiBytes "example.com" } ++
        renderEntries [{ rawName := asciiBytes "Accept", name := asciiBytes "accept",
                         value := asciiBytes "*/*" }] ++ crlf := by
  have h := h11_c10_host_header_first (asciiBytes "GET") (asciiBytes "/")
    [{ rawName := asciiBytes "Accept", name := asciiBytes "accept",
       value := asciiBytes "*/*" }] []
    { rawName := asciiBytes "Host", name := asciiBytes "host",
      value := asciiBytes "example.com" }
    (by decide) (by decide) (by decide)
  simpa using h

/-! ## Claim C7: the paused condition is absorbing -/

/-- Iterate the connection through repeated next_event calls. -/
def iterNext : Nat → Connection → Connection
  | 0, c => c
  | n + 1, c => (nextEvent (iterNext n c)).2

/-- C7: in the paused condition next_event returns the paused sentinel
and touches nothing, it keeps doing so forever, and bytes received while
paused are stored verbatim and exposed through trailing_data, leaving
the connection paused. -/
theorem h11_c7_paused_absorbing (c : Connection) (hp : pausedCond c) :
    nextEvent c = (.ok .paused, c) ∧
    (∀ n : Nat, iterNext n c = c ∧ nextEvent (iterNext n c) = (.ok .paused, iterNext n c)) ∧
    (∀ b : Bytes, b ≠ [] → c.eofReceived = false →
      ∃ c2 : Connection, receiveData c b = some c2 ∧
        trailingData c2 = (c.buffer ++ b, false) ∧ pausedCond c2) := by
  have hstep : nextEvent c = (.ok .paused, c) := by
    rcases hp with ⟨hd, hb⟩ | hs | hs
    · have hne : c.theirState ≠ .error := by rw [hd]; intro hx; cases hx
      unfold nextEvent
      rw [if_neg hne, if_pos ⟨hd, hb⟩]
    · have hne : c.theirState ≠ .error := by rw [hs]; intro hx; cases hx
      have hnd : ¬(c.theirState = .done ∧ c.buffer ≠ []) := by
        rw [hs]; intro hx; cases hx.1
      unfold nextEvent
      rw [if_neg hne, if_neg hnd, if_pos (Or.inl hs)]
    · have hne : c.theirState ≠ .error := by rw [hs]; intro hx; cases hx
      have hnd : ¬(c.theirState = .done ∧ c.buffer ≠ []) := by
        rw [hs]; intro hx; cases hx.1
      unfold nextEvent
      rw [if_neg hne, if_neg hnd, if_pos (Or.inr hs)]
  refine ⟨hstep, ?_, ?_⟩
  · intro n
    induction n with
    | zero => exact ⟨rfl, hstep⟩
    | succ n ih =>
        have h1 : iterNext (n + 1) c = c := by
          unfold iterNext
          rw [ih.2, ih.1]
        exact ⟨h1, by rw [h1]; exact hstep⟩
  · intro b hb heof
    refine ⟨{ c with buffer := c.buffer ++ b }, ?_, ?_, ?_⟩
    · unfold receiveData
      rw [if_neg hb, heof]
      rfl
    · unfold trailingData
      rw [heof]
    · rcases hp with ⟨hd, _⟩ | hs | hs
      · exact Or.inl ⟨hd, by simp [hb]⟩
      · exact Or.inr (Or.inl hs)
      · exact Or.inr (Or.inr hs)

/-- A concrete paused connection: a server that has read one full
pipelined request and still holds one stray byte. -/
def pausedServer : Connection :=
  { Connection.fresh .server with
    cstate := { client := .done, server := .sendResponse, keepAlive := true,
                switch := .noProposal }
    buffer := [65] }

/-- C7 witness: the concrete paused server keeps answering paused, and a
byte received while paused lands verbatim in trailing_data with the
connection still paused. -/
theorem h11_c7_paused_absorbing_witness :
    nextEvent pausedServer = (.ok .paused, pausedServer) ∧
    (∃ c2 : Connection, receiveData pausedServer [66] = some c2 ∧
      trailingData c2 = ([65, 66], false) ∧ pausedCond c2) := by
  have h := h11_c7_paused_absorbing pausedServer (by decide)
  exact ⟨h.1, h.2.2 [66] (by decide) (by decide)⟩

/-! ## Claim C5: remote protocol errors latch the peer's side -/

/-- Reading the field just written. -/
theorem CState.get_set_same (s : CState) (r : Role) (m : MState) :
    (s.set r m).get r = m := by cases r <;> rfl

/-- Reading the other role's field after a write. -/
theorem CState.get_set_other (s : CState) (r r2 : Role) (m : MState) (h : r ≠ r2) :
    (s.set r m).get r2 = s.get r2 := by
  cases r <;> cases r2 <;> first
    | rfl
    | exact absurd rfl h

/-- Writing a machine state leaves the switch sub-state alone. -/
theorem CState.set_switch (s : CState) (r : Role) (m : MState) :
    (s.set r m).switch = s.switch := by cases r <;> rfl

/-- Writing a machine state leaves the keep-alive latch alone. -/
theorem CState.set_keepAlive (s : CState) (r : Role) (m : MState) :
    (s.set r m).keepAlive = s.keepAlive := by cases r <;> rfl

/-- ERROR is terminal: the coupling pass never moves a side out of it. -/
theorem couple_get_error (s : CState) (r : Role) (h : s.get r = .error) :
    (couple s).get r = .error := by
  cases r <;>
    simp only [CState.get] at h ⊢ <;>
    unfold couple <;>
    by_cases hsw : s.switch = .switched <;>
    simp [hsw, h]

/-- An IDLE side stays IDLE under the coupling pass unless a switch has
completed. -/
theorem couple_get_idle (s : CState) (r : Role) (hsw : s.switch ≠ .switched)
    (h : s.get r = .idle) : (couple s).get r = .idle := by
  cases r <;>
    simp only [CState.get] at h ⊢ <;>
    unfold couple <;>
    simp [hsw, h]

/-- The two roles differ. -/
theorem Role.other_ne (r : Role) : r.other ≠ r := by cases r <;> intro h <;> cases h

/-- Every error reported by next_event leaves either an already failed
peer untouched or the peer's side freshly forced to ERROR. -/
theorem nextEvent_error_shape (c : Connection) {r : RemoteErr} {c2 : Connection}
    (h : nextEvent c = (.error r, c2)) :
    (c2 = c ∧ c.theirState = .error) ∨
      (c2.cstate = couple (c.cstate.set c.theirRole .error) ∧ c2.ourRole = c.ourRole) := by
  unfold nextEvent at h
  by_cases h1 : c.theirState = .error
  · rw [if_pos h1] at h
    rw [Prod.mk.injEq] at h
    exact Or.inl ⟨h.2.symm, h1⟩
  · rw [if_neg h1] at h
    by_cases h2 : c.theirState = .done ∧ c.buffer ≠ []
    · rw [if_pos h2] at h
      rw [Prod.mk.injEq] at h
      cases h.1
    · rw [if_neg h2] at h
      by_cases h3 : c.theirState = .mightSwitchProtocol ∨ c.theirState = .switchedProtocol
      · rw [if_pos h3] at h
        rw [Prod.mk.injEq] at h
        cases h.1
      · rw [if_neg h3] at h
        cases hst : readerStep c with
        | fail r2 =>
            rw [hst] at h
            rw [Prod.mk.injEq] at h
            rw [← h.2]
            exact Or.inr ⟨rfl, rfl⟩
        | out e n next =>
            rw [hst] at h
            simp only at h
            cases hpr : processReceivedEvent
                { c with buffer := c.buffer.drop n, readerBody := next } e with
            | some c3 =>
                rw [hpr] at h
                rw [Prod.mk.injEq] at h
                cases h.1
            | none =>
                rw [hpr] at h
                rw [Prod.mk.injEq] at h
                rw [← h.2]
                exact Or.inr ⟨rfl, rfl⟩
        | more n next =>
            rw [hst] at h
            simp only at h
            by_cases h4 : c.eofReceived = true
            · rw [if_pos h4] at h
              by_cases h5 : List.drop n c.buffer = []
              · rw [if_pos h5] at h
                cases heo : eofOutcome
                    { c with buffer := c.buffer.drop n, readerBody := next } with
                | ok e =>
                    rw [heo] at h
                    simp only at h
                    cases hpr : processReceivedEvent
                        { c with buffer := c.buffer.drop n, readerBody := none } e with
                    | some c3 =>
                        rw [hpr] at h
                        rw [Prod.mk.injEq] at h
                        cases h.1
                    | none =>
                        rw [hpr] at h
                        rw [Prod.mk.injEq] at h
                        rw [← h.2]
                        exact Or.inr ⟨rfl, rfl⟩
                | error r3 =>
                    rw [heo] at h
                    rw [Prod.mk.injEq] at h
                    rw [← h.2]
                    exact Or.inr ⟨rfl, rfl⟩
              · rw [if_neg h5] at h
                rw [Prod.mk.injEq] at h
                rw [← h.2]
                exact Or.inr ⟨rfl, rfl⟩
            · rw [if_neg h4] at h
              rw [Prod.mk.injEq] at h
              cases h.1

/-- C5: whenever next_event raises a remote protocol error the peer's
side has transitioned to ERROR, every further next_event call raises
again with the connection untouched, and send still works: a server
that had not yet responded can still emit a valid response such as a
400 Bad Request. -/
theorem h11_c5_remote_error_latch (c : Connection) :
    (c.theirState = .error → nextEvent c = (.error .peerInError, c)) ∧
    (∀ (r : RemoteErr) (c2 : Connection), nextEvent c = (.error r, c2) →
      c2.theirState = .error ∧
      (∀ n : Nat, iterNext n c2 = c2 ∧
        nextEvent (iterNext n c2) = (.error .peerInError, iterNext n c2)) ∧
      (c.ourRole = .server → c.ourState = .idle → c.cstate.switch = .noProposal →
        ∀ (status : Nat) (hs : Headers) (reason : Bytes),
          validResponse false status hs (asciiBytes "1.1") = true →
          ∃ (bs : Bytes) (c3 : Connection),
            send c2 (.response status hs (asciiBytes "1.1") reason) =
              (.ok (some bs), c3))) := by
  have hraise : ∀ d : Connection, d.theirState = .error →
      nextEvent d = (.error .peerInError, d) := by
    intro d hd
    unfold nextEvent
    rw [if_pos hd]
  refine ⟨hraise c, ?_⟩
  intro r c2 h
  have hshape := nextEvent_error_shape c h
  have hth : c2.theirState = .error := by
    rcases hshape with ⟨he, hterr⟩ | ⟨hcs, hrole⟩
    · rw [he]; exact hterr
    · show c2.cstate.get c2.theirRole = .error
      have htr : c2.theirRole = c.theirRole := by
        show c2.ourRole.other = c.ourRole.other
        rw [hrole]
      rw [htr, hcs]
      exact couple_get_error _ _ (by rw [CState.get_set_same])
  have hself : nextEvent c2 = (.error .peerInError, c2) := hraise c2 hth
  refine ⟨hth, ?_, ?_⟩
  · intro n
    induction n with
    | zero => exact ⟨rfl, hself⟩
    | succ n ih =>
        have h1 : iterNext (n + 1) c2 = c2 := by
          unfold iterNext
          rw [ih.1, hself]
        exact ⟨h1, by rw [h1]; exact hself⟩
  · intro hrole hidle hsw status hs reason hv
    rcases hshape with ⟨he, _⟩ | ⟨hcs, hrole2⟩
    · obtain ⟨bs, c3, hsend, _⟩ := sendResponse_from_idle c status hs reason hrole hidle hsw hv
      refine ⟨bs, c3, ?_⟩
      rw [he]
      exact hsend
    · have hrole3 : c2.ourRole = .server := by rw [hrole2, hrole]
      have hsw2 : c2.cstate.switch = .noProposal := by
        rw [hcs, couple_switch, CState.set_switch]
        exact hsw
      have hidle2 : c2.ourState = .idle := by
        show c2.cstate.get c2.ourRole = .idle
        rw [hcs, hrole2]
        have hne : c.theirRole ≠ c.ourRole := Role.other_ne c.ourRole
        refine couple_get_idle _ _ ?_ ?_
        · rw [CState.set_switch, hsw]
          intro hx
          cases hx
        · rw [CState.get_set_other _ _ _ _ hne]
          exact hidle
      obtain ⟨bs, c3, hsend, _⟩ :=
        sendResponse_from_idle c2 status hs reason hrole3 hidle2 hsw2 hv
      exact ⟨bs, c3, hsend⟩

/-- A concrete remote protocol error: junk bytes that do not parse as a
request line. -/
def junkServer : Connection :=
  { Connection.fresh .server with buffer := asciiBytes "XXX\r\n\r\n" }

/-- C5 witness: unparseable input makes next_event raise, latches the
client side in ERROR so further calls keep raising, and the server can
still send a 400 Bad Request afterwards. -/
theorem h11_c5_remote_error_latch_witness :
    ∃ (r : RemoteErr) (c2 : Connection), nextEvent junkServer = (.error r, c2) ∧
      c2.theirState = .error ∧
      nextEvent c2 = (.error .peerInError, c2) ∧
      ∃ (bs : Bytes) (c3 : Connection),
        send c2 (.response 400 [] (asciiBytes "1.1") (asciiBytes "Bad Request")) =
          (.ok (some bs), c3) := by
  have hrun : nextEvent junkServer = (.error .malformed, (nextEvent junkServer).2) := by
    decide
  have h := (h11_c5_remote_error_latch junkServer).2 .malformed (nextEvent junkServer).2 hrun
  refine ⟨.malformed, (nextEvent junkServer).2, hrun, h.1, ?_, ?_⟩
  · have := (h.2.1 0).2
    simpa [iterNext] using this
  · exact h.2.2 (by decide) (by decide) (by decide) 400 [] (asciiBytes "Bad Request")
      (by decide)

/-! ## Claim C1: send-receive symmetry -/

/-- True for a Data event with empty payload. -/
def isEmptyData : Event → Bool
  | .data [] _ _ => true
  | _ => false

/-- Coalesce maximal runs of adjacent Data events into one Data and
forget the chunk boundary flags. -/
def coalesce : List Event → List Event
  | [] => []
  | .data d _ _ :: rest =>
      match coalesce rest with
      | .data d2 _ _ :: r2 => .data (d ++ d2) false false :: r2
      | r => .data d false false :: r
  | e :: rest => e :: coalesce rest

/-- Compare event streams up to re-chunking: coalesce adjacent Data
events, forget chunk flags, and drop empty Data events. -/
def normalizeEvents (es : List Event) : List Event :=
  (coalesce es).filter (fun e => !isEmptyData e)

/-- The header order the writer actually emits: Host entries first, the
rest in their original relative order. -/
def hostFront (hs : Headers) : Headers :=
  hs.filter isHost ++ hs.filter (fun e => !isHost e)

/-- Apply the writer's host-fronting to the header lists an event
carries on the wire. -/
def hostFrontEvent : Event → Event
  | .request m t hs v => .request m t (hostFront hs) v
  | .endOfMessage ts => .endOfMessage (hostFront ts)
  | e => e

/-- The Data payloads the client split at Content-Length 4 come back
coalesced: the concrete run refuting the claim as stated. -/
def evC1 : List Event :=
  [.request (asciiBytes "POST") (asciiBytes "/")
      [{ rawName := asciiBytes "Host", name := asciiBytes "host", value := asciiBytes "a" },
       { rawName := asciiBytes "Content-Length", name := asciiBytes "content-length",
         value := asciiBytes "4" }] (asciiBytes "1.1"),
   .data (asciiBytes "ab") false false,
   .data (asciiBytes "cd") false false,
   .endOfMessage []]

/-- Wire bytes of the counterexample run. -/
def wireC1 : Bytes :=
  match sendAll (Connection.fresh .client) evC1 with
  | .ok (bs, _) => bs.flatten
  | .error _ => []

/-- C1 counterexample: the client-role connection accepts the four
events of evC1 through send without error, yet a fresh server fed the
concatenated bytes yields a different event sequence (the two Data
events come back as one), refuting the claim as stated. -/
theorem h11_c1_roundtrip_counterexample :
    (sendAll (Connection.fresh .client) evC1 matches .ok _) ∧
    (feedAll .server wireC1).2.1 = .ok .needData ∧
    (feedAll .server wireC1).1 ≠ evC1 := by
  refine ⟨by decide, by decide, by decide⟩

/-- Wire form of a list of lines, each terminated by CRLF. -/
def renderLines (ls : List Bytes) : Bytes := (ls.map (fun l => l ++ crlf)).flatten

/-- Unfold renderLines on a cons. -/
theorem renderLines_cons (l : Bytes) (ls : List Bytes) :
    renderLines (l :: ls) = l ++ crlf ++ renderLines ls := by
  simp [renderLines]

/-- Each rendered line contributes at least its terminator. -/
theorem renderLines_length_ge (ls : List Bytes) : ls.length ≤ (renderLines ls).length := by
  induction ls with
  | nil => simp [renderLines]
  | cons l ls ih =>
      rw [renderLines_cons]
      simp only [List.length_append]
      simp [crlf] at *
      omega

/-- A CRLF-terminated line splits back off the buffer. -/
theorem splitLine_crlf (l rest : Bytes) (h : bLF ∉ l) :
    splitLine (l ++ crlf ++ rest) = some (l, rest) := by
  have hshape : l ++ crlf ++ rest = (l ++ [bCR]) ++ bLF :: rest := by
    simp [crlf]
  have hnotin : bLF ∉ l ++ [bCR] := by
    simp only [List.mem_append, List.mem_singleton, not_or]
    exact ⟨h, by intro hx; cases hx⟩
  rw [hshape]
  unfold splitLine
  rw [splitAtLF_append hnotin]
  simp only [Option.map_some']
  congr 1
  unfold dropTrailCR
  rw [List.getLast?_concat]
  simp

/-- A rendered header block extracts back into its lines, leaving the
trailing bytes untouched. -/
theorem extractLinesGo_roundtrip (ls : List Bytes) (rest : Bytes)
    (hl : ∀ l ∈ ls, l ≠ [] ∧ bLF ∉ l) :
    ∀ fuel : Nat, ls.length + 1 ≤ fuel →
    extractLinesGo fuel (renderLines ls ++ crlf ++ rest) = some (ls, rest) := by
  induction ls generalizing rest with
  | nil =>
      intro fuel hf
      match fuel, hf with
      | f + 1, _ =>
          unfold extractLinesGo
          have hsh : renderLines [] ++ crlf ++ rest = ([] : Bytes) ++ crlf ++ rest := by
            simp [renderLines]
          rw [hsh, splitLine_crlf [] rest (by simp)]
          simp
  | cons l ls ih =>
      intro fuel hf
      match fuel, hf with
      | f + 1, hf =>
          unfold extractLinesGo
          have hshape : renderLines (l :: ls) ++ crlf ++ rest =
              l ++ crlf ++ (renderLines ls ++ crlf ++ rest) := by
            rw [renderLines_cons]
            simp [List.append_assoc]
          rw [hshape, splitLine_crlf l _ (hl l (by simp)).2]
          have hne : l ≠ [] := (hl l (by simp)).1
          simp only [if_neg hne,
            ih rest (fun x hx => hl x (by simp [hx])) f (by simpa using hf)]

/-- The full-buffer version of the block roundtrip. -/
theorem extractLines_roundtrip (ls : List Bytes) (rest : Bytes)
    (hl : ∀ l ∈ ls, l ≠ [] ∧ bLF ∉ l) :
    extractLines (renderLines ls ++ crlf ++ rest) = some (ls, rest) := by
  unfold extractLines
  apply extractLinesGo_roundtrip ls rest hl
  have h1 := renderLines_length_ge ls
  simp only [List.length_append]
  omega

/-- The bounded extraction accepts a rendered block within the size
limit and reports exactly its size as consumed. -/
theorem extractBlock_roundtrip (limit : Nat) (ls : List Bytes) (rest : Bytes)
    (hl : ∀ l ∈ ls, l ≠ [] ∧ bLF ∉ l)
    (hsz : (renderLines ls).length + 2 ≤ limit) :
    extractBlock limit (renderLines ls ++ crlf ++ rest) =
      .ok ls rest ((renderLines ls).length + 2) := by
  unfold extractBlock
  rw [extractLines_roundtrip ls rest hl]
  have hlen : (renderLines ls ++ crlf ++ rest).length - rest.length =
      (renderLines ls).length + 2 := by
    simp only [List.length_append, crlf, List.length_cons, List.length_nil]
    omega
  simp only [hlen, if_pos hsz]

/-- The bytes a token may contain exclude the separators the tokenizer
splits on. -/
theorem tokenByte_ne (b : Nat) (h : tokenByte b = true) :
    b ≠ bCOLON ∧ b ≠ bSP ∧ b ≠ bHTAB ∧ b ≠ bLF := by
  refine ⟨?_, ?_, ?_, ?_⟩ <;> intro hb <;> subst hb <;> cases h

/-- Target bytes exclude space and LF. -/
theorem targetByte_ne (b : Nat) (h : targetByte b = true) : b ≠ bSP ∧ b ≠ bLF := by
  refine ⟨?_, ?_⟩ <;> intro hb <;> subst hb <;> cases h

/-- Value bytes exclude LF. -/
theorem valueByte_ne_lf (b : Nat) (h : valueByte b = true) : b ≠ bLF := by
  intro hb; subst hb; cases h

/-- takeWhile collects an all-true prefix up to the first failing byte. -/
theorem takeWhile_all_append (q : Nat → Bool) (l : Bytes) (x : Nat) (rest : Bytes)
    (hq : ∀ b ∈ l, q b = true) (hx : q x = false) :
    (l ++ x :: rest).takeWhile q = l ∧ (l ++ x :: rest).dropWhile q = x :: rest := by
  induction l with
  | nil => simp [List.takeWhile_cons, List.dropWhile_cons, hx]
  | cons a l ih =>
      have ha : q a = true := hq a (by simp)
      obtain ⟨ih1, ih2⟩ := ih (fun b hb => hq b (by simp [hb]))
      simp [List.takeWhile_cons, List.dropWhile_cons, ha, ih1, ih2]

/-- A value with no edge whitespace is untouched by left stripping. -/
theorem stripLeft_eq_self (v : Bytes)
    (h : (match v.head? with
          | some b => !(b == bSP || b == bHTAB)
          | none => true) = true) :
    stripLeft v = v := by
  cases v with
  | nil => rfl
  | cons a v =>
      simp only [List.head?_cons] at h
      unfold stripLeft
      rw [List.dropWhile_cons_of_neg]
      simp at h
      simp [h]

/-- A value with no edge whitespace strips to itself. -/
theorem stripOWS_eq_self (v : Bytes) (h : noEdgeWs v = true) : stripOWS v = v := by
  unfold noEdgeWs at h
  rw [Bool.and_eq_true] at h
  obtain ⟨hh, hl⟩ := h
  unfold stripOWS
  rw [stripLeft_eq_self v hh]
  rw [stripLeft_eq_self v.reverse (by rw [List.head?_reverse]; exact hl)]
  exact List.reverse_reverse v

/-- The single space the writer puts after the colon is stripped back
off on parse. -/
theorem stripOWS_sp (v : Bytes) (h : noEdgeWs v = true) : stripOWS (bSP :: v) = v := by
  have h1 : stripLeft (bSP :: v) = stripLeft v := by
    unfold stripLeft
    rw [List.dropWhile_cons_of_pos (by simp [bSP])]
  unfold noEdgeWs at h
  rw [Bool.and_eq_true] at h
  obtain ⟨hh, hl⟩ := h
  unfold stripOWS
  rw [h1, stripLeft_eq_self v hh]
  rw [stripLeft_eq_self v.reverse (by rw [List.head?_reverse]; exact hl)]
  exact List.reverse_reverse v

/-- The wire line of one header entry, before its terminator. -/
def headerLine (e : HeaderEntry) : Bytes := e.rawName ++ [bCOLON, bSP] ++ e.value

/-- renderEntry is the header line plus CRLF. -/
theorem renderEntry_eq (e : HeaderEntry) : renderEntry e = headerLine e ++ crlf := by
  unfold renderEntry headerLine
  simp [List.append_assoc]

/-- The rendered entries are the rendered header lines. -/
theorem renderEntries_eq (hs : Headers) :
    renderEntries hs = renderLines (hs.map headerLine) := by
  induction hs with
  | nil => rfl
  | cons e hs ih =>
      simp only [renderEntries, List.map_cons, List.flatten_cons, renderLines] at *
      rw [renderEntry_eq e]
      simp [ih, List.append_assoc]

/-- A valid entry's header line parses back to the entry. -/
theorem parseHeaderLine_roundtrip (e : HeaderEntry) (he : validEntry e = true) :
    parseHeaderLine (headerLine e) = some e := by
  unfold validEntry at he
  simp only [Bool.and_eq_true, ne_eq, decide_not, Bool.not_eq_eq_eq_not, Bool.not_true,
    decide_eq_false_iff_not, beq_iff_eq, List.all_eq_true] at he
  obtain ⟨⟨⟨⟨hne, htok⟩, hname⟩, hval⟩, hws⟩ := he
  have hq : ∀ b ∈ e.rawName, (b != bCOLON) = true := by
    intro b hb
    have := (tokenByte_ne b (htok b hb)).1
    simp [this]
  obtain ⟨ht, hd⟩ := takeWhile_all_append (fun b => b != bCOLON) e.rawName bCOLON
    (bSP :: e.value) hq (by simp)
  have hform : headerLine e = e.rawName ++ bCOLON :: bSP :: e.value := by
    unfold headerLine
    simp
  simp only [parseHeaderLine, hform]
  rw [ht, hd]
  simp only [stripOWS_sp e.value hws]
  rw [if_pos ⟨hne, List.all_eq_true.mpr htok, List.all_eq_true.mpr hval⟩]
  cases e with
  | mk rn nm v =>
      simp only at hname ⊢
      rw [hname]

/-- A valid entry's header line is not a folding continuation. -/
theorem headerLine_not_continuation (e : HeaderEntry) (he : validEntry e = true) :
    isContinuation (headerLine e) = false := by
  unfold validEntry at he
  simp only [Bool.and_eq_true, ne_eq, decide_not, Bool.not_eq_eq_eq_not, Bool.not_true,
    decide_eq_false_iff_not, List.all_eq_true] at he
  obtain ⟨⟨⟨⟨hne, htok⟩, _⟩, _⟩, _⟩ := he
  unfold isContinuation headerLine
  cases hrn : e.rawName with
  | nil => exact absurd hrn hne
  | cons a rn =>
      have ha : tokenByte a = true := htok a (by rw [hrn]; simp)
      have h2 := (tokenByte_ne a ha).2.1
      have h3 := (tokenByte_ne a ha).2.2.1
      simp [h2, h3]

/-- A valid entry's header line is nonempty and free of LF. -/
theorem headerLine_wf (e : HeaderEntry) (he : validEntry e = true) :
    headerLine e ≠ [] ∧ bLF ∉ headerLine e := by
  unfold validEntry at he
  simp only [Bool.and_eq_true, ne_eq, decide_not, Bool.not_eq_eq_eq_not, Bool.not_true,
    decide_eq_false_iff_not, List.all_eq_true] at he
  obtain ⟨⟨⟨⟨hne, htok⟩, _⟩, hval⟩, _⟩ := he
  constructor
  · intro hc
    have hlen := congrArg List.length hc
    simp [headerLine] at hlen
  · unfold headerLine
    intro hm
    rcases List.mem_append.mp hm with hm1 | hm4
    · rcases List.mem_append.mp hm1 with hm2 | hm3
      · exact (tokenByte_ne bLF (htok bLF hm2)).2.2.2 rfl
      · simp [bLF, bCOLON, bSP] at hm3
    · exact valueByte_ne_lf bLF (hval bLF hm4) rfl

/-- Valid entries parse back from their lines, continuations never
firing. -/
theorem parseHeaderLinesAux_roundtrip (entries : Headers)
    (he : ∀ e ∈ entries, validEntry e = true) : ∀ cur : HeaderEntry,
    parseHeaderLinesAux cur (entries.map headerLine) = some (cur :: entries) := by
  induction entries with
  | nil => intro cur; rfl
  | cons e es ih =>
      intro cur
      have hev : validEntry e = true := he e (by simp)
      have hcont := headerLine_not_continuation e hev
      simp only [List.map_cons]
      unfold parseHeaderLinesAux
      simp only [hcont, Bool.false_eq_true, if_false, reduceIte,
        parseHeaderLine_roundtrip e hev, ih (fun x hx => he x (by simp [hx])) e,
        Option.map_some']

/-- A valid header list parses back from its rendered lines. -/
theorem parseHeaderLines_roundtrip (entries : Headers)
    (he : ∀ e ∈ entries, validEntry e = true) :
    parseHeaderLines (entries.map headerLine) = some entries := by
  cases entries with
  | nil => rfl
  | cons e es =>
      have hev : validEntry e = true := he e (by simp)
      have hcont := headerLine_not_continuation e hev
      simp only [List.map_cons]
      unfold parseHeaderLines
      simp only [hcont, Bool.false_eq_true, if_false, reduceIte,
        parseHeaderLine_roundtrip e hev,
        parseHeaderLinesAux_roundtrip es (fun x hx => he x (by simp [hx])) e]

/-- The request line before its terminator. -/
def requestLineOf (m t : Bytes) : Bytes :=
  m ++ [bSP] ++ t ++ [bSP] ++ asciiBytes "HTTP/1.1"

/-- The request-line writer emits the line plus CRLF. -/
theorem writeRequestLine_eq (m t : Bytes) :
    writeRequestLine m t = requestLineOf m t ++ crlf := by
  unfold writeRequestLine requestLineOf
  simp [List.append_assoc]

/-- A well-formed request line parses back to its pieces. -/
theorem parseRequestLine_roundtrip (m t : Bytes)
    (hm1 : m ≠ []) (hm2 : m.all tokenByte = true)
    (ht1 : t ≠ []) (ht2 : t.all targetByte = true) :
    parseRequestLine (requestLineOf m t) = some (m, t, asciiBytes "1.1") := by
  rw [List.all_eq_true] at hm2 ht2
  have hshape : requestLineOf m t = m ++ bSP :: (t ++ bSP :: asciiBytes "HTTP/1.1") := by
    unfold requestLineOf
    simp [List.append_assoc]
  have hqm : ∀ b ∈ m, (b != bSP) = true := by
    intro b hb
    have := (tokenByte_ne b (hm2 b hb)).2.1
    simp [this]
  have hqt : ∀ b ∈ t, (b != bSP) = true := by
    intro b hb
    have := (targetByte_ne b (ht2 b hb)).1
    simp [this]
  obtain ⟨htk1, hdr1⟩ := takeWhile_all_append (fun b => b != bSP) m bSP
    (t ++ bSP :: asciiBytes "HTTP/1.1") hqm (by simp)
  obtain ⟨htk2, hdr2⟩ := takeWhile_all_append (fun b => b != bSP) t bSP
    (asciiBytes "HTTP/1.1") hqt (by simp)
  simp only [parseRequestLine, hshape]
  rw [htk1, hdr1]
  simp only
  rw [htk2, hdr2]
  simp only [show asciiBytes "HTTP/1.1" = [72, 84, 84, 80, 47, 49, 46, 49] from rfl]
  rw [if_pos (by constructor <;> rfl)]
  rfl

/-- A request line is nonempty and free of LF. -/
theorem requestLineOf_wf (m t : Bytes)
    (hm1 : m ≠ []) (hm2 : m.all tokenByte = true) (ht2 : t.all targetByte = true) :
    requestLineOf m t ≠ [] ∧ bLF ∉ requestLineOf m t := by
  rw [List.all_eq_true] at hm2 ht2
  constructor
  · intro hc
    have hlen := congrArg List.length hc
    simp [requestLineOf] at hlen
  · unfold requestLineOf
    intro hm
    rcases List.mem_append.mp hm with hm | hm
    · rcases List.mem_append.mp hm with hm | hm
      · rcases List.mem_append.mp hm with hm | hm
        · rcases List.mem_append.mp hm with hm | hm
          · exact (tokenByte_ne bLF (hm2 bLF hm)).2.2.2 rfl
          · simp [bLF, bSP] at hm
        · exact (targetByte_ne bLF (ht2 bLF hm)).2 rfl
      · simp [bLF, bSP] at hm
    · revert hm
      decide

/-- The full request head is the rendered line-block of the request
line followed by the host-fronted header lines. -/
theorem writeRequest_shape (m t : Bytes) (hs : Headers) :
    writeRequest m t hs =
      renderLines (requestLineOf m t :: (hostFront hs).map headerLine) ++ crlf := by
  unfold writeRequest writeHeaders
  rw [writeRequestLine_eq]
  rw [renderLines_cons]
  have h1 : renderEntries (hostFront hs) =
      renderEntries (hs.filter isHost) ++ renderEntries (hs.filter (fun e => !isHost e)) := by
    unfold hostFront renderEntries
    simp
  rw [renderEntries_eq] at h1
  rw [← h1]
  unfold hostFront at *
  simp [List.append_assoc]

/-- Membership in the host-fronted list is membership in the original. -/
theorem hostFront_mem {hs : Headers} {e : HeaderEntry} (h : e ∈ hostFront hs) : e ∈ hs := by
  unfold hostFront at h
  rcases List.mem_append.mp h with h | h <;> exact List.mem_of_mem_filter h

/-- Host fronting does not change any per-name value list. -/
theorem getHeader_hostFront (hs : Headers) (nm : Bytes) :
    getHeader (hostFront hs) nm = getHeader hs nm := by
  unfold getHeader hostFront
  rw [List.filter_append]
  by_cases hnm : nm = asciiBytes "host"
  · subst hnm
    have h1 : (hs.filter isHost).filter (fun e => e.name == asciiBytes "host") =
        hs.filter isHost := by
      rw [List.filter_eq_self]
      intro e he
      have := List.of_mem_filter he
      exact this
    have h2 : (hs.filter (fun e => !isHost e)).filter
        (fun e => e.name == asciiBytes "host") = [] := by
      rw [List.filter_eq_nil_iff]
      intro e he hc
      have hni := List.of_mem_filter he
      simp only [isHost] at hni
      rw [hc] at hni
      simp at hni
    rw [h1, h2]
    have h3 : hs.filter isHost = hs.filter (fun e => e.name == asciiBytes "host") := rfl
    simp [h3]
  · have h1 : (hs.filter isHost).filter (fun e => e.name == nm) = [] := by
      rw [List.filter_eq_nil_iff]
      intro e he hc
      have hih := List.of_mem_filter he
      unfold isHost at hih
      rw [beq_iff_eq] at hih hc
      exact hnm (hc ▸ hih ▸ rfl)
    have h2 : (hs.filter (fun e => !isHost e)).filter (fun e => e.name == nm) =
        hs.filter (fun e => e.name == nm) := by
      rw [List.filter_filter]
      apply List.filter_congr
      intro e _
      by_cases hc : e.name = nm
      · have hih : isHost e = false := by
          unfold isHost
          rw [beq_eq_false_iff_ne, hc]
          exact hnm
        simp [hih, hc]
      · simp [hc]
    rw [h1, h2]
    simp

/-- Whether a Content-Length chain collapses depends only on the value
sequence. -/
def clChain : Option Bytes → List Bytes → Bool
  | _, [] => true
  | none, v :: r => clChain (some v) r
  | some v, w :: r => (w == v) && clChain (some v) r

/-- collapseCL succeeds exactly when the Content-Length value sequence
is coherent with what was already seen. -/
theorem collapseCL_ok_iff (hs : Headers) : ∀ seen : Option Bytes,
    (∃ out : Headers, collapseCL hs seen = .ok out) ↔
      clChain seen (getHeader hs (asciiBytes "content-length")) = true := by
  induction hs with
  | nil =>
      intro seen
      simp [collapseCL, getHeader, clChain]
  | cons e es ih =>
      intro seen
      by_cases hcl : e.name = asciiBytes "content-length"
      · have hgh : getHeader (e :: es) (asciiBytes "content-length") =
            e.value :: getHeader es (asciiBytes "content-length") := by
          unfold getHeader
          rw [List.filter_cons_of_pos (by simp [hcl])]
          simp
        rw [hgh]
        unfold collapseCL
        rw [if_pos hcl]
        cases seen with
        | none =>
            simp only [clChain]
            rw [← ih (some e.value)]
            constructor
            · intro h
              obtain ⟨out, hout⟩ := h
              revert hout
              cases hx : collapseCL es (some e.value) with
              | ok o => intro _; exact ⟨o, rfl⟩
              | error er => intro hc; cases hc
            · intro h
              obtain ⟨out, hout⟩ := h
              exact ⟨e :: out, by rw [hout]; rfl⟩
        | some v =>
            simp only [clChain]
            by_cases hv : e.value = v
            · have hbeq : (e.value == v) = true := by rw [beq_iff_eq]; exact hv
              rw [if_pos hv]
              simp only [hbeq, Bool.true_and]
              exact ih (some v)
            · have hbeq : (e.value == v) = false := by rw [beq_eq_false_iff_ne]; exact hv
              rw [if_neg hv]
              simp [hbeq]
      · have hgh : getHeader (e :: es) (asciiBytes "content-length") =
            getHeader es (asciiBytes "content-length") := by
          unfold getHeader
          rw [List.filter_cons_of_neg (by simp [hcl])]
        rw [hgh]
        unfold collapseCL
        rw [if_neg hcl]
        rw [← ih seen]
        constructor
        · intro h
          obtain ⟨out, hout⟩ := h
          revert hout
          cases hx : collapseCL es seen with
          | ok o => intro _; exact ⟨o, rfl⟩
          | error er => intro hc; cases hc
        · intro h
          obtain ⟨out, hout⟩ := h
          exact ⟨e :: out, by rw [hout]; rfl⟩

/-- Host fronting keeps a validated header block valid. -/
theorem normalizeHeaders_hostFront (hs : Headers)
    (h : ∃ out : Headers, normalizeHeaders hs = .ok out) :
    ∃ out : Headers, normalizeHeaders (hostFront hs) = .ok out := by
  obtain ⟨out, h⟩ := h
  unfold normalizeHeaders at h
  split at h
  case isFalse => simp at h
  case isTrue hA =>
  split at h
  case isFalse => simp at h
  case isTrue hB =>
  split at h
  case isFalse => simp at h
  case isTrue hC =>
  split at h
  case isTrue => simp at h
  case isFalse hD =>
  have gA : (hostFront hs).all validEntry = true := by
    rw [List.all_eq_true] at hA ⊢
    exact fun e he => hA e (hostFront_mem he)
  have gB : (getHeader (hostFront hs) (asciiBytes "content-length")).all
      (fun v => v ≠ [] && v.all digitByte) = true := by
    rw [getHeader_hostFront]
    exact hB
  have gC : (getHeader (hostFront hs) (asciiBytes "transfer-encoding")).all
      (fun v => lowerBytes v = asciiBytes "chunked") = true := by
    rw [getHeader_hostFront]
    exact hC
  have gD : ¬((getHeader (hostFront hs) (asciiBytes "transfer-encoding")) ≠ [] ∧
      (getHeader (hostFront hs) (asciiBytes "content-length")) ≠ []) := by
    rw [getHeader_hostFront, getHeader_hostFront]
    exact hD
  unfold normalizeHeaders
  rw [if_pos gA, if_pos gB, if_pos gC, if_neg gD]
  rw [collapseCL_ok_iff, getHeader_hostFront]
  exact (collapseCL_ok_iff hs none).mp ⟨out, h⟩

/-! ## Claim C1, amended: invariance of parsing-relevant data under
host fronting, and run machinery -/

/-- Matching ok is the same as equalling some ok value. -/
theorem matchesOk_iff (x : Except LocalErr Headers) :
    ((x matches .ok _) = true) ↔ ∃ out, x = .ok out := by
  cases x with
  | ok v => simp
  | error e => simp

/-- Validated header blocks contain only valid entries. -/
theorem normalizeHeaders_ok_valid {hs : Headers}
    (h : ∃ out : Headers, normalizeHeaders hs = .ok out) :
    ∀ e ∈ hs, validEntry e = true := by
  obtain ⟨out, h⟩ := h
  unfold normalizeHeaders at h
  split at h
  case isTrue hA => rw [List.all_eq_true] at hA; exact hA
  case isFalse => simp at h

/-- Chunked Transfer-Encoding detection ignores header order. -/
theorem hasChunkedTE_hostFront (hs : Headers) :
    hasChunkedTE (hostFront hs) = hasChunkedTE hs := by
  unfold hasChunkedTE
  rw [getHeader_hostFront]

/-- The declared Content-Length ignores header order. -/
theorem contentLengthOf_hostFront (hs : Headers) :
    contentLengthOf (hostFront hs) = contentLengthOf hs := by
  unfold contentLengthOf
  rw [getHeader_hostFront]

/-- Request body framing ignores host fronting. -/
theorem requestFraming_hostFront (hs : Headers) :
    requestFraming (hostFront hs) = requestFraming hs := by
  unfold requestFraming
  rw [hasChunkedTE_hostFront, contentLengthOf_hostFront]

/-- Connection: close detection ignores host fronting. -/
theorem hasConnectionClose_hostFront (hs : Headers) :
    hasConnectionClose (hostFront hs) = hasConnectionClose hs := by
  unfold hasConnectionClose
  rw [getHeader_hostFront]

/-- The keep-alive decision ignores host fronting. -/
theorem keepAliveOf_hostFront (hs : Headers) (v : Bytes) :
    keepAliveOf (hostFront hs) v = keepAliveOf hs v := by
  unfold keepAliveOf
  rw [hasConnectionClose_hostFront]

/-- A valid request stays valid after host fronting of its headers. -/
theorem validRequest_hostFront (m t : Bytes) (hs : Headers) (v : Bytes)
    (h : validRequest m t hs v = true) :
    validRequest m t (hostFront hs) v = true := by
  unfold validRequest at h ⊢
  simp only [Bool.and_eq_true] at h ⊢
  obtain ⟨⟨⟨⟨⟨h1, h2⟩, h3⟩, h4⟩, h5⟩, h6⟩ := h
  refine ⟨⟨⟨⟨⟨h1, h2⟩, h3⟩, h4⟩, ?_⟩, ?_⟩
  · rw [matchesOk_iff] at h5 ⊢
    exact normalizeHeaders_hostFront hs h5
  · rw [getHeader_hostFront]
    exact h6

/-- The joint state while a request body streams. -/
def sbState (ka : Bool) : CState :=
  { client := .sendBody, server := .sendResponse, keepAlive := ka, switch := .noProposal }

/-- The joint state after the client's EndOfMessage. -/
def dnState (ka : Bool) : CState :=
  { client := if ka then .done else .mustClose, server := .sendResponse,
    keepAlive := ka, switch := .noProposal }

/-- The coupling rules fix the body-streaming state. -/
theorem couple_sbState (ka : Bool) : couple (sbState ka) = sbState ka := by
  cases ka <;> decide

/-- The coupling rules park a finished client per the keep-alive latch. -/
theorem couple_doneState (ka : Bool) :
    couple { client := .done, server := .sendResponse, keepAlive := ka,
             switch := .noProposal } = dnState ka := by
  cases ka <;> decide

/-- Literal form of the body-streaming fixed point, as record updates
leave it in unfolded goals. -/
theorem couple_sb_lit (ka : Bool) :
    couple { client := .sendBody, server := .sendResponse, keepAlive := ka,
             switch := .noProposal } = sbState ka := couple_sbState ka

/-- Receiver-side server connection during one request cycle. -/
def srvConn (cs : CState) (m : Bytes) (buf : Bytes) (rb : Option BRState) : Connection :=
  { ourRole := .server
    cstate := cs
    theirHttpVersion := some (asciiBytes "1.1")
    requestMethod := some m
    buffer := buf
    eofReceived := false
    readerBody := rb
    writerBody := none }

/-- Sender-side client connection while its message body streams. -/
def cliConn (ka : Bool) (m : Bytes) (w : Option WBState) : Connection :=
  { ourRole := .client
    cstate := sbState ka
    theirHttpVersion := none
    requestMethod := some m
    buffer := []
    eofReceived := false
    readerBody := none
    writerBody := w }

/-- Sender-side client connection after EndOfMessage. -/
def cliDone (ka : Bool) (m : Bytes) : Connection :=
  { ourRole := .client
    cstate := dnState ka
    theirHttpVersion := none
    requestMethod := some m
    buffer := []
    eofReceived := false
    readerBody := none
    writerBody := none }

/-- A deterministic chain of next_event steps ending in need-data. -/
def runChain : Connection → List Event → Connection → Prop
  | c, [], cf => nextEvent c = (.ok .needData, cf)
  | c, e :: es, cf => ∃ c1, nextEvent c = (.ok (.ev e), c1) ∧ runChain c1 es cf

/-- Any sufficient fuel lets pump reproduce a finished step chain. -/
theorem pump_of_runChain (evs : List Event) : ∀ (c cf : Connection), runChain c evs cf →
    ∀ fuel : Nat, evs.length + 1 ≤ fuel → pump fuel c = (evs, .ok .needData, cf) := by
  induction evs with
  | nil =>
      intro c cf h fuel hf
      match fuel, hf with
      | f + 1, _ =>
          unfold runChain at h
          simp [pump, h]
  | cons e es ih =>
      intro c cf h fuel hf
      obtain ⟨c1, h1, h2⟩ := h
      match fuel, hf with
      | f + 1, hf =>
          have hr := ih c1 cf h2 f (by simpa using hf)
          simp [pump, h1, hr]

/-- True exactly on Data events. -/
def isData : Event → Bool
  | .data .. => true
  | _ => false

/-- Coalescing leaves a non-Data head alone. -/
theorem coalesce_cons_nondata (e : Event) (he : isData e = false) (rest : List Event) :
    coalesce (e :: rest) = e :: coalesce rest := by
  cases e with
  | data d f g => simp [isData] at he
  | request m t hs v => rfl
  | informationalResponse s hs v r => rfl
  | response s hs v r => rfl
  | endOfMessage ts => rfl
  | connectionClosed => rfl

/-- Coalescing a Data head merges it with a coalesced Data behind it. -/
theorem coalesce_cons_data (d : Bytes) (f g : Bool) (rest : List Event) :
    coalesce (.data d f g :: rest) =
      match coalesce rest with
      | .data d2 _ _ :: r2 => .data (d ++ d2) false false :: r2
      | r => .data d false false :: r := rfl

/-- A run of Data events before a non-Data event coalesces into one Data
carrying the concatenated payload. -/
theorem coalesce_data_run (ps : List (Bytes × Bool × Bool)) (e : Event)
    (he : isData e = false) (rest : List Event) :
    coalesce (ps.map (fun p => Event.data p.1 p.2.1 p.2.2) ++ e :: rest) =
      (if ps = [] then [] else [Event.data (ps.map Prod.fst).flatten false false]) ++
        e :: coalesce rest := by
  induction ps with
  | nil => simp [coalesce_cons_nondata e he]
  | cons p ps ih =>
      simp only [List.map_cons, List.cons_append, coalesce_cons_data, ih]
      by_cases hps : ps = []
      · subst hps
        simp only [List.map_nil, List.flatten_nil, if_pos rfl, List.nil_append]
        cases e with
        | data d f g => simp [isData] at he
        | request m t hs v => simp
        | informationalResponse s hs v r => simp
        | response s hs v r => simp
        | endOfMessage ts => simp
        | connectionClosed => simp
      · simp only [if_neg hps, if_neg (by simp [hps] : ¬(p :: ps = []))]
        simp [List.flatten]

/-- Empty Data recognition on an assembled Data event. -/
theorem isEmptyData_data (d : Bytes) (f g : Bool) :
    isEmptyData (.data d f g) = (d == []) := by
  cases d <;> rfl

/-- Request events are not empty Data. -/
theorem isEmptyData_request (m t : Bytes) (hs : Headers) (v : Bytes) :
    isEmptyData (.request m t hs v) = false := rfl

/-- EndOfMessage events are not empty Data. -/
theorem isEmptyData_eom (ts : Headers) : isEmptyData (.endOfMessage ts) = false := rfl

/-- Normal form of a one-message event stream: head event, the Data run
collapsed to its concatenated payload when nonempty, tail event. -/
theorem normEvents_msg (ps : List (Bytes × Bool × Bool)) (e0 e1 : Event)
    (h0d : isData e0 = false) (h0e : isEmptyData e0 = false)
    (h1d : isData e1 = false) (h1e : isEmptyData e1 = false) :
    normalizeEvents (e0 :: (ps.map (fun p => Event.data p.1 p.2.1 p.2.2) ++ [e1])) =
      e0 :: (if (ps.map Prod.fst).flatten = [] then []
             else [Event.data (ps.map Prod.fst).flatten false false]) ++ [e1] := by
  unfold normalizeEvents
  rw [coalesce_cons_nondata e0 h0d]
  rw [show ([e1] : List Event) = e1 :: [] from rfl]
  rw [coalesce_data_run ps e1 h1d []]
  by_cases hps : ps = []
  · subst hps
    simp [h0e, h1e, coalesce]
  · simp only [if_neg hps]
    by_cases hflat : (ps.map Prod.fst).flatten = []
    · simp [coalesce, List.filter, h0e, h1e, isEmptyData_data, hflat]
    · simp only [coalesce, List.filter_cons, List.filter_append, h0e, h1e,
        isEmptyData_data, Bool.not_false]
      simp [List.filter, hflat, h0e, h1e, isEmptyData_data]

/-- The Data events carrying a list of payloads. -/
def dataEvents (ds : List Bytes) : List Event := ds.map (fun d => .data d false false)

/-- One complete client message: the request head, its Data payloads,
and the closing EndOfMessage with trailers. -/
def messageEvents (m t : Bytes) (hs : Headers) (ds : List Bytes) (ts : Headers) : List Event :=
  .request m t hs (asciiBytes "1.1") :: dataEvents ds ++ [.endOfMessage ts]

/-- Compatibility of a message body with the request's write framing. -/
def bodyOk : Framing → List Bytes → Headers → Prop
  | .noBody, ds, ts => sumLens ds = 0 ∧ ts = []
  | .contentLength n, ds, ts => sumLens ds = n ∧ ts = []
  | .chunked, _, ts => ∃ out : Headers, normalizeHeaders ts = .ok out
  | .readUntilClose, _, _ => False

/-- Size bounds under which the receiver's bounded extractions accept
the message: head and trailer blocks within the header-size limit and
every chunk-size line within the line limit. -/
def sizeOkC1 (m t : Bytes) (hs : Headers) (ds : List Bytes) (ts : Headers) : Prop :=
  (renderLines (requestLineOf m t :: (hostFront hs).map headerLine)).length + 2 ≤
      maxHeadersSize ∧
  (∀ d ∈ ds, (hexOfNat d.length).length + 2 ≤ maxLineSize) ∧
  (renderLines ((hostFront ts).map headerLine)).length + 2 ≤ maxHeadersSize

/-- The byte chunks send returns for the body events of one message. -/
def bodyChunks (f : Framing) (ds : List Bytes) (ts : Headers) : List Bytes :=
  match f with
  | .chunked => ds.map chunkedSendData ++ [chunkedSendEom ts]
  | _ => ds ++ [[]]

/-- A fresh client accepts a valid, non-switching request and returns
its wire head. -/
theorem send_request_fresh (m t : Bytes) (hs : Headers)
    (hv : validRequest m t hs (asciiBytes "1.1") = true)
    (hnc : m ≠ asciiBytes "CONNECT") (hup : getHeader hs (asciiBytes "upgrade") = []) :
    send (Connection.fresh .client) (.request m t hs (asciiBytes "1.1")) =
      (.ok (some (writeRequest m t hs)),
       cliConn (keepAliveOf hs (asciiBytes "1.1")) m
         (some (framingToWriter (requestFraming hs)))) := by
  have hsp : switchProposalUpdate CState.initial m hs = CState.initial := by
    unfold switchProposalUpdate
    rw [if_neg]
    intro hor
    rcases hor with h | h
    · exact h hup
    · exact hnc h
  by_cases hka : keepAliveOf hs (asciiBytes "1.1") = true
  · simp only [send, Connection.fresh, Connection.ourState, CState.get, CState.initial,
      reduceCtorEq, if_false, ne_eq, not_true_eq_false, hv, not_false_eq_true, reduceIte]
    simp only [CState.initial] at hsp
    rw [hsp]
    simp only [processEvent, clientTransition, Option.map_some', reduceIte]
    rw [couple_sb_lit]
    simp only [hka, if_true, reduceIte, cliConn]
  · rw [Bool.not_eq_true] at hka
    simp only [send, Connection.fresh, Connection.ourState, CState.get, CState.initial,
      reduceCtorEq, if_false, ne_eq, not_true_eq_false, hv, not_false_eq_true, reduceIte]
    simp only [CState.initial] at hsp
    rw [hsp]
    simp only [processEvent, clientTransition, Option.map_some', reduceIte]
    rw [couple_sb_lit]
    have hfix : couple { sbState true with keepAlive := false } = sbState false := by decide
    simp only [hka, Bool.false_eq_true, if_false, reduceIte, hfix, cliConn]

/-- A streaming client passes a Content-Length Data chunk through. -/
theorem send_data_wcl (ka : Bool) (m : Bytes) (r : Nat) (d : Bytes) (b1 b2 : Bool)
    (hd : d.length ≤ r) :
    send (cliConn ka m (some (.wcl r))) (.data d b1 b2) =
      (.ok (some d), cliConn ka m (some (.wcl (r - d.length)))) := by
  simp only [send, cliConn, Connection.ourState, Connection.theirRole, CState.get,
    sbState, reduceCtorEq, if_false, reduceIte, processEvent, clientTransition,
    Option.map_some', contentLengthSendData, if_pos hd]
  rw [couple_sb_lit]
  rfl

/-- A streaming client frames a chunked Data payload. -/
theorem send_data_wchunk (ka : Bool) (m : Bytes) (d : Bytes) (b1 b2 : Bool) :
    send (cliConn ka m (some .wchunk)) (.data d b1 b2) =
      (.ok (some (chunkedSendData d)), cliConn ka m (some .wchunk)) := by
  simp only [send, cliConn, Connection.ourState, Connection.theirRole, CState.get,
    sbState, reduceCtorEq, if_false, reduceIte, processEvent, clientTransition,
    Option.map_some']
  rw [couple_sb_lit]
  rfl

/-- EndOfMessage under an exhausted Content-Length budget emits nothing
and finishes the cycle. -/
theorem send_eom_wcl (ka : Bool) (m : Bytes) :
    send (cliConn ka m (some (.wcl 0))) (.endOfMessage []) =
      (.ok (some []), cliDone ka m) := by
  simp only [send, cliConn, Connection.ourState, Connection.theirRole, CState.get,
    sbState, reduceCtorEq, if_false, reduceIte, processEvent, clientTransition,
    Option.map_some', contentLengthSendEom, ne_eq, not_true_eq_false,
    not_false_eq_true]
  rw [couple_doneState]
  rfl

/-- EndOfMessage under chunked framing emits the terminating chunk with
the trailers and finishes the cycle. -/
theorem send_eom_wchunk (ka : Bool) (m : Bytes) (ts : Headers)
    (hts : ∃ out : Headers, normalizeHeaders ts = .ok out) :
    send (cliConn ka m (some .wchunk)) (.endOfMessage ts) =
      (.ok (some (chunkedSendEom ts)), cliDone ka m) := by
  simp only [send, cliConn, Connection.ourState, Connection.theirRole, CState.get,
    sbState, reduceCtorEq, if_false, reduceIte, processEvent, clientTransition,
    Option.map_some', if_pos ((matchesOk_iff (normalizeHeaders ts)).mpr hts)]
  rw [couple_doneState]
  rfl

/-- One accepted send prepends its bytes to the rest of the run. -/
theorem sendAll_cons_ok (c : Connection) (e : Event) (rest : List Event)
    (ob : Option Bytes) (c1 : Connection) (h : send c e = (.ok ob, c1)) :
    sendAll c (e :: rest) =
      match sendAll c1 rest with
      | .ok (bs, c2) => .ok (ob.toList ++ bs, c2)
      | .error er => .error er := by
  have hu : sendAll c (e :: rest) =
      match send c e with
      | (.ok ob, c1) =>
          match sendAll c1 rest with
          | .ok (bs, c2) => .ok (ob.toList ++ bs, c2)
          | .error er => .error er
      | (.error er, _) => .error er := rfl
  rw [hu, h]

/-- The whole Content-Length body run through send. -/
theorem sendAll_body_wcl (m : Bytes) (ka : Bool) (ds : List Bytes) : ∀ r : Nat,
    sumLens ds = r →
    sendAll (cliConn ka m (some (.wcl r))) (dataEvents ds ++ [.endOfMessage []]) =
      .ok (ds ++ [[]], cliDone ka m) := by
  induction ds with
  | nil =>
      intro r hr
      rw [show r = 0 from hr.symm]
      rw [show dataEvents [] ++ [Event.endOfMessage []] = [Event.endOfMessage []] from rfl]
      rw [sendAll_cons_ok _ _ _ _ _ (send_eom_wcl ka m)]
      simp [sendAll]
  | cons d ds ih =>
      intro r hr
      rw [sumLens_cons] at hr
      have hd : d.length ≤ r := by omega
      rw [show dataEvents (d :: ds) ++ [Event.endOfMessage []] =
        Event.data d false false :: (dataEvents ds ++ [Event.endOfMessage []]) by
          simp [dataEvents]]
      rw [sendAll_cons_ok _ _ _ _ _ (send_data_wcl ka m r d false false hd)]
      rw [ih (r - d.length) (by omega)]
      simp

/-- The whole chunked body run through send. -/
theorem sendAll_body_wchunk (m : Bytes) (ka : Bool) (ts : Headers) (ds : List Bytes)
    (hts : ∃ out : Headers, normalizeHeaders ts = .ok out) :
    sendAll (cliConn ka m (some .wchunk)) (dataEvents ds ++ [.endOfMessage ts]) =
      .ok (ds.map chunkedSendData ++ [chunkedSendEom ts], cliDone ka m) := by
  induction ds with
  | nil =>
      rw [show dataEvents [] ++ [Event.endOfMessage ts] = [Event.endOfMessage ts] from rfl]
      rw [sendAll_cons_ok _ _ _ _ _ (send_eom_wchunk ka m ts hts)]
      simp [sendAll]
  | cons d ds ih =>
      rw [show dataEvents (d :: ds) ++ [Event.endOfMessage ts] =
        Event.data d false false :: (dataEvents ds ++ [Event.endOfMessage ts]) by
          simp [dataEvents]]
      rw [sendAll_cons_ok _ _ _ _ _ (send_data_wchunk ka m d false false)]
      rw [ih]
      simp

/-- A fresh client accepts one whole framing-compatible message and the
returned chunks are the head plus the framed body. -/
theorem sendAll_message (m t : Bytes) (hs : Headers) (ds : List Bytes) (ts : Headers)
    (hv : validRequest m t hs (asciiBytes "1.1") = true)
    (hnc : m ≠ asciiBytes "CONNECT") (hup : getHeader hs (asciiBytes "upgrade") = [])
    (hbody : bodyOk (requestFraming hs) ds ts) :
    sendAll (Connection.fresh .client) (messageEvents m t hs ds ts) =
      .ok (writeRequest m t hs :: bodyChunks (requestFraming hs) ds ts,
           cliDone (keepAliveOf hs (asciiBytes "1.1")) m) := by
  unfold messageEvents
  rw [show (Event.request m t hs (asciiBytes "1.1") :: dataEvents ds ++ [.endOfMessage ts]) =
    Event.request m t hs (asciiBytes "1.1") :: (dataEvents ds ++ [.endOfMessage ts]) from rfl]
  rw [sendAll_cons_ok _ _ _ _ _ (send_request_fresh m t hs hv hnc hup)]
  cases hf : requestFraming hs with
  | noBody =>
      rw [hf] at hbody
      obtain ⟨h0, hts⟩ := hbody
      subst hts
      rw [show framingToWriter Framing.noBody = .wcl 0 from rfl,
        sendAll_body_wcl m _ ds 0 h0]
      simp [bodyChunks]
  | contentLength n =>
      rw [hf] at hbody
      obtain ⟨h0, hts⟩ := hbody
      subst hts
      rw [show framingToWriter (Framing.contentLength n) = .wcl n from rfl,
        sendAll_body_wcl m _ ds n h0]
      simp [bodyChunks]
  | chunked =>
      rw [hf] at hbody
      rw [show framingToWriter Framing.chunked = .wchunk from rfl,
        sendAll_body_wchunk m _ ts ds hbody]
      simp [bodyChunks]
  | readUntilClose =>
      rw [hf] at hbody
      exact absurd hbody (by simp [bodyOk])

/-- Hex digits exclude LF. -/
theorem hexByte_ne_lf (b : Nat) (h : hexByte b = true) : b ≠ bLF := by
  intro hb
  subst hb
  cases h

/-- A rendered chunk-size line contains no LF. -/
theorem hexOfNat_no_lf (n : Nat) : bLF ∉ hexOfNat n := by
  intro hm
  have hall := List.all_eq_true.mp (hexOfNat_all_hex n)
  exact hexByte_ne_lf bLF (hall bLF hm) rfl

/-- A rendered chunk-size line parses back to the size. -/
theorem parseChunkSize_hexOfNat (n : Nat) : parseChunkSize (hexOfNat n) = some n := by
  have hall := List.all_eq_true.mp (hexOfNat_all_hex n)
  simp only [parseChunkSize, List.takeWhile_eq_self_iff.mpr hall,
    List.dropWhile_eq_nil_iff.mpr hall, if_neg (hexOfNat_ne_nil n)]
  rw [show stripLeft [] = [] from rfl]
  rw [hexNat_hexOfNat]

/-- The validation facts a valid request carries. -/
theorem validRequest_parts {m t : Bytes} {hs : Headers} {v : Bytes}
    (h : validRequest m t hs v = true) :
    m ≠ [] ∧ m.all tokenByte = true ∧ t ≠ [] ∧ t.all targetByte = true ∧
      ∃ out : Headers, normalizeHeaders hs = .ok out := by
  unfold validRequest at h
  repeat rw [Bool.and_eq_true] at h
  obtain ⟨⟨⟨⟨⟨⟨ha, hb⟩, hc⟩, hd⟩, he⟩, hf⟩, hg⟩ := h
  exact ⟨of_decide_eq_true ha, hb, of_decide_eq_true hc, hd, (matchesOk_iff _).mp hf⟩

/-- The flattened payload length is the summed payload length. -/
theorem flatten_sumLens (ds : List Bytes) : ds.flatten.length = sumLens ds := by
  rw [List.length_flatten]
  rfl

/-- Dropping empty payloads does not change the flattened payload. -/
theorem flatten_filter_ne_nil (ds : List Bytes) :
    (ds.filter (fun d => !d.isEmpty)).flatten = ds.flatten := by
  induction ds with
  | nil => rfl
  | cons d ds ih =>
      by_cases hd : d = []
      · subst hd
        simpa using ih
      · rw [List.filter_cons, if_pos (by simp [hd])]
        simp only [List.flatten_cons, ih]

/-- There are at most as many nonempty payloads as framed body bytes. -/
theorem filter_len_le_chunks (ds : List Bytes) :
    (ds.filter (fun d => !d.isEmpty)).length ≤ ((ds.map chunkedSendData).flatten).length := by
  induction ds with
  | nil => simp
  | cons d ds ih =>
      by_cases hd : d = []
      · subst hd
        simpa [chunkedSendData] using ih
      · simp only [List.filter_cons, List.map_cons, List.flatten_cons]
        rw [if_pos (by simp [hd])]
        have : 1 ≤ (chunkedSendData d).length := by
          unfold chunkedSendData
          rw [if_neg hd]
          simp [crlf]
          omega
        simp only [List.length_cons, List.length_append]
        omega

/-- The client machine keeps streaming on Data. -/
theorem processEvent_sb_data (ka : Bool) (d : Bytes) (f g : Bool) :
    processEvent (sbState ka) .client (.data d f g) = some (sbState ka) := by
  simp only [processEvent, sbState, clientTransition, Option.map_some']
  rw [couple_sb_lit]
  rfl

/-- The client machine finishes on EndOfMessage, parked by keep-alive. -/
theorem processEvent_sb_eom (ka : Bool) (ts : Headers) :
    processEvent (sbState ka) .client (.endOfMessage ts) = some (dnState ka) := by
  simp only [processEvent, sbState, clientTransition, Option.map_some']
  rw [couple_doneState]

/-- A full Content-Length budget streams out in one step. -/
theorem clStep_full (body : Bytes) (hb : body ≠ []) :
    clStep body.length body = .out (.data body false false) body.length (some (.cl 0)) := by
  have hlen : body.length ≠ 0 := by
    intro h
    exact hb (List.length_eq_zero.mp h)
  unfold clStep
  rw [if_neg hlen, if_neg hb]
  simp [Nat.min_self, List.take_length, Nat.sub_self]

/-- An exhausted Content-Length budget emits EndOfMessage. -/
theorem clStep_done (buf : Bytes) : clStep 0 buf = .out (.endOfMessage []) 0 none := rfl
/-- With the peer in IDLE or SEND_BODY the sentinel checks all fall
through and next_event runs the reader. -/
theorem nextEvent_active (c : Connection)
    (hid : c.theirState = .idle ∨ c.theirState = .sendBody) :
    nextEvent c =
      match readerStep c with
      | .fail r => (.error r, c.setTheirError)
      | .out e n next =>
          let c1 := { c with buffer := c.buffer.drop n, readerBody := next }
          match processReceivedEvent c1 e with
          | some c2 => (.ok (.ev e), c2)
          | none => (.error .protocolViolation, c1.setTheirError)
      | .more n next =>
          let c1 := { c with buffer := c.buffer.drop n, readerBody := next }
          if c1.eofReceived then
            if c1.buffer = [] then
              match eofOutcome c1 with
              | .ok e =>
                  let c2 := { c1 with readerBody := none }
                  match processReceivedEvent c2 e with
                  | some c3 => (.ok (.ev e), c3)
                  | none => (.error .protocolViolation, c2.setTheirError)
              | .error r => (.error r, c1.setTheirError)
            else (.error .prematureEof, c1.setTheirError)
          else (.ok .needData, c1) := by
  unfold nextEvent
  rcases hid with h | h <;> rw [h] <;> rfl

/-- A body-reader step that emits Data advances the buffer and keeps
the machines streaming. -/
theorem nextEvent_sb_data (ka : Bool) (m : Bytes) (buf : Bytes) (st : BRState)
    (d : Bytes) (f g : Bool) (n : Nat) (next : Option BRState)
    (hstep : bodyStep st buf = .out (.data d f g) n next) :
    nextEvent (srvConn (sbState ka) m buf (some st)) =
      (.ok (.ev (.data d f g)), srvConn (sbState ka) m (buf.drop n) next) := by
  cases ka with
  | false =>
      rw [nextEvent_active (srvConn (sbState false) m buf (some st)) (Or.inr rfl),
        show readerStep (srvConn (sbState false) m buf (some st)) = bodyStep st buf from rfl,
        hstep]
      rfl
  | true =>
      rw [nextEvent_active (srvConn (sbState true) m buf (some st)) (Or.inr rfl),
        show readerStep (srvConn (sbState true) m buf (some st)) = bodyStep st buf from rfl,
        hstep]
      rfl

/-- A body-reader step that emits EndOfMessage finishes the peer's
cycle. -/
theorem nextEvent_sb_eom (ka : Bool) (m : Bytes) (buf : Bytes) (st : BRState)
    (ts : Headers) (n : Nat)
    (hstep : bodyStep st buf = .out (.endOfMessage ts) n none) :
    nextEvent (srvConn (sbState ka) m buf (some st)) =
      (.ok (.ev (.endOfMessage ts)), srvConn (dnState ka) m (buf.drop n) none) := by
  cases ka with
  | false =>
      rw [nextEvent_active (srvConn (sbState false) m buf (some st)) (Or.inr rfl),
        show readerStep (srvConn (sbState false) m buf (some st)) = bodyStep st buf from rfl,
        hstep]
      rfl
  | true =>
      rw [nextEvent_active (srvConn (sbState true) m buf (some st)) (Or.inr rfl),
        show readerStep (srvConn (sbState true) m buf (some st)) = bodyStep st buf from rfl,
        hstep]
      rfl

/-- A drained receiver after the peer's message reports need-data and
stands still. -/
theorem nextEvent_drained (ka : Bool) (m : Bytes) :
    nextEvent (srvConn (dnState ka) m [] none) =
      (.ok .needData, srvConn (dnState ka) m [] none) := by
  cases ka <;> rfl
/-- A written request head parses back, host-fronted, consuming exactly
its own bytes. -/
theorem requestStep_roundtrip (m t : Bytes) (hs : Headers) (body : Bytes)
    (hv : validRequest m t hs (asciiBytes "1.1") = true)
    (hsz : (renderLines (requestLineOf m t :: (hostFront hs).map headerLine)).length + 2 ≤
      maxHeadersSize) :
    requestStep (writeRequest m t hs ++ body) =
      .out (.request m t (hostFront hs) (asciiBytes "1.1"))
        ((renderLines (requestLineOf m t :: (hostFront hs).map headerLine)).length + 2)
        none := by
  obtain ⟨hm1, hm2, ht1, ht2, hnh⟩ := validRequest_parts hv
  have hval : ∀ e ∈ hostFront hs, validEntry e = true := fun e he =>
    normalizeHeaders_ok_valid hnh e (hostFront_mem he)
  have hwf : ∀ l ∈ requestLineOf m t :: (hostFront hs).map headerLine, l ≠ [] ∧ bLF ∉ l := by
    intro l hl
    rcases List.mem_cons.mp hl with hl | hl
    · subst hl
      exact requestLineOf_wf m t hm1 hm2 ht2
    · obtain ⟨e, he, hle⟩ := List.mem_map.mp hl
      subst hle
      exact headerLine_wf e (hval e he)
  have hshape : writeRequest m t hs ++ body =
      renderLines (requestLineOf m t :: (hostFront hs).map headerLine) ++ crlf ++ body := by
    rw [writeRequest_shape]
  rw [hshape]
  unfold requestStep
  rw [extractBlock_roundtrip maxHeadersSize _ body hwf hsz]
  simp only [parseRequestLine_roundtrip m t hm1 hm2 ht1 ht2,
    parseHeaderLines_roundtrip (hostFront hs) hval,
    validRequest_hostFront m t hs (asciiBytes "1.1") hv, if_true, reduceIte]

/-- Receiving a non-switching HTTP/1.1 request from IDLE registers the
method and version, installs the body reader, and starts the cycle. -/
theorem processReceivedEvent_request (c : Connection) (m t : Bytes) (hs2 : Headers)
    (hcs : c.cstate = CState.initial)
    (hnc : m ≠ asciiBytes "CONNECT") (hup2 : getHeader hs2 (asciiBytes "upgrade") = []) :
    processReceivedEvent c (.request m t hs2 (asciiBytes "1.1")) =
      some { c with
             cstate := sbState (keepAliveOf hs2 (asciiBytes "1.1"))
             theirHttpVersion := some (asciiBytes "1.1")
             requestMethod := some m
             readerBody := some (framingToReader (requestFraming hs2)) } := by
  have hsp : switchProposalUpdate c.cstate m hs2 = CState.initial := by
    unfold switchProposalUpdate
    rw [hcs, if_neg]
    intro hor
    rcases hor with h | h
    · exact h hup2
    · exact hnc h
  by_cases hka : keepAliveOf hs2 (asciiBytes "1.1") = true
  · simp only [processReceivedEvent, hsp, hka]
    rfl
  · rw [Bool.not_eq_true] at hka
    simp only [processReceivedEvent, hsp, hka]
    rfl

/-- Dispatch for a reader step that emits an event from IDLE. -/
theorem nextEvent_idle_out (c : Connection) (e : Event) (n : Nat) (c2 : Connection)
    (hst : c.theirState = .idle)
    (hrd : readerStep c = .out e n none)
    (hpr : processReceivedEvent { c with buffer := c.buffer.drop n, readerBody := none } e =
      some c2) :
    nextEvent c = (.ok (.ev e), c2) := by
  rw [nextEvent_active c (Or.inl hst), hrd]
  simp only [hpr]

/-- The head step of the receiver run: a fresh server fed the written
request head plus body bytes emits the host-fronted Request event and
advances to the body. -/
theorem nextEvent_head (m t : Bytes) (hs : Headers) (body : Bytes)
    (hv : validRequest m t hs (asciiBytes "1.1") = true)
    (hnc : m ≠ asciiBytes "CONNECT") (hup : getHeader hs (asciiBytes "upgrade") = [])
    (hsz : (renderLines (requestLineOf m t :: (hostFront hs).map headerLine)).length + 2 ≤
      maxHeadersSize) :
    nextEvent { Connection.fresh .server with buffer := writeRequest m t hs ++ body } =
      (.ok (.ev (.request m t (hostFront hs) (asciiBytes "1.1"))),
       srvConn (sbState (keepAliveOf hs (asciiBytes "1.1"))) m body
         (some (framingToReader (requestFraming hs)))) := by
  have hdrop : (writeRequest m t hs ++ body).drop
      ((renderLines (requestLineOf m t :: (hostFront hs).map headerLine)).length + 2) = body := by
    have h1 : writeRequest m t hs ++ body =
        (renderLines (requestLineOf m t :: (hostFront hs).map headerLine) ++ crlf) ++ body := by
      rw [writeRequest_shape]
    have h2 : (renderLines (requestLineOf m t :: (hostFront hs).map headerLine)).length + 2 =
        (renderLines (requestLineOf m t :: (hostFront hs).map headerLine) ++ crlf).length := by
      simp [crlf]
    rw [h1, h2, List.drop_left]
  refine nextEvent_idle_out _ _
    ((renderLines (requestLineOf m t :: (hostFront hs).map headerLine)).length + 2) _ rfl ?_ ?_
  · rw [show readerStep { Connection.fresh .server with buffer := writeRequest m t hs ++ body } =
      requestStep (writeRequest m t hs ++ body) from rfl]
    exact requestStep_roundtrip m t hs body hv hsz
  · rw [processReceivedEvent_request _ m t (hostFront hs) rfl hnc
      (by rw [getHeader_hostFront]; exact hup)]
    simp [srvConn, hdrop, keepAliveOf_hostFront, requestFraming_hostFront, Connection.fresh]
/-- Shift the consumed count of a reader step. -/
def addConsumed (k : Nat) : RStep → RStep
  | .out e j st => .out e (k + j) st
  | .more j st => .more (k + j) st
  | .fail r => .fail r

/-- Shifting the consumed count through the chunk emitter. -/
theorem chunkedEmit_shift (n : Nat) (f : Bool) (k c : Nat) (buf : Bytes) :
    chunkedEmit n f (k + c) buf = addConsumed k (chunkedEmit n f c buf) := by
  unfold chunkedEmit
  by_cases hb : buf = []
  · simp [hb, addConsumed]
  · simp [hb, addConsumed, Nat.add_assoc]

/-- Discarding a finished chunk's terminator shifts the following step
by the two terminator bytes. -/
theorem chunkedStep_discard (Y : Bytes) :
    chunkedStep 0 2 false false (crlf ++ Y) =
      addConsumed 2 (chunkedStep 0 0 false false Y) := by
  have hmin : min 2 (crlf ++ Y).length = 2 := Nat.min_eq_left (by simp [crlf])
  have hdrop : (crlf ++ Y).drop 2 = Y := by simp [crlf]
  unfold chunkedStep
  simp only [Bool.false_eq_true, if_false, reduceIte, hmin, hdrop, Nat.sub_self,
    gt_iff_lt, Nat.lt_irrefl, Nat.zero_min, List.drop_zero]
  cases hE : extractLine maxLineSize Y with
  | needData => simp [hE, addConsumed]
  | tooLong => simp [hE, addConsumed]
  | ok line rest c1 =>
      cases hP : parseChunkSize line with
      | none => simp [hE, hP, addConsumed]
      | some k =>
          cases k with
          | zero =>
              cases hB : extractBlock maxHeadersSize rest with
              | needData => simp [hE, hP, hB, addConsumed]
              | tooLong => simp [hE, hP, hB, addConsumed]
              | ok lines r2 c2 =>
                  cases hL : parseHeaderLines lines with
                  | none => simp [hE, hP, hB, hL, addConsumed]
                  | some ts => simp [hE, hP, hB, hL, addConsumed, Nat.add_assoc]
          | succ n =>
              simp only [hE, hP]
              rw [show (2 : Nat) + c1 = 2 + (0 + c1) by omega]
              exact chunkedEmit_shift (n + 1) true 2 (0 + c1) rest

/-- The emitter flushes one whole buffered chunk as a single Data
event flagged chunk-end, leaving its terminator to discard. -/
theorem chunkedEmit_full (n : Nat) (f : Bool) (c : Nat) (d X : Bytes)
    (hd : d.length = n) (hne : d ≠ []) :
    chunkedEmit n f c (d ++ (crlf ++ X)) =
      .out (.data d f true) (c + n) (some (.chunk 0 2 false false)) := by
  subst hd
  have hne2 : d ++ (crlf ++ X) ≠ [] := by
    cases d with
    | nil => exact absurd rfl hne
    | cons a l => simp
  have hmin : min d.length (d ++ (crlf ++ X)).length = d.length :=
    Nat.min_eq_left (by simp)
  unfold chunkedEmit
  rw [if_neg hne2]
  simp only [hmin, List.take_left, beq_self_eq_true, Nat.sub_self, if_true, reduceIte]

/-- A CRLF-terminated line within the limit extracts back off the
buffer. -/
theorem extractLine_roundtrip (limit : Nat) (l rest : Bytes) (hl : bLF ∉ l)
    (hsz : l.length + 2 ≤ limit) :
    extractLine limit (l ++ crlf ++ rest) = .ok l rest (l.length + 2) := by
  unfold extractLine
  rw [splitLine_crlf l rest hl]
  have hlen : (l ++ crlf ++ rest).length - rest.length = l.length + 2 := by
    simp [crlf]
    omega
  simp only [hlen, if_pos hsz]

/-- A fresh chunked-reader state consumes one whole buffered chunk. -/
theorem chunkedStep_chunk (d X : Bytes) (hd : d ≠ [])
    (hsz : (hexOfNat d.length).length + 2 ≤ maxLineSize) :
    chunkedStep 0 0 false false (hexOfNat d.length ++ crlf ++ (d ++ (crlf ++ X))) =
      .out (.data d true true) ((hexOfNat d.length).length + 2 + d.length)
        (some (.chunk 0 2 false false)) := by
  have hEL : extractLine maxLineSize (hexOfNat d.length ++ crlf ++ (d ++ (crlf ++ X))) =
      .ok (hexOfNat d.length) (d ++ (crlf ++ X)) ((hexOfNat d.length).length + 2) :=
    extractLine_roundtrip maxLineSize _ _ (hexOfNat_no_lf d.length) hsz
  obtain ⟨k, hk⟩ : ∃ k, d.length = k + 1 := by
    cases d with
    | nil => exact absurd rfl hd
    | cons a l => exact ⟨l.length, rfl⟩
  have hpcs : parseChunkSize (hexOfNat d.length) = some (k + 1) := by
    rw [parseChunkSize_hexOfNat, hk]
  unfold chunkedStep
  simp only [Nat.zero_min, List.drop_zero, Nat.sub_self, gt_iff_lt, Nat.lt_irrefl,
    if_false, reduceIte, hEL, hpcs]
  rw [chunkedEmit_full (k + 1) true (0 + ((hexOfNat d.length).length + 2)) d X hk hd]
  simp [hk]

/-- The header writer's wire form as rendered lines. -/
theorem writeHeaders_shape (hs : Headers) :
    writeHeaders hs = renderLines ((hostFront hs).map headerLine) ++ crlf := by
  unfold writeHeaders
  have h1 : renderEntries (hostFront hs) =
      renderEntries (hs.filter isHost) ++ renderEntries (hs.filter (fun e => !isHost e)) := by
    unfold hostFront renderEntries
    simp
  rw [renderEntries_eq] at h1
  rw [← h1]

/-- A fresh chunked-reader state consumes the terminating chunk and the
trailer block in one EndOfMessage step. -/
theorem chunkedStep_eom (ts : Headers)
    (hval : ∀ e ∈ ts, validEntry e = true)
    (hsz : (renderLines ((hostFront ts).map headerLine)).length + 2 ≤ maxHeadersSize) :
    chunkedStep 0 0 false false (chunkedSendEom ts) =
      .out (.endOfMessage (hostFront ts)) (chunkedSendEom ts).length none := by
  have hvalf : ∀ e ∈ hostFront ts, validEntry e = true := fun e he =>
    hval e (hostFront_mem he)
  have hwf : ∀ l ∈ (hostFront ts).map headerLine, l ≠ [] ∧ bLF ∉ l := by
    intro l hl
    obtain ⟨e, he, hle⟩ := List.mem_map.mp hl
    subst hle
    exact headerLine_wf e (hvalf e he)
  have hshape : chunkedSendEom ts = [48] ++ crlf ++ writeHeaders ts := rfl
  have hEL : extractLine maxLineSize (chunkedSendEom ts) =
      .ok [48] (writeHeaders ts) 3 := by
    rw [hshape]
    exact extractLine_roundtrip maxLineSize [48] (writeHeaders ts)
      (by intro h; simp [bLF] at h) (by decide)
  have hEB : extractBlock maxHeadersSize (writeHeaders ts) =
      .ok ((hostFront ts).map headerLine) []
        ((renderLines ((hostFront ts).map headerLine)).length + 2) := by
    rw [writeHeaders_shape,
      show renderLines ((hostFront ts).map headerLine) ++ crlf =
        renderLines ((hostFront ts).map headerLine) ++ crlf ++ [] by simp]
    exact extractBlock_roundtrip maxHeadersSize _ [] hwf hsz
  have hclen : (chunkedSendEom ts).length =
      3 + ((renderLines ((hostFront ts).map headerLine)).length + 2) := by
    rw [hshape, writeHeaders_shape]
    simp [crlf]
    omega
  unfold chunkedStep
  simp only [Nat.zero_min, List.drop_zero, Nat.sub_self, gt_iff_lt, Nat.lt_irrefl,
    if_false, reduceIte, hEL, show parseChunkSize [48] = some 0 from rfl, hEB,
    parseHeaderLines_roundtrip (hostFront ts) hvalf]
  rw [hclen]
  simp
/-- The events a receiver produces for one message body. -/
def recvBodyEvents (f : Framing) (ds : List Bytes) (ts : Headers) : List Event :=
  match f with
  | .chunked => (ds.filter (fun d => !d.isEmpty)).map (fun d => .data d true true) ++
      [.endOfMessage (hostFront ts)]
  | _ => (if ds.flatten = [] then [] else [.data ds.flatten false false]) ++
      [.endOfMessage []]

/-- The receiver's Content-Length body run: the whole buffered body in
one Data event when nonempty, then EndOfMessage, then need-data. -/
theorem runChain_cl (ka : Bool) (m : Bytes) (body : Bytes) :
    runChain (srvConn (sbState ka) m body (some (.cl body.length)))
      ((if body = [] then [] else [.data body false false]) ++ [.endOfMessage []])
      (srvConn (dnState ka) m [] none) := by
  by_cases hb : body = []
  · subst hb
    rw [if_pos rfl, List.nil_append]
    refine ⟨_, nextEvent_sb_eom ka m [] (.cl 0) [] 0 rfl, ?_⟩
    exact nextEvent_drained ka m
  · rw [if_neg hb]
    refine ⟨_, nextEvent_sb_data ka m body (.cl body.length) body false false
      body.length (some (.cl 0)) (clStep_full body hb), ?_⟩
    rw [show body.drop body.length = ([] : Bytes) from List.drop_length body]
    refine ⟨_, nextEvent_sb_eom ka m [] (.cl 0) [] 0 rfl, ?_⟩
    exact nextEvent_drained ka m

/-- The receiver's chunked body run: one Data event per nonempty sent
chunk, then the trailer EndOfMessage, then need-data.  The discard
argument carries the previous chunk's terminator. -/
theorem runChain_chunk (ka : Bool) (m : Bytes) (ts : Headers)
    (hval : ∀ e ∈ ts, validEntry e = true)
    (hszt : (renderLines ((hostFront ts).map headerLine)).length + 2 ≤ maxHeadersSize) :
    ∀ ds : List Bytes, (∀ d ∈ ds, (hexOfNat d.length).length + 2 ≤ maxLineSize) →
    ∀ (pad : Bytes) (dis : Nat), ((dis = 0 ∧ pad = []) ∨ (dis = 2 ∧ pad = crlf)) →
    runChain (srvConn (sbState ka) m
        (pad ++ ((ds.map chunkedSendData).flatten ++ chunkedSendEom ts))
        (some (.chunk 0 dis false false)))
      ((ds.filter (fun d => !d.isEmpty)).map (fun d => .data d true true) ++
        [.endOfMessage (hostFront ts)])
      (srvConn (dnState ka) m [] none) := by
  intro ds
  induction ds with
  | nil =>
      intro _ pad dis hpad
      simp only [List.map_nil, List.flatten_nil, List.nil_append, List.filter_nil]
      rcases hpad with ⟨h0, hp⟩ | ⟨h2, hp⟩
      · subst h0
        subst hp
        refine ⟨_, nextEvent_sb_eom ka m _ (.chunk 0 0 false false) (hostFront ts)
          (chunkedSendEom ts).length (by
            rw [show ([] : Bytes) ++ chunkedSendEom ts = chunkedSendEom ts from
              List.nil_append _]
            exact chunkedStep_eom ts hval hszt), ?_⟩
        rw [show (([] : Bytes) ++ chunkedSendEom ts).drop (chunkedSendEom ts).length =
          ([] : Bytes) by rw [List.nil_append]; exact List.drop_length _]
        exact nextEvent_drained ka m
      · subst h2
        subst hp
        refine ⟨_, nextEvent_sb_eom ka m _ (.chunk 0 2 false false) (hostFront ts)
          (2 + (chunkedSendEom ts).length) (by
            show chunkedStep 0 2 false false (crlf ++ chunkedSendEom ts) = _
            rw [chunkedStep_discard, chunkedStep_eom ts hval hszt]
            rfl), ?_⟩
        rw [show (crlf ++ chunkedSendEom ts).drop (2 + (chunkedSendEom ts).length) =
          ([] : Bytes) by
            apply List.drop_eq_nil_of_le
            simp [crlf]
            omega]
        exact nextEvent_drained ka m
  | cons d ds ih =>
      intro hszd pad dis hpad
      by_cases hd : d = []
      · subst hd
        simp only [List.map_cons, List.flatten_cons,
          show chunkedSendData [] = [] from rfl, List.nil_append, List.filter_cons]
        rw [if_neg (by simp)]
        exact ih (fun x hx => hszd x (by simp [hx])) pad dis hpad
      · have hcs : chunkedSendData d = hexOfNat d.length ++ crlf ++ (d ++ crlf) := by
          unfold chunkedSendData
          rw [if_neg hd]
          simp [List.append_assoc]
        have hev : ((d :: ds).filter (fun x => !x.isEmpty)).map
            (fun x => Event.data x true true) =
            Event.data d true true ::
              (ds.filter (fun x => !x.isEmpty)).map (fun x => Event.data x true true) := by
          rw [List.filter_cons, if_pos (by simp [hd])]
          rfl
        rw [hev, List.cons_append]
        rcases hpad with ⟨h0, hp⟩ | ⟨h2, hp⟩
        · subst h0
          subst hp
          have hbufeq : ([] : Bytes) ++ (((d :: ds).map chunkedSendData).flatten ++
              chunkedSendEom ts) =
              hexOfNat d.length ++ crlf ++ (d ++ (crlf ++
                ((ds.map chunkedSendData).flatten ++ chunkedSendEom ts))) := by
            simp only [List.map_cons, List.flatten_cons, hcs, List.nil_append]
            simp [List.append_assoc]
          refine ⟨_, nextEvent_sb_data ka m _ (.chunk 0 0 false false) d true true
            ((hexOfNat d.length).length + 2 + d.length) (some (.chunk 0 2 false false)) (by
              rw [show bodyStep (.chunk 0 0 false false) (([] : Bytes) ++
                  (((d :: ds).map chunkedSendData).flatten ++ chunkedSendEom ts)) =
                chunkedStep 0 0 false false (([] : Bytes) ++
                  (((d :: ds).map chunkedSendData).flatten ++ chunkedSendEom ts)) from rfl]
              rw [hbufeq]
              exact chunkedStep_chunk d _ hd (hszd d (by simp))), ?_⟩
          have hdrop : (([] : Bytes) ++ (((d :: ds).map chunkedSendData).flatten ++
              chunkedSendEom ts)).drop ((hexOfNat d.length).length + 2 + d.length) =
              crlf ++ ((ds.map chunkedSendData).flatten ++ chunkedSendEom ts) := by
            rw [hbufeq]
            rw [show hexOfNat d.length ++ crlf ++ (d ++ (crlf ++
                ((ds.map chunkedSendData).flatten ++ chunkedSendEom ts))) =
              (hexOfNat d.length ++ crlf ++ d) ++ (crlf ++
                ((ds.map chunkedSendData).flatten ++ chunkedSendEom ts)) by
                simp [List.append_assoc]]
            rw [show (hexOfNat d.length).length + 2 + d.length =
              (hexOfNat d.length ++ crlf ++ d).length by simp [crlf]; omega]
            exact List.drop_left _ _
          rw [hdrop]
          exact ih (fun x hx => hszd x (by simp [hx])) crlf 2 (Or.inr ⟨rfl, rfl⟩)
        · subst h2
          subst hp
          have hbufeq : crlf ++ (((d :: ds).map chunkedSendData).flatten ++
              chunkedSendEom ts) =
              crlf ++ (hexOfNat d.length ++ crlf ++ (d ++ (crlf ++
                ((ds.map chunkedSendData).flatten ++ chunkedSendEom ts)))) := by
            simp only [List.map_cons, List.flatten_cons, hcs]
            simp [List.append_assoc]
          refine ⟨_, nextEvent_sb_data ka m _ (.chunk 0 2 false false) d true true
            (2 + ((hexOfNat d.length).length + 2 + d.length))
            (some (.chunk 0 2 false false)) (by
              rw [show bodyStep (.chunk 0 2 false false) (crlf ++
                  (((d :: ds).map chunkedSendData).flatten ++ chunkedSendEom ts)) =
                chunkedStep 0 2 false false (crlf ++
                  (((d :: ds).map chunkedSendData).flatten ++ chunkedSendEom ts)) from rfl]
              rw [hbufeq, chunkedStep_discard,
                chunkedStep_chunk d _ hd (hszd d (by simp))]
              rfl), ?_⟩
          have hdrop : (crlf ++ (((d :: ds).map chunkedSendData).flatten ++
              chunkedSendEom ts)).drop (2 + ((hexOfNat d.length).length + 2 + d.length)) =
              crlf ++ ((ds.map chunkedSendData).flatten ++ chunkedSendEom ts) := by
            rw [hbufeq]
            rw [show crlf ++ (hexOfNat d.length ++ crlf ++ (d ++ (crlf ++
                ((ds.map chunkedSendData).flatten ++ chunkedSendEom ts)))) =
              (crlf ++ (hexOfNat d.length ++ crlf ++ d)) ++ (crlf ++
                ((ds.map chunkedSendData).flatten ++ chunkedSendEom ts)) by
                simp [List.append_assoc]]
            rw [show 2 + ((hexOfNat d.length).length + 2 + d.length) =
              (crlf ++ (hexOfNat d.length ++ crlf ++ d)).length by simp [crlf]; omega]
            exact List.drop_left _ _
          rw [hdrop]
          exact ih (fun x hx => hszd x (by simp [hx])) crlf 2 (Or.inr ⟨rfl, rfl⟩)
/-- The whole receiver run for one sent message: the host-fronted
Request, the body events of its framing, and a final need-data. -/
theorem runChain_message (m t : Bytes) (hs : Headers) (ds : List Bytes) (ts : Headers)
    (hv : validRequest m t hs (asciiBytes "1.1") = true)
    (hnc : m ≠ asciiBytes "CONNECT") (hup : getHeader hs (asciiBytes "upgrade") = [])
    (hbody : bodyOk (requestFraming hs) ds ts)
    (hsz : sizeOkC1 m t hs ds ts) :
    runChain { Connection.fresh .server with
        buffer := (writeRequest m t hs :: bodyChunks (requestFraming hs) ds ts).flatten }
      (.request m t (hostFront hs) (asciiBytes "1.1") ::
        recvBodyEvents (requestFraming hs) ds ts)
      (srvConn (dnState (keepAliveOf hs (asciiBytes "1.1"))) m [] none) := by
  obtain ⟨hsz1, hsz2, hsz3⟩ := hsz
  cases hf : requestFraming hs with
  | noBody =>
      rw [hf] at hbody
      obtain ⟨h0, hts⟩ := hbody
      have hfl : ds.flatten = [] := by
        rw [← List.length_eq_zero, flatten_sumLens]
        exact h0
      rw [show (writeRequest m t hs :: bodyChunks Framing.noBody ds ts).flatten =
        writeRequest m t hs ++ ([] : Bytes) by simp [bodyChunks, hfl]]
      refine ⟨srvConn (sbState (keepAliveOf hs (asciiBytes "1.1"))) m []
        (some (framingToReader Framing.noBody)), ?_, ?_⟩
      · have hh := nextEvent_head m t hs [] hv hnc hup hsz1
        rw [hf] at hh
        exact hh
      · simp only [recvBodyEvents, hfl, if_pos rfl, List.nil_append]
        have hrc := runChain_cl (keepAliveOf hs (asciiBytes "1.1")) m []
        simpa using hrc
  | contentLength n =>
      rw [hf] at hbody
      obtain ⟨h0, hts⟩ := hbody
      have hn : n = ds.flatten.length := by
        rw [flatten_sumLens]
        omega
      rw [show (writeRequest m t hs :: bodyChunks (Framing.contentLength n) ds ts).flatten =
        writeRequest m t hs ++ ds.flatten by simp [bodyChunks]]
      refine ⟨srvConn (sbState (keepAliveOf hs (asciiBytes "1.1"))) m ds.flatten
        (some (framingToReader (Framing.contentLength n))), ?_, ?_⟩
      · have hh := nextEvent_head m t hs ds.flatten hv hnc hup hsz1
        rw [hf] at hh
        exact hh
      · simp only [recvBodyEvents]
        rw [hn]
        exact runChain_cl (keepAliveOf hs (asciiBytes "1.1")) m ds.flatten
  | chunked =>
      rw [hf] at hbody
      have hval : ∀ e ∈ ts, validEntry e = true := normalizeHeaders_ok_valid hbody
      rw [show (writeRequest m t hs :: bodyChunks Framing.chunked ds ts).flatten =
        writeRequest m t hs ++ ((ds.map chunkedSendData).flatten ++ chunkedSendEom ts) by
          simp [bodyChunks]]
      refine ⟨srvConn (sbState (keepAliveOf hs (asciiBytes "1.1"))) m
        ((ds.map chunkedSendData).flatten ++ chunkedSendEom ts)
        (some (framingToReader Framing.chunked)), ?_, ?_⟩
      · have hh := nextEvent_head m t hs
          ((ds.map chunkedSendData).flatten ++ chunkedSendEom ts) hv hnc hup hsz1
        rw [hf] at hh
        exact hh
      · simp only [recvBodyEvents]
        have hrc := runChain_chunk (keepAliveOf hs (asciiBytes "1.1")) m ts hval hsz3
          ds hsz2 [] 0 (Or.inl ⟨rfl, rfl⟩)
        simpa [framingToReader] using hrc
  | readUntilClose =>
      rw [hf] at hbody
      exact hbody.elim
/-- Normal form of the sent event stream after host fronting. -/
theorem sent_norm (m t : Bytes) (hs : Headers) (ds : List Bytes) (ts : Headers) :
    normalizeEvents ((messageEvents m t hs ds ts).map hostFrontEvent) =
      Event.request m t (hostFront hs) (asciiBytes "1.1") ::
        (if ds.flatten = [] then [] else [Event.data ds.flatten false false]) ++
        [Event.endOfMessage (hostFront ts)] := by
  have hmap : (messageEvents m t hs ds ts).map hostFrontEvent =
      Event.request m t (hostFront hs) (asciiBytes "1.1") ::
        ((ds.map (fun d => (d, false, false))).map
          (fun p : Bytes × Bool × Bool => Event.data p.1 p.2.1 p.2.2) ++
          [Event.endOfMessage (hostFront ts)]) := by
    simp [messageEvents, dataEvents, hostFrontEvent, List.map_map, Function.comp]
  rw [hmap]
  rw [normEvents_msg (ds.map (fun d => (d, false, false)))
    (Event.request m t (hostFront hs) (asciiBytes "1.1"))
    (Event.endOfMessage (hostFront ts)) rfl rfl rfl rfl]
  rw [show ((ds.map (fun d => (d, false, false))).map Prod.fst) = ds by
    rw [List.map_map, show (Prod.fst ∘ fun d : Bytes => (d, false, false)) = id from rfl,
      List.map_id]]

/-- Normal form of the receiver's events for a Content-Length or empty
body. -/
theorem recv_norm_other (m t : Bytes) (hs : Headers) (body : Bytes) :
    normalizeEvents (Event.request m t (hostFront hs) (asciiBytes "1.1") ::
        ((if body = [] then [] else [Event.data body false false]) ++
          [Event.endOfMessage []])) =
      Event.request m t (hostFront hs) (asciiBytes "1.1") ::
        (if body = [] then [] else [Event.data body false false]) ++
        [Event.endOfMessage []] := by
  by_cases hb : body = []
  · rw [if_pos hb]
    rfl
  · rw [if_neg hb]
    have hbeq : (body == ([] : Bytes)) = false := beq_eq_false_iff_ne.mpr hb
    unfold normalizeEvents
    rw [show coalesce (Event.request m t (hostFront hs) (asciiBytes "1.1") ::
        ([Event.data body false false] ++ [Event.endOfMessage []])) =
      [Event.request m t (hostFront hs) (asciiBytes "1.1"), Event.data body false false,
       Event.endOfMessage []] from rfl]
    simp [List.filter, isEmptyData_data, hbeq, isEmptyData_request, isEmptyData_eom]

/-- Normal form of the receiver's events for a chunked body. -/
theorem recv_norm_chunk (m t : Bytes) (hs : Headers) (ds : List Bytes) (ts : Headers) :
    normalizeEvents (Event.request m t (hostFront hs) (asciiBytes "1.1") ::
        ((ds.filter (fun d => !d.isEmpty)).map (fun d => Event.data d true true) ++
          [Event.endOfMessage (hostFront ts)])) =
      Event.request m t (hostFront hs) (asciiBytes "1.1") ::
        (if ds.flatten = [] then [] else [Event.data ds.flatten false false]) ++
        [Event.endOfMessage (hostFront ts)] := by
  rw [show (ds.filter (fun d => !d.isEmpty)).map (fun d => Event.data d true true) =
    ((ds.filter (fun d => !d.isEmpty)).map (fun d => (d, true, true))).map
      (fun p : Bytes × Bool × Bool => Event.data p.1 p.2.1 p.2.2) by
      rw [List.map_map]
      rfl]
  rw [normEvents_msg ((ds.filter (fun d => !d.isEmpty)).map (fun d => (d, true, true)))
    (Event.request m t (hostFront hs) (asciiBytes "1.1"))
    (Event.endOfMessage (hostFront ts)) rfl rfl rfl rfl]
  rw [show (((ds.filter (fun d => !d.isEmpty)).map (fun d => (d, true, true))).map
      Prod.fst) = ds.filter (fun d => !d.isEmpty) by
    rw [List.map_map, show (Prod.fst ∘ fun d : Bytes => (d, true, true)) = id from rfl,
      List.map_id]]
  rw [flatten_filter_ne_nil]

/-- The pump fuel the feed harness grants covers the whole message run. -/
theorem c1_fuel_bound (m t : Bytes) (hs : Headers) (ds : List Bytes) (ts : Headers) :
    (Event.request m t (hostFront hs) (asciiBytes "1.1") ::
      recvBodyEvents (requestFraming hs) ds ts).length + 1 ≤
      2 * ((writeRequest m t hs :: bodyChunks (requestFraming hs) ds ts).flatten).length
        + 2 := by
  have hw2 : 2 ≤ (writeRequest m t hs).length := by
    rw [writeRequest_shape]
    simp [crlf]
  cases hf : requestFraming hs with
  | chunked =>
      have hcnt := filter_len_le_chunks ds
      have h1 : ((writeRequest m t hs :: bodyChunks Framing.chunked ds ts).flatten).length =
          (writeRequest m t hs).length + (((ds.map chunkedSendData).flatten).length +
            (chunkedSendEom ts).length) := by
        simp [bodyChunks]
      have h2 : (recvBodyEvents Framing.chunked ds ts).length =
          (ds.filter (fun d => !d.isEmpty)).length + 1 := by
        simp [recvBodyEvents]
      simp only [List.length_cons, h1, h2]
      omega
  | noBody =>
      have h1 : ((writeRequest m t hs :: bodyChunks Framing.noBody ds ts).flatten).length =
          (writeRequest m t hs).length + ((bodyChunks Framing.noBody ds ts).flatten).length := by
        simp
      have h2 : (recvBodyEvents Framing.noBody ds ts).length ≤ 2 := by
        simp only [recvBodyEvents]
        by_cases hfl : ds.flatten = [] <;> simp [hfl]
      simp only [List.length_cons, h1]
      omega
  | contentLength n =>
      have h1 : ((writeRequest m t hs ::
          bodyChunks (Framing.contentLength n) ds ts).flatten).length =
          (writeRequest m t hs).length +
            ((bodyChunks (Framing.contentLength n) ds ts).flatten).length := by
        simp
      have h2 : (recvBodyEvents (Framing.contentLength n) ds ts).length ≤ 2 := by
        simp only [recvBodyEvents]
        by_cases hfl : ds.flatten = [] <;> simp [hfl]
      simp only [List.length_cons, h1]
      omega
  | readUntilClose =>
      have h1 : ((writeRequest m t hs ::
          bodyChunks Framing.readUntilClose ds ts).flatten).length =
          (writeRequest m t hs).length +
            ((bodyChunks Framing.readUntilClose ds ts).flatten).length := by
        simp
      have h2 : (recvBodyEvents Framing.readUntilClose ds ts).length ≤ 2 := by
        simp only [recvBodyEvents]
        by_cases hfl : ds.flatten = [] <;> simp [hfl]
      simp only [List.length_cons, h1]
      omega
/-- C1 (amended): the claim fails as stated because the receiver
re-chunks Data events and the writer fronts the Host header; the
counterexample h11_c1_roundtrip_counterexample exhibits both.  Amended
to the property that does hold: for a client-role connection sending
one complete non-switching message whose body fits its declared framing
and whose head, chunk-size lines and trailers fit the receiver's size
limits, sendAll accepts every event, and a fresh server fed the
concatenated bytes raises no error and yields exactly the same event
sequence up to Data re-chunking (coalescing adjacent Data, dropping
empty Data) and the writer's host fronting of header lists. -/
theorem h11_c1_roundtrip_amended (m t : Bytes) (hs : Headers) (ds : List Bytes)
    (ts : Headers)
    (hv : validRequest m t hs (asciiBytes "1.1") = true)
    (hnc : m ≠ asciiBytes "CONNECT") (hup : getHeader hs (asciiBytes "upgrade") = [])
    (hbody : bodyOk (requestFraming hs) ds ts)
    (hsz : sizeOkC1 m t hs ds ts) :
    ∃ (chunks : List Bytes) (cs : Connection),
      sendAll (Connection.fresh .client) (messageEvents m t hs ds ts) = .ok (chunks, cs) ∧
      (feedAll .server chunks.flatten).2.1 = .ok .needData ∧
      normalizeEvents (feedAll .server chunks.flatten).1 =
        normalizeEvents ((messageEvents m t hs ds ts).map hostFrontEvent) := by
  refine ⟨writeRequest m t hs :: bodyChunks (requestFraming hs) ds ts,
    cliDone (keepAliveOf hs (asciiBytes "1.1")) m,
    sendAll_message m t hs ds ts hv hnc hup hbody, ?_, ?_⟩
  · have hp := pump_of_runChain _ _ _ (runChain_message m t hs ds ts hv hnc hup hbody hsz)
      (2 * ((writeRequest m t hs :: bodyChunks (requestFraming hs) ds ts).flatten).length + 2)
      (c1_fuel_bound m t hs ds ts)
    rw [show feedAll .server
        ((writeRequest m t hs :: bodyChunks (requestFraming hs) ds ts).flatten) =
      pump (2 * ((writeRequest m t hs ::
          bodyChunks (requestFraming hs) ds ts).flatten).length + 2)
        { Connection.fresh .server with
          buffer := (writeRequest m t hs ::
            bodyChunks (requestFraming hs) ds ts).flatten } from rfl]
    rw [hp]
  · have hp := pump_of_runChain _ _ _ (runChain_message m t hs ds ts hv hnc hup hbody hsz)
      (2 * ((writeRequest m t hs :: bodyChunks (requestFraming hs) ds ts).flatten).length + 2)
      (c1_fuel_bound m t hs ds ts)
    rw [show feedAll .server
        ((writeRequest m t hs :: bodyChunks (requestFraming hs) ds ts).flatten) =
      pump (2 * ((writeRequest m t hs ::
          bodyChunks (requestFraming hs) ds ts).flatten).length + 2)
        { Connection.fresh .server with
          buffer := (writeRequest m t hs ::
            bodyChunks (requestFraming hs) ds ts).flatten } from rfl]
    rw [hp]
    rw [sent_norm]
    cases hf : requestFraming hs with
    | noBody =>
        rw [hf] at hbody
        obtain ⟨h0, hts⟩ := hbody
        have hfl : ds.flatten = [] := by
          rw [← List.length_eq_zero, flatten_sumLens]
          exact h0
        subst hts
        simp only [recvBodyEvents]
        exact recv_norm_other m t hs ds.flatten
    | contentLength n =>
        rw [hf] at hbody
        obtain ⟨h0, hts⟩ := hbody
        subst hts
        simp only [recvBodyEvents]
        exact recv_norm_other m t hs ds.flatten
    | chunked =>
        simp only [recvBodyEvents]
        exact recv_norm_chunk m t hs ds ts
    | readUntilClose =>
        rw [hf] at hbody
        exact hbody.elim

/-- C1 amended witness: a chunked POST with payloads ab, empty, c and
no trailers roundtrips through a fresh server up to re-chunking. -/
theorem h11_c1_roundtrip_amended_witness :
    ∃ (chunks : List Bytes) (cs : Connection),
      sendAll (Connection.fresh .client)
        (messageEvents (asciiBytes "POST") (asciiBytes "/")
          [{ rawName := asciiBytes "Host", name := asciiBytes "host",
             value := asciiBytes "a" },
           { rawName := asciiBytes "Transfer-Encoding",
             name := asciiBytes "transfer-encoding", value := asciiBytes "chunked" }]
          [asciiBytes "ab", [], asciiBytes "c"] []) = .ok (chunks, cs) ∧
      (feedAll .server chunks.flatten).2.1 = .ok .needData ∧
      normalizeEvents (feedAll .server chunks.flatten).1 =
        normalizeEvents ((messageEvents (asciiBytes "POST") (asciiBytes "/")
          [{ rawName := asciiBytes "Host", name := asciiBytes "host",
             value := asciiBytes "a" },
           { rawName := asciiBytes "Transfer-Encoding",
             name := asciiBytes "transfer-encoding", value := asciiBytes "chunked" }]
          [asciiBytes "ab", [], asciiBytes "c"] []).map hostFrontEvent) :=
  h11_c1_roundtrip_amended (asciiBytes "POST") (asciiBytes "/")
    [{ rawName := asciiBytes "Host", name := asciiBytes "host", value := asciiBytes "a" },
     { rawName := asciiBytes "Transfer-Encoding", name := asciiBytes "transfer-encoding",
       value := asciiBytes "chunked" }]
    [asciiBytes "ab", [], asciiBytes "c"] []
    (by decide) (by decide) (by decide) ⟨[], rfl⟩ ⟨by decide, by decide, by decide⟩
/-! ## Claim C2: splitting invariance machinery -/

/-- Decompose an equality of an appended buffer against a cons-split:
the marker byte falls in the left part or the right part. -/
theorem append_eq_append_cons {b e l r : Bytes} {x : Nat} (h : b ++ e = l ++ x :: r) :
    (∃ t, b = l ++ x :: t ∧ r = t ++ e) ∨ (∃ t, l = b ++ t ∧ e = t ++ x :: r) := by
  induction b generalizing l with
  | nil =>
      right
      exact ⟨l, rfl, h⟩
  | cons a b ih =>
      cases l with
      | nil =>
          simp only [List.cons_append, List.nil_append] at h
          obtain ⟨h1, h2⟩ := List.cons.injEq .. ▸ h
          left
          refine ⟨b, ?_, h2.symm⟩
          rw [h1]
          simp
      | cons c l =>
          simp only [List.cons_append] at h
          obtain ⟨h1, h2⟩ := List.cons.injEq .. ▸ h
          rcases ih h2 with ⟨t, hb, hr⟩ | ⟨t, hl, he⟩
          · left
            exact ⟨t, by rw [h1, hb]; rfl, hr⟩
          · right
            exact ⟨t, by rw [h1, hl]; rfl, he⟩

/-- A found line survives buffer extension. -/
theorem splitAtLF_ext {b l r : Bytes} (e : Bytes) (h : splitAtLF b = some (l, r)) :
    splitAtLF (b ++ e) = some (l, r ++ e) := by
  obtain ⟨hb, hnl⟩ := splitAtLF_eq h
  rw [hb, show (l ++ bLF :: r) ++ e = l ++ bLF :: (r ++ e) by simp]
  exact splitAtLF_append hnl

/-- A line found in an extended buffer was in the prefix, or the prefix
holds no complete line and the line spans past it. -/
theorem splitAtLF_prefix {b e l r : Bytes} (h : splitAtLF (b ++ e) = some (l, r)) :
    (∃ r0, splitAtLF b = some (l, r0) ∧ r = r0 ++ e) ∨
      (splitAtLF b = none ∧ ∃ t, l = b ++ t) := by
  obtain ⟨hb, hnl⟩ := splitAtLF_eq h
  rcases append_eq_append_cons hb with ⟨t, hb1, hr⟩ | ⟨t, hl, _⟩
  · left
    refine ⟨t, ?_, hr⟩
    rw [hb1]
    exact splitAtLF_append hnl
  · right
    refine ⟨?_, t, hl⟩
    apply splitAtLF_none
    intro hm
    exact hnl (hl ▸ List.mem_append.mpr (Or.inl hm))

/-- A split line survives buffer extension. -/
theorem splitLine_ext {b l r : Bytes} (e : Bytes) (h : splitLine b = some (l, r)) :
    splitLine (b ++ e) = some (l, r ++ e) := by
  simp only [splitLine, Option.map_eq_some'] at h
  obtain ⟨⟨l0, r0⟩, hp, he⟩ := h
  cases he
  simp only [splitLine, splitAtLF_ext e hp, Option.map_some']

/-- A line split off an extended buffer was in the prefix, or the
prefix has no complete line and the whole split consumed past it. -/
theorem splitLine_prefix {b e l r : Bytes} (h : splitLine (b ++ e) = some (l, r)) :
    (∃ r0, splitLine b = some (l, r0) ∧ r = r0 ++ e) ∨
      (splitLine b = none ∧ b.length < (b ++ e).length - r.length) := by
  simp only [splitLine, Option.map_eq_some'] at h
  obtain ⟨⟨l0, r0⟩, hp, he⟩ := h
  cases he
  have hlen := splitAtLF_eq hp
  rcases splitAtLF_prefix hp with ⟨r1, hb, hr⟩ | ⟨hn, t, hl⟩
  · left
    refine ⟨r1, ?_, hr⟩
    simp only [splitLine, hb, Option.map_some']
  · right
    refine ⟨?_, ?_⟩
    · simp only [splitLine, hn]
      rfl
    · have h1 := congrArg List.length hlen.1
      simp only [List.length_append, List.length_cons] at h1
      have h2 := congrArg List.length hl
      simp only [List.length_append] at h2
      simp only [List.length_append]
      omega

/-- The leftover of a line collection is part of the buffer. -/
theorem extractLinesGo_rest_le {ls : List Bytes} {r : Bytes} : ∀ {fuel : Nat} {b : Bytes},
    extractLinesGo fuel b = some (ls, r) → r.length ≤ b.length := by
  intro fuel
  induction fuel generalizing ls with
  | zero => intro b h; cases h
  | succ k ih =>
      intro b h
      unfold extractLinesGo at h
      cases hs : splitLine b with
      | none => simp [hs] at h
      | some p =>
          obtain ⟨l, rest⟩ := p
          simp only [hs] at h
          have hlt := splitLine_rest_lt hs
          by_cases hl : l = []
          · rw [if_pos hl] at h
            cases h
            omega
          · rw [if_neg hl] at h
            cases hgo : extractLinesGo k rest with
            | none => simp [hgo] at h
            | some q =>
                obtain ⟨ls1, r1⟩ := q
                simp only [hgo] at h
                cases h
                have := ih hgo
                omega

/-- More fuel never changes a successful line collection. -/
theorem extractLinesGo_mono {v : List Bytes × Bytes} : ∀ {fuel fuel' : Nat} {b : Bytes},
    extractLinesGo fuel b = some v → fuel ≤ fuel' → extractLinesGo fuel' b = some v := by
  intro fuel
  induction fuel generalizing v with
  | zero => intro fuel' b h; cases h
  | succ k ih =>
      intro fuel' b h hle
      match fuel', hle with
      | k' + 1, hle =>
          unfold extractLinesGo at h ⊢
          cases hs : splitLine b with
          | none => simp [hs] at h
          | some p =>
              obtain ⟨l, rest⟩ := p
              simp only [hs] at h ⊢
              by_cases hl : l = []
              · rw [if_pos hl] at h ⊢
                exact h
              · rw [if_neg hl] at h ⊢
                cases hgo : extractLinesGo k rest with
                | none => simp [hgo] at h
                | some q =>
                    simp only [hgo] at h
                    rw [ih hgo (by omega)]
                    exact h

/-- A collected header block survives buffer extension. -/
theorem extractLinesGo_ext {ls : List Bytes} {r : Bytes} (e : Bytes) :
    ∀ {fuel : Nat} {b : Bytes},
    extractLinesGo fuel b = some (ls, r) →
    extractLinesGo fuel (b ++ e) = some (ls, r ++ e) := by
  intro fuel
  induction fuel generalizing ls with
  | zero => intro b h; cases h
  | succ k ih =>
      intro b h
      unfold extractLinesGo at h ⊢
      cases hs : splitLine b with
      | none => simp [hs] at h
      | some p =>
          obtain ⟨l, rest⟩ := p
          simp only [hs] at h
          simp only [splitLine_ext e hs]
          by_cases hl : l = []
          · rw [if_pos hl] at h ⊢
            cases h
            rfl
          · rw [if_neg hl] at h ⊢
            cases hgo : extractLinesGo k rest with
            | none => simp [hgo] at h
            | some q =>
                obtain ⟨ls1, r1⟩ := q
                simp only [hgo] at h
                cases h
                simp only [ih hgo]

/-- The full-buffer line collection survives extension. -/
theorem extractLines_ext {b : Bytes} {ls : List Bytes} {r : Bytes} (e : Bytes)
    (h : extractLines b = some (ls, r)) :
    extractLines (b ++ e) = some (ls, r ++ e) := by
  unfold extractLines at h ⊢
  refine extractLinesGo_mono (extractLinesGo_ext e h) ?_
  simp only [List.length_append]
  omega

/-- A block collected from an extended buffer that leaves at least the
extension over was already collected in the prefix. -/
theorem extractLinesGo_prefix {ls : List Bytes} {r : Bytes} {e : Bytes} :
    ∀ {fuel : Nat} {b : Bytes},
    extractLinesGo fuel (b ++ e) = some (ls, r) → e.length ≤ r.length →
    ∃ r0, extractLinesGo fuel b = some (ls, r0) ∧ r = r0 ++ e := by
  intro fuel
  induction fuel generalizing ls r with
  | zero => intro b h; cases h
  | succ k ih =>
      intro b h hlen
      unfold extractLinesGo at h ⊢
      cases hs : splitLine (b ++ e) with
      | none => simp [hs] at h
      | some p =>
          obtain ⟨l, rest⟩ := p
          simp only [hs] at h
          rcases splitLine_prefix hs with ⟨r1, hb, hr⟩ | ⟨hn, hgt⟩
          · subst hr
            simp only [hb]
            by_cases hl : l = []
            · rw [if_pos hl] at h ⊢
              cases h
              exact ⟨r1, rfl, rfl⟩
            · rw [if_neg hl] at h ⊢
              cases hgo : extractLinesGo k (r1 ++ e) with
              | none => simp [hgo] at h
              | some q =>
                  obtain ⟨ls1, r2⟩ := q
                  simp only [hgo] at h
                  cases h
                  obtain ⟨r3, hg, hr3⟩ := ih hgo hlen
                  simp only [hg]
                  exact ⟨r3, rfl, hr3⟩
          · exfalso
            by_cases hl : l = []
            · rw [if_pos hl] at h
              cases h
              simp only [List.length_append] at hgt
              omega
            · rw [if_neg hl] at h
              cases hgo : extractLinesGo k rest with
              | none => simp [hgo] at h
              | some q =>
                  obtain ⟨ls1, r2⟩ := q
                  simp only [hgo] at h
                  cases h
                  have h1 := extractLinesGo_rest_le hgo
                  have h2 := splitLine_rest_lt hs
                  simp only [List.length_append] at hgt h2
                  omega

/-- A block whose collection from the extended buffer ate into the
extension cannot be collected from the prefix at all. -/
theorem extractLinesGo_over {ls : List Bytes} {r : Bytes} {e : Bytes} :
    ∀ {fuel : Nat} {b : Bytes},
    extractLinesGo fuel (b ++ e) = some (ls, r) → r.length < e.length →
    ∀ fuel2 : Nat, extractLinesGo fuel2 b = none := by
  intro fuel
  induction fuel generalizing ls r with
  | zero => intro b h; cases h
  | succ k ih =>
      intro b h hlen fuel2
      unfold extractLinesGo at h
      cases hs : splitLine (b ++ e) with
      | none => simp [hs] at h
      | some p =>
          obtain ⟨l, rest⟩ := p
          simp only [hs] at h
          rcases splitLine_prefix hs with ⟨r1, hb, hr⟩ | ⟨hn, hgt⟩
          · subst hr
            by_cases hl : l = []
            · rw [if_pos hl] at h
              cases h
              simp only [List.length_append] at hlen
              omega
            · rw [if_neg hl] at h
              cases hgo : extractLinesGo k (r1 ++ e) with
              | none => simp [hgo] at h
              | some q =>
                  obtain ⟨ls1, r2⟩ := q
                  simp only [hgo] at h
                  cases h
                  match fuel2 with
                  | 0 => rfl
                  | f2 + 1 =>
                      unfold extractLinesGo
                      simp only [hb, if_neg hl, ih hgo hlen f2]
          · match fuel2 with
            | 0 => rfl
            | f2 + 1 =>
                unfold extractLinesGo
                simp only [hn]

/-- A buffer containing an LF splits. -/
theorem splitAtLF_some_of_mem {b : Bytes} (h : bLF ∈ b) :
    ∃ p, splitAtLF b = some p := by
  induction b with
  | nil => cases h
  | cons a xs ih =>
      by_cases ha : a = bLF
      · subst ha
        exact ⟨([], xs), by simp [splitAtLF]⟩
      · have hm : bLF ∈ xs := by
          rcases List.mem_cons.mp h with h1 | h1
          · exact absurd h1.symm ha
          · exact h1
        obtain ⟨⟨l, r⟩, hp⟩ := ih hm
        exact ⟨(a :: l, r), by simp [splitAtLF, ha, hp]⟩

/-- No line in the prefix when none in the extension either. -/
theorem splitLine_prefix_none {b e : Bytes} (h : splitLine (b ++ e) = none) :
    splitLine b = none := by
  unfold splitLine at h ⊢
  cases hx : splitAtLF (b ++ e) with
  | some p => rw [hx] at h; cases h
  | none =>
      have hnm : bLF ∉ b ++ e := by
        intro hm
        obtain ⟨p, hp⟩ := splitAtLF_some_of_mem hm
        rw [hp] at hx
        cases hx
      rw [splitAtLF_none (fun hm => hnm (List.mem_append.mpr (Or.inl hm)))]
      rfl

/-- Enough fuel for the buffer is enough fuel. -/
theorem extractLinesGo_suff {v : List Bytes × Bytes} : ∀ {fuel : Nat} {b : Bytes},
    extractLinesGo fuel b = some v → extractLinesGo (b.length + 1) b = some v := by
  intro fuel
  induction fuel generalizing v with
  | zero => intro b h; cases h
  | succ k ih =>
      intro b h
      unfold extractLinesGo at h
      cases hs : splitLine b with
      | none => simp [hs] at h
      | some p =>
          obtain ⟨l, rest⟩ := p
          simp only [hs] at h
          have hlt := splitLine_rest_lt hs
          match hb : b.length, hlt with
          | n + 1, hlt =>
              unfold extractLinesGo
              simp only [hs]
              by_cases hl : l = []
              · rw [if_pos hl] at h ⊢
                exact h
              · rw [if_neg hl] at h ⊢
                cases hgo : extractLinesGo k rest with
                | none => simp [hgo] at h
                | some q =>
                    simp only [hgo] at h
                    rw [extractLinesGo_mono (ih hgo) (by omega)]
                    exact h

/-- The full-buffer collection of an extended buffer that leaves the
extension over restricts to the prefix. -/
theorem extractLines_prefix {B E : Bytes} {ls : List Bytes} {r : Bytes}
    (h : extractLines (B ++ E) = some (ls, r)) (hle : E.length ≤ r.length) :
    ∃ r0, extractLines B = some (ls, r0) ∧ r = r0 ++ E := by
  unfold extractLines at h ⊢
  obtain ⟨r0, hg, hr⟩ := extractLinesGo_prefix h hle
  exact ⟨r0, extractLinesGo_suff hg, hr⟩

/-- A collection that ate into the extension finds nothing in the
prefix. -/
theorem extractLines_over {B E : Bytes} {ls : List Bytes} {r : Bytes}
    (h : extractLines (B ++ E) = some (ls, r)) (hlt : r.length < E.length) :
    extractLines B = none := by
  unfold extractLines at h ⊢
  exact extractLinesGo_over h hlt _

/-- No block in the prefix when none in the extended buffer. -/
theorem extractLines_prefix_none {B E : Bytes}
    (h : extractLines (B ++ E) = none) : extractLines B = none := by
  cases hx : extractLines B with
  | none => rfl
  | some p =>
      obtain ⟨ls, r⟩ := p
      rw [extractLines_ext E hx] at h
      cases h

/-- A block extracted from an extended buffer leaving the extension
over extracts identically from the prefix. -/
theorem extractBlock_prefix_ok {limit : Nat} {B E : Bytes} {ls : List Bytes} {r : Bytes}
    {n : Nat} (h : extractBlock limit (B ++ E) = .ok ls r n) (hle : E.length ≤ r.length) :
    ∃ r0, extractBlock limit B = .ok ls r0 n ∧ r = r0 ++ E := by
  unfold extractBlock at h ⊢
  cases hx : extractLines (B ++ E) with
  | none =>
      simp only [hx] at h
      split at h <;> cases h
  | some p =>
      obtain ⟨ls1, r1⟩ := p
      simp only [hx] at h
      split at h
      case isTrue hsz =>
        cases h
        obtain ⟨r0, hg, hr⟩ := extractLines_prefix hx hle
        subst hr
        simp only [hg]
        have hlen : B.length - r0.length = (B ++ E).length - (r0 ++ E).length := by
          have := extractLinesGo_rest_le (r := r0) hg
          simp only [List.length_append]
          omega
        rw [← hlen] at hsz ⊢
        rw [if_pos hsz]
        exact ⟨r0, rfl, rfl⟩
      case isFalse => cases h

/-- A block extraction that ate into the extension reports need-data on
the prefix. -/
theorem extractBlock_prefix_need {limit : Nat} {B E : Bytes} {ls : List Bytes} {r : Bytes}
    {n : Nat} (h : extractBlock limit (B ++ E) = .ok ls r n) (hlt : r.length < E.length) :
    extractBlock limit B = .needData := by
  unfold extractBlock at h ⊢
  cases hx : extractLines (B ++ E) with
  | none =>
      simp only [hx] at h
      split at h <;> cases h
  | some p =>
      obtain ⟨ls1, r1⟩ := p
      simp only [hx] at h
      split at h
      case isTrue hsz =>
        cases h
        rw [extractLines_over hx hlt]
        rw [if_pos ?_]
        simp only [List.length_append] at hsz
        omega
      case isFalse => cases h

/-- Need-data on an extended buffer restricts to the prefix. -/
theorem extractBlock_need_stable {limit : Nat} {B E : Bytes}
    (h : extractBlock limit (B ++ E) = .needData) :
    extractBlock limit B = .needData := by
  unfold extractBlock at h ⊢
  cases hx : extractLines (B ++ E) with
  | none =>
      simp only [hx] at h
      rw [extractLines_prefix_none hx]
      split at h
      case isTrue hsz =>
        rw [if_pos (by simp only [List.length_append] at hsz; omega)]
      case isFalse => cases h
  | some p =>
      obtain ⟨ls1, r1⟩ := p
      simp only [hx] at h
      split at h <;> cases h

/-- A line extracted from an extended buffer leaving the extension over
extracts identically from the prefix. -/
theorem extractLine_prefix_ok {limit : Nat} {B E : Bytes} {l r : Bytes} {n : Nat}
    (h : extractLine limit (B ++ E) = .ok l r n) (hle : E.length ≤ r.length) :
    ∃ r0, extractLine limit B = .ok l r0 n ∧ r = r0 ++ E := by
  unfold extractLine at h ⊢
  cases hx : splitLine (B ++ E) with
  | none =>
      simp only [hx] at h
      split at h <;> cases h
  | some p =>
      obtain ⟨l1, r1⟩ := p
      simp only [hx] at h
      split at h
      case isTrue hsz =>
        cases h
        rcases splitLine_prefix hx with ⟨r0, hb, hr⟩ | ⟨_, hgt⟩
        · subst hr
          simp only [hb]
          have hlen : B.length - r0.length = (B ++ E).length - (r0 ++ E).length := by
            have := splitLine_rest_lt hb
            simp only [List.length_append]
            omega
          rw [← hlen] at hsz ⊢
          rw [if_pos hsz]
          exact ⟨r0, rfl, rfl⟩
        · exfalso
          simp only [List.length_append] at hgt
          omega
      case isFalse => cases h

/-- A line extraction that ate into the extension reports need-data on
the prefix. -/
theorem extractLine_prefix_need {limit : Nat} {B E : Bytes} {l r : Bytes} {n : Nat}
    (h : extractLine limit (B ++ E) = .ok l r n) (hlt : r.length < E.length) :
    extractLine limit B = .needData := by
  unfold extractLine at h ⊢
  cases hx : splitLine (B ++ E) with
  | none =>
      simp only [hx] at h
      split at h <;> cases h
  | some p =>
      obtain ⟨l1, r1⟩ := p
      simp only [hx] at h
      split at h
      case isTrue hsz =>
        cases h
        rcases splitLine_prefix hx with ⟨r0, hb, hr⟩ | ⟨hn, hgt⟩
        · exfalso
          subst hr
          simp only [List.length_append] at hlt
          omega
        · rw [hn]
          rw [if_pos ?_]
          simp only [List.length_append] at hsz hgt ⊢
          omega
      case isFalse => cases h

/-- Need-data for a line on an extended buffer restricts to the
prefix. -/
theorem extractLine_need_stable {limit : Nat} {B E : Bytes}
    (h : extractLine limit (B ++ E) = .needData) :
    extractLine limit B = .needData := by
  unfold extractLine at h ⊢
  cases hx : splitLine (B ++ E) with
  | none =>
      simp only [hx] at h
      rw [splitLine_prefix_none hx]
      split at h
      case isTrue hsz =>
        rw [if_pos (by simp only [List.length_append] at hsz; omega)]
      case isFalse => cases h
  | some p =>
      obtain ⟨l1, r1⟩ := p
      simp only [hx] at h
      split at h <;> cases h
/-- No shift is the identity on reader steps. -/
theorem addConsumed_zero (x : RStep) : addConsumed 0 x = x := by
  cases x <;> simp [addConsumed]

/-- Shifts compose. -/
theorem addConsumed_add (j k : Nat) (x : RStep) :
    addConsumed j (addConsumed k x) = addConsumed (j + k) x := by
  cases x <;> simp [addConsumed] <;> omega

/-- The trailer branch of the chunked reader ignores the chunk
counters. -/
theorem chunkedStep_trailer_param (n d : Nat) (f : Bool) (buf : Bytes) :
    chunkedStep n d f true buf = chunkedStep 0 0 false true buf := rfl

/-- Discarding an already-buffered prefix of the chunk terminator
shifts the rest of the step. -/
theorem chunkedStep_shift_gen (n : Nat) (f : Bool) (d k : Nat) (P Y : Bytes)
    (hP : P.length = k) (hk : k ≤ d) :
    chunkedStep n d f false (P ++ Y) =
      addConsumed k (chunkedStep n (d - k) f false Y) := by
  have hmin : min d (P ++ Y).length = k + min (d - k) Y.length := by
    simp only [List.length_append, hP]
    omega
  have hdrop : (P ++ Y).drop (k + min (d - k) Y.length) = Y.drop (min (d - k) Y.length) := by
    rw [show k + min (d - k) Y.length = P.length + min (d - k) Y.length by rw [hP]]
    rw [List.drop_append]
  unfold chunkedStep
  simp only [Bool.false_eq_true, if_false, reduceIte, hmin, hdrop]
  by_cases hrem : d - (k + min (d - k) Y.length) > 0
  · have hrem2 : d - k - min (d - k) Y.length > 0 := by omega
    rw [if_pos hrem, if_pos hrem2]
    simp only [addConsumed]
    have : d - (k + min (d - k) Y.length) = d - k - min (d - k) Y.length := by omega
    rw [this]
  · have hrem2 : ¬(d - k - min (d - k) Y.length > 0) := by omega
    rw [if_neg hrem, if_neg hrem2]
    by_cases hn : n = 0
    · rw [if_pos hn, if_pos hn]
      cases hE : extractLine maxLineSize (Y.drop (min (d - k) Y.length)) with
      | needData => simp [hE, addConsumed]
      | tooLong => simp [hE, addConsumed]
      | ok line rest c1 =>
          cases hP2 : parseChunkSize line with
          | none => simp [hE, hP2, addConsumed]
          | some sz =>
              cases sz with
              | zero =>
                  cases hB : extractBlock maxHeadersSize rest with
                  | needData => simp [hE, hP2, hB, addConsumed]; omega
                  | tooLong => simp [hE, hP2, hB, addConsumed]
                  | ok lines r2 c2 =>
                      cases hL : parseHeaderLines lines with
                      | none => simp [hE, hP2, hB, hL, addConsumed]
                      | some ts => simp [hE, hP2, hB, hL, addConsumed]; omega
              | succ sz =>
                  simp only [hE, hP2]
                  rw [show k + min (d - k) Y.length + c1 =
                    k + (min (d - k) Y.length + c1) by omega]
                  exact chunkedEmit_shift (sz + 1) true k (min (d - k) Y.length + c1) rest
    · rw [if_neg hn, if_neg hn]
      rw [show k + min (d - k) Y.length =
        k + min (d - k) Y.length from rfl]
      exact chunkedEmit_shift n f k (min (d - k) Y.length) (Y.drop (min (d - k) Y.length))
/-- How one reader step on a prefix buffer relates to the step on the
extended buffer: the extended step fails; or both steps agree within
the prefix; or the prefix stops needing data and the extended step is
the later step shifted by what the prefix consumed; or the prefix
flushes its whole buffer as Data and one further step on the extension
alone emits the missing payload. -/
def StepTri (st : BRState) (B E : Bytes) : Prop :=
  (∃ r, bodyStep st (B ++ E) = .fail r) ∨
  (∃ e n next, bodyStep st (B ++ E) = .out e n next ∧ bodyStep st B = .out e n next ∧
    n ≤ B.length) ∨
  (∃ k st2, bodyStep st B = .more k (some st2) ∧ k ≤ B.length ∧
    bodyStep st (B ++ E) = addConsumed k (bodyStep st2 (B.drop k ++ E))) ∨
  (∃ d1 d2 a1 b1 a2 b2 a3 b3 m st1 next2,
    bodyStep st B = .out (.data d1 a1 b1) B.length (some st1) ∧
    bodyStep st1 [] = .more 0 (some st1) ∧
    bodyStep st (B ++ E) = .out (.data (d1 ++ d2) a2 b2) (B.length + m) next2 ∧
    bodyStep st1 E = .out (.data d2 a3 b3) m next2 ∧ m ≤ E.length)

/-- The Content-Length reader on a nonempty buffer and a positive remainder
emits the available prefix of the body. -/
theorem clStep_pos (r : Nat) (buf : Bytes) (hr : r ≠ 0) (hb : buf ≠ []) :
    clStep r buf = .out (.data (buf.take (min r buf.length)) false false)
      (min r buf.length) (some (.cl (r - min r buf.length))) := by
  unfold clStep
  rw [if_neg hr, if_neg hb]

/-- The until-close reader on a nonempty buffer emits the whole buffer. -/
theorem untilCloseStep_pos (buf : Bytes) (hb : buf ≠ []) :
    untilCloseStep buf = .out (.data buf false false) buf.length (some .untilClose) := by
  unfold untilCloseStep
  rw [if_neg hb]

/-- The Content-Length reader's step trichotomy. -/
theorem clStep_tri (r : Nat) (B E : Bytes) (hE : E ≠ []) : StepTri (.cl r) B E := by
  by_cases hr : r = 0
  · subst hr
    exact Or.inr (Or.inl ⟨.endOfMessage [], 0, none, rfl, rfl, Nat.zero_le _⟩)
  · by_cases hB : B = []
    · subst hB
      refine Or.inr (Or.inr (Or.inl ⟨0, .cl r, ?_, Nat.zero_le _, ?_⟩))
      · show clStep r [] = _
        unfold clStep
        rw [if_neg hr, if_pos rfl]
      · rw [addConsumed_zero]
        rfl
    · have hBE : B ++ E ≠ [] := by
        cases B with
        | nil => exact absurd rfl hB
        | cons a l => simp
      by_cases hrB : r ≤ B.length
      · refine Or.inr (Or.inl ⟨.data (B.take r) false false, r, some (.cl (r - r)), ?_, ?_, hrB⟩)
        · rw [show bodyStep (.cl r) (B ++ E) = clStep r (B ++ E) from rfl,
            clStep_pos r (B ++ E) hr hBE,
            show min r (B ++ E).length = r from Nat.min_eq_left (by simp; omega),
            List.take_append_of_le_length hrB]
        · rw [show bodyStep (.cl r) B = clStep r B from rfl, clStep_pos r B hr hB,
            show min r B.length = r from Nat.min_eq_left hrB]
      · have hgt : B.length < r := by omega
        have hm : min r (B ++ E).length = B.length + min (r - B.length) E.length := by
          simp only [List.length_append]
          omega
        refine Or.inr (Or.inr (Or.inr ⟨B, E.take (min (r - B.length) E.length),
          false, false, false, false, false, false, min (r - B.length) E.length,
          .cl (r - B.length), some (.cl (r - B.length - min (r - B.length) E.length)),
          ?_, ?_, ?_, ?_, Nat.min_le_right _ _⟩))
        · rw [show bodyStep (.cl r) B = clStep r B from rfl, clStep_pos r B hr hB,
            show min r B.length = B.length from Nat.min_eq_right (by omega),
            List.take_length]
        · show clStep (r - B.length) [] = _
          unfold clStep
          rw [if_neg (by omega), if_pos rfl]
        · rw [show bodyStep (.cl r) (B ++ E) = clStep r (B ++ E) from rfl,
            clStep_pos r (B ++ E) hr hBE, hm, List.take_append,
            show r - (B.length + min (r - B.length) E.length) =
              r - B.length - min (r - B.length) E.length by omega]
        · rw [show bodyStep (.cl (r - B.length)) E = clStep (r - B.length) E from rfl,
            clStep_pos (r - B.length) E (by omega) hE,
            show min (r - B.length) E.length = min (r - B.length) E.length from rfl]

/-- The read-until-close reader's step trichotomy. -/
theorem untilCloseStep_tri (B E : Bytes) (hE : E ≠ []) : StepTri .untilClose B E := by
  by_cases hB : B = []
  · subst hB
    refine Or.inr (Or.inr (Or.inl ⟨0, .untilClose, ?_, Nat.zero_le _, ?_⟩))
    · show untilCloseStep [] = _
      rfl
    · rw [addConsumed_zero]
      rfl
  · have hBE : B ++ E ≠ [] := by
      cases B with
      | nil => exact absurd rfl hB
      | cons a l => simp
    refine Or.inr (Or.inr (Or.inr ⟨B, E, false, false, false, false, false, false,
      E.length, .untilClose, some .untilClose, ?_, rfl, ?_, ?_, Nat.le_refl _⟩))
    · rw [show bodyStep .untilClose B = untilCloseStep B from rfl,
        untilCloseStep_pos B hB]
    · rw [show bodyStep .untilClose (B ++ E) = untilCloseStep (B ++ E) from rfl,
        untilCloseStep_pos (B ++ E) hBE]
      simp
    · rw [show bodyStep .untilClose E = untilCloseStep E from rfl,
        untilCloseStep_pos E hE]
/-- A split line's leftover is a suffix of the buffer. -/
theorem splitLine_suffix {b l r : Bytes} (h : splitLine b = some (l, r)) :
    ∃ X, b = X ++ r ∧ X ≠ [] := by
  simp only [splitLine, Option.map_eq_some'] at h
  obtain ⟨p, hp, he⟩ := h
  cases he
  obtain ⟨h1, _⟩ := splitAtLF_eq (b := b) (l := p.1) (r := p.2) (by simpa using hp)
  exact ⟨p.1 ++ [bLF], by simp [h1], by simp⟩

/-- A successful line extraction consumed exactly up to its leftover. -/
theorem extractLine_drop {limit : Nat} {b l r : Bytes} {n : Nat}
    (h : extractLine limit b = .ok l r n) : b.drop n = r ∧ n ≤ b.length := by
  unfold extractLine at h
  cases hx : splitLine b with
  | none =>
      simp only [hx] at h
      split at h <;> cases h
  | some p =>
      obtain ⟨l1, r1⟩ := p
      simp only [hx] at h
      split at h
      case isTrue =>
        cases h
        obtain ⟨X, hb, _⟩ := splitLine_suffix hx
        subst hb
        constructor
        · rw [show (X ++ r).length - r.length = X.length by simp, List.drop_left]
        · simp
      case isFalse => cases h

/-- The leftover of a line collection is a suffix of the buffer. -/
theorem extractLinesGo_suffix {ls : List Bytes} {r : Bytes} : ∀ {fuel : Nat} {b : Bytes},
    extractLinesGo fuel b = some (ls, r) → ∃ X, b = X ++ r := by
  intro fuel
  induction fuel generalizing ls with
  | zero =>
      intro b h
      simp [extractLinesGo] at h
  | succ f ih =>
      intro b h
      unfold extractLinesGo at h
      cases hs : splitLine b with
      | none => simp [hs] at h
      | some p =>
          obtain ⟨l, rest⟩ := p
          simp only [hs] at h
          split at h
          case isTrue =>
            cases h
            obtain ⟨X, hb, _⟩ := splitLine_suffix hs
            exact ⟨X, hb⟩
          case isFalse =>
            cases hg : extractLinesGo f rest with
            | none => rw [hg] at h; cases h
            | some q =>
                obtain ⟨ls2, r2⟩ := q
                rw [hg] at h
                cases h
                obtain ⟨X2, hrest⟩ := ih hg
                obtain ⟨X, hb, _⟩ := splitLine_suffix hs
                exact ⟨X ++ X2, by simp [hb, hrest]⟩

/-- A successful block extraction consumed exactly up to its leftover. -/
theorem extractBlock_drop {limit : Nat} {b : Bytes} {ls : List Bytes} {r : Bytes} {n : Nat}
    (h : extractBlock limit b = .ok ls r n) : b.drop n = r ∧ n ≤ b.length := by
  unfold extractBlock at h
  cases hx : extractLines b with
  | none =>
      simp only [hx] at h
      split at h <;> cases h
  | some p =>
      obtain ⟨ls1, r1⟩ := p
      simp only [hx] at h
      split at h
      case isTrue =>
        cases h
        obtain ⟨X, hb⟩ := extractLinesGo_suffix hx
        subst hb
        constructor
        · rw [show (X ++ r).length - r.length = X.length by simp, List.drop_left]
        · simp
      case isFalse => cases h

/-- With nothing to discard and a live chunk budget the chunked reader
emits from the buffer. -/
theorem chunkedStep_emit (n : Nat) (f : Bool) (buf : Bytes) (hn : n ≠ 0) :
    chunkedStep n 0 f false buf = chunkedEmit n f 0 buf := by
  unfold chunkedStep
  simp [hn]

/-- A terminator longer than the buffer is discarded as far as buffered. -/
theorem chunkedStep_discard_all (n d : Nat) (f : Bool) (buf : Bytes)
    (hlt : buf.length < d) :
    chunkedStep n d f false buf = .more buf.length (some (.chunk n (d - buf.length) f false)) := by
  have hm : min d buf.length = buf.length := Nat.min_eq_right (Nat.le_of_lt hlt)
  have hp : 0 < d - buf.length := by omega
  unfold chunkedStep
  simp [hm, hp]

/-- Trailer branch: incomplete trailer block. -/
theorem chunkedStep_tr_need (n d : Nat) (f : Bool) (buf : Bytes)
    (h : extractBlock maxHeadersSize buf = .needData) :
    chunkedStep n d f true buf = .more 0 (some (.chunk 0 0 false true)) := by
  unfold chunkedStep
  simp [h]

/-- Trailer branch: oversized trailer block. -/
theorem chunkedStep_tr_long (n d : Nat) (f : Bool) (buf : Bytes)
    (h : extractBlock maxHeadersSize buf = .tooLong) :
    chunkedStep n d f true buf = .fail .tooLong := by
  unfold chunkedStep
  simp [h]

/-- Trailer branch: unparseable trailer lines. -/
theorem chunkedStep_tr_bad (n d : Nat) (f : Bool) (buf : Bytes) (lines : List Bytes)
    (r : Bytes) (c : Nat) (h : extractBlock maxHeadersSize buf = .ok lines r c)
    (hp : parseHeaderLines lines = none) :
    chunkedStep n d f true buf = .fail .malformed := by
  unfold chunkedStep
  simp [h, hp]

/-- Trailer branch: complete trailer block ends the message. -/
theorem chunkedStep_tr_ok (n d : Nat) (f : Bool) (buf : Bytes) (lines : List Bytes)
    (r : Bytes) (c : Nat) (ts : Headers) (h : extractBlock maxHeadersSize buf = .ok lines r c)
    (hp : parseHeaderLines lines = some ts) :
    chunkedStep n d f true buf = .out (.endOfMessage ts) c none := by
  unfold chunkedStep
  simp [h, hp]

/-- Size-line branch: incomplete size line. -/
theorem chunkedStep_sz_need (f : Bool) (buf : Bytes)
    (h : extractLine maxLineSize buf = .needData) :
    chunkedStep 0 0 f false buf = .more 0 (some (.chunk 0 0 false false)) := by
  unfold chunkedStep
  simp [h]

/-- Size-line branch: oversized size line. -/
theorem chunkedStep_sz_long (f : Bool) (buf : Bytes)
    (h : extractLine maxLineSize buf = .tooLong) :
    chunkedStep 0 0 f false buf = .fail .tooLong := by
  unfold chunkedStep
  simp [h]

/-- Size-line branch: unparseable size line. -/
theorem chunkedStep_sz_bad (f : Bool) (buf l r : Bytes) (c : Nat)
    (h : extractLine maxLineSize buf = .ok l r c) (hp : parseChunkSize l = none) :
    chunkedStep 0 0 f false buf = .fail .malformed := by
  unfold chunkedStep
  simp [h, hp]

/-- Size-line branch: a zero size with an incomplete trailer block. -/
theorem chunkedStep_sz0_need (f : Bool) (buf l r : Bytes) (c : Nat)
    (h : extractLine maxLineSize buf = .ok l r c) (hp : parseChunkSize l = some 0)
    (hb : extractBlock maxHeadersSize r = .needData) :
    chunkedStep 0 0 f false buf = .more c (some (.chunk 0 0 false true)) := by
  unfold chunkedStep
  simp [h, hp, hb]

/-- Size-line branch: a zero size with an oversized trailer block. -/
theorem chunkedStep_sz0_long (f : Bool) (buf l r : Bytes) (c : Nat)
    (h : extractLine maxLineSize buf = .ok l r c) (hp : parseChunkSize l = some 0)
    (hb : extractBlock maxHeadersSize r = .tooLong) :
    chunkedStep 0 0 f false buf = .fail .tooLong := by
  unfold chunkedStep
  simp [h, hp, hb]

/-- Size-line branch: a zero size with unparseable trailer lines. -/
theorem chunkedStep_sz0_bad (f : Bool) (buf l r : Bytes) (c : Nat) (lines : List Bytes)
    (r2 : Bytes) (c2 : Nat) (h : extractLine maxLineSize buf = .ok l r c)
    (hp : parseChunkSize l = some 0) (hb : extractBlock maxHeadersSize r = .ok lines r2 c2)
    (hl : parseHeaderLines lines = none) :
    chunkedStep 0 0 f false buf = .fail .malformed := by
  unfold chunkedStep
  simp [h, hp, hb, hl]

/-- Size-line branch: a zero size with a complete trailer block ends
the message. -/
theorem chunkedStep_sz0_ok (f : Bool) (buf l r : Bytes) (c : Nat) (lines : List Bytes)
    (r2 : Bytes) (c2 : Nat) (ts : Headers) (h : extractLine maxLineSize buf = .ok l r c)
    (hp : parseChunkSize l = some 0) (hb : extractBlock maxHeadersSize r = .ok lines r2 c2)
    (hl : parseHeaderLines lines = some ts) :
    chunkedStep 0 0 f false buf = .out (.endOfMessage ts) (c + c2) none := by
  unfold chunkedStep
  simp [h, hp, hb, hl]

/-- Size-line branch: a positive size opens the chunk and emits. -/
theorem chunkedStep_szpos (f : Bool) (buf l r : Bytes) (c n : Nat)
    (h : extractLine maxLineSize buf = .ok l r c) (hp : parseChunkSize l = some (n + 1)) :
    chunkedStep 0 0 f false buf = chunkedEmit (n + 1) true c r := by
  unfold chunkedStep
  simp [h, hp]
/-- The chunk emitter on a nonempty buffer emits the buffered part of
the chunk. -/
theorem chunkedEmit_pos (n : Nat) (f : Bool) (c : Nat) (buf : Bytes) (hb : buf ≠ []) :
    chunkedEmit n f c buf =
      .out (.data (buf.take (min n buf.length)) f (min n buf.length == n))
        (c + min n buf.length)
        (some (.chunk (n - min n buf.length) (if min n buf.length == n then 2 else 0)
          false false)) := by
  unfold chunkedEmit
  rw [if_neg hb]

/-- The chunk emitter on an empty buffer waits. -/
theorem chunkedEmit_nil (n : Nat) (f : Bool) (c : Nat) :
    chunkedEmit n f c [] = .more c (some (.chunk n 0 f false)) := by
  unfold chunkedEmit
  rw [if_pos rfl]

/-- The chunk emitter's step trichotomy: an empty buffer waits; a chunk
that fits the prefix emits identically on both buffers; a chunk larger
than the prefix flushes the prefix and a further emission on the
extension alone supplies the rest. -/
theorem chunkedEmit_tri (n : Nat) (f : Bool) (c : Nat) (R E : Bytes)
    (hn : n ≠ 0) (hE : E ≠ []) :
    (R = [] ∧ chunkedEmit n f c R = .more c (some (.chunk n 0 f false))) ∨
    (∃ e u next, chunkedEmit n f c (R ++ E) = .out e (c + u) next ∧
      chunkedEmit n f c R = .out e (c + u) next ∧ u ≤ R.length) ∨
    (∃ d2 b2 b3 m next2,
      chunkedEmit n f c R = .out (.data R f false) (c + R.length)
        (some (.chunk (n - R.length) 0 false false)) ∧
      chunkedEmit n f c (R ++ E) = .out (.data (R ++ d2) f b2) (c + R.length + m) next2 ∧
      chunkedEmit (n - R.length) false 0 E = .out (.data d2 false b3) m next2 ∧
      m ≤ E.length ∧ n - R.length ≠ 0) := by
  by_cases hR : R = []
  · subst hR
    exact Or.inl ⟨rfl, chunkedEmit_nil n f c⟩
  · have hRE : R ++ E ≠ [] := fun hc => hR (List.append_eq_nil.mp hc).1
    by_cases hnR : n ≤ R.length
    · have hm1 : min n R.length = n := Nat.min_eq_left hnR
      have hm2 : min n (R ++ E).length = n := Nat.min_eq_left (by simp; omega)
      refine Or.inr (Or.inl ⟨.data (R.take n) f (n == n), n,
        some (.chunk (n - n) (if n == n then 2 else 0) false false), ?_, ?_, hnR⟩)
      · rw [chunkedEmit_pos n f c (R ++ E) hRE, hm2, List.take_append_of_le_length hnR]
      · rw [chunkedEmit_pos n f c R hR, hm1]
    · have hgt : R.length < n := by omega
      have hm1 : min n R.length = R.length := Nat.min_eq_right (by omega)
      have hb1 : (R.length == n) = false := beq_eq_false_iff_ne.mpr (by omega)
      have hm2 : min n (R ++ E).length =
          R.length + min (n - R.length) E.length := by
        simp only [List.length_append]
        omega
      have hm3 : min (n - R.length) E.length ≤ E.length := Nat.min_le_right _ _
      have hbeq : ((R.length + min (n - R.length) E.length : Nat) == n) =
          ((min (n - R.length) E.length : Nat) == (n - R.length)) := by
        by_cases hc : R.length + min (n - R.length) E.length = n
        · rw [beq_iff_eq.mpr hc, beq_iff_eq.mpr (show min (n - R.length) E.length =
            n - R.length by omega)]
        · rw [beq_eq_false_iff_ne.mpr hc, beq_eq_false_iff_ne.mpr
            (show min (n - R.length) E.length ≠ n - R.length by omega)]
      refine Or.inr (Or.inr ⟨E.take (min (n - R.length) E.length),
        (R.length + min (n - R.length) E.length == n),
        (min (n - R.length) E.length == n - R.length),
        min (n - R.length) E.length,
        some (.chunk (n - (R.length + min (n - R.length) E.length))
          (if R.length + min (n - R.length) E.length == n then 2 else 0) false false),
        ?_, ?_, ?_, hm3, by omega⟩)
      · rw [chunkedEmit_pos n f c R hR, hm1, hb1, List.take_length]
        simp
      · rw [chunkedEmit_pos n f c (R ++ E) hRE, hm2, List.take_append, Nat.add_assoc]
      · rw [chunkedEmit_pos (n - R.length) false 0 E hE,
          show min (n - R.length) E.length = min (n - R.length) E.length from rfl]
        rw [hbeq, show n - (R.length + min (n - R.length) E.length) =
          n - R.length - min (n - R.length) E.length by omega]
        simp
/-- Before any chunk payload the first-emission flag is irrelevant. -/
theorem chunkedStep_first_param (f : Bool) (buf : Bytes) :
    chunkedStep 0 0 f false buf = chunkedStep 0 0 false false buf := by
  unfold chunkedStep
  simp

/-- An incomplete size line on the prefix composes: the extended step is
the step taken after the prefix reported need-data. -/
theorem chunkedStep0_lineneed_tri (f : Bool) (B E : Bytes)
    (hP : extractLine maxLineSize B = .needData) :
    StepTri (.chunk 0 0 f false) B E := by
  refine Or.inr (Or.inr (Or.inl ⟨0, .chunk 0 0 false false, ?_, Nat.zero_le _, ?_⟩))
  · show chunkedStep 0 0 f false B = _
    exact chunkedStep_sz_need f B hP
  · rw [addConsumed_zero, List.drop_zero]
    show chunkedStep 0 0 f false (B ++ E) = chunkedStep 0 0 false false (B ++ E)
    exact chunkedStep_first_param f (B ++ E)
/-- The chunked reader's step trichotomy with nothing left to discard. -/
theorem chunkedStep0_tri (n : Nat) (f : Bool) (B E : Bytes) (hE : E ≠ []) :
    StepTri (.chunk n 0 f false) B E := by
  by_cases hn : n = 0
  · subst hn
    cases hW : extractLine maxLineSize (B ++ E) with
    | tooLong =>
        exact Or.inl ⟨.tooLong, chunkedStep_sz_long f (B ++ E) hW⟩
    | needData =>
        exact chunkedStep0_lineneed_tri f B E (extractLine_need_stable hW)
    | ok l r c =>
        cases hp : parseChunkSize l with
        | none =>
            exact Or.inl ⟨.malformed, chunkedStep_sz_bad f (B ++ E) l r c hW hp⟩
        | some sz =>
            by_cases hle : E.length ≤ r.length
            case neg =>
                exact chunkedStep0_lineneed_tri f B E
                  (extractLine_prefix_need hW (by omega))
            case pos =>
            obtain ⟨r0, hPl, hr⟩ := extractLine_prefix_ok hW hle
            subst hr
            obtain ⟨hdropB, hcB⟩ := extractLine_drop hPl
            have hlr0 : r0.length = B.length - c := by
              rw [← hdropB, List.length_drop]
            cases sz with
            | zero =>
                cases hb : extractBlock maxHeadersSize (r0 ++ E) with
                | tooLong =>
                    exact Or.inl ⟨.tooLong,
                      chunkedStep_sz0_long f (B ++ E) l (r0 ++ E) c hW hp hb⟩
                | needData =>
                    refine Or.inr (Or.inr (Or.inl ⟨c, .chunk 0 0 false true, ?_, hcB, ?_⟩))
                    · show chunkedStep 0 0 f false B = _
                      exact chunkedStep_sz0_need f B l r0 c hPl hp
                        (extractBlock_need_stable hb)
                    · rw [show bodyStep (.chunk 0 0 f false) (B ++ E) =
                        chunkedStep 0 0 f false (B ++ E) from rfl,
                        chunkedStep_sz0_need f (B ++ E) l (r0 ++ E) c hW hp hb, hdropB,
                        show bodyStep (.chunk 0 0 false true) (r0 ++ E) =
                          chunkedStep 0 0 false true (r0 ++ E) from rfl,
                        chunkedStep_tr_need 0 0 false (r0 ++ E) hb]
                      simp [addConsumed]
                | ok lines r2 c2 =>
                    cases hl : parseHeaderLines lines with
                    | none =>
                        exact Or.inl ⟨.malformed, chunkedStep_sz0_bad f (B ++ E) l
                          (r0 ++ E) c lines r2 c2 hW hp hb hl⟩
                    | some ts =>
                        by_cases hle2 : E.length ≤ r2.length
                        · obtain ⟨r20, hbP, hr2⟩ := extractBlock_prefix_ok hb hle2
                          have hc2 := (extractBlock_drop hbP).2
                          refine Or.inr (Or.inl ⟨.endOfMessage ts, c + c2, none, ?_, ?_,
                            by omega⟩)
                          · exact chunkedStep_sz0_ok f (B ++ E) l (r0 ++ E) c lines r2
                              c2 ts hW hp hb hl
                          · exact chunkedStep_sz0_ok f B l r0 c lines r20 c2 ts hPl hp
                              hbP hl
                        · have hbP := extractBlock_prefix_need hb (by omega)
                          refine Or.inr (Or.inr (Or.inl ⟨c, .chunk 0 0 false true, ?_,
                            hcB, ?_⟩))
                          · show chunkedStep 0 0 f false B = _
                            exact chunkedStep_sz0_need f B l r0 c hPl hp hbP
                          · rw [show bodyStep (.chunk 0 0 f false) (B ++ E) =
                              chunkedStep 0 0 f false (B ++ E) from rfl,
                              chunkedStep_sz0_ok f (B ++ E) l (r0 ++ E) c lines r2 c2
                                ts hW hp hb hl, hdropB,
                              show bodyStep (.chunk 0 0 false true) (r0 ++ E) =
                                chunkedStep 0 0 false true (r0 ++ E) from rfl,
                              chunkedStep_tr_ok 0 0 false (r0 ++ E) lines r2 c2 ts hb hl]
                            simp [addConsumed]
            | succ n1 =>
                rcases chunkedEmit_tri (n1 + 1) true c r0 E (Nat.succ_ne_zero n1) hE with
                  ⟨hr0, hmore⟩ | ⟨e, u, next, hwh, hpr, hu⟩ |
                  ⟨d2, b2, b3, m, next2, hpr, hwh, hcont, hm, hnz⟩
                · subst hr0
                  refine Or.inr (Or.inr (Or.inl ⟨c, .chunk (n1 + 1) 0 true false, ?_,
                    hcB, ?_⟩))
                  · show chunkedStep 0 0 f false B = _
                    rw [chunkedStep_szpos f B l [] c n1 hPl hp, hmore]
                  · rw [show bodyStep (.chunk 0 0 f false) (B ++ E) =
                      chunkedStep 0 0 f false (B ++ E) from rfl,
                      chunkedStep_szpos f (B ++ E) l ([] ++ E) c n1 hW hp, hdropB,
                      List.nil_append,
                      show bodyStep (.chunk (n1 + 1) 0 true false) E =
                        chunkedStep (n1 + 1) 0 true false E from rfl,
                      chunkedStep_emit (n1 + 1) true E (Nat.succ_ne_zero n1),
                      ← chunkedEmit_shift (n1 + 1) true c 0]
                    simp
                · refine Or.inr (Or.inl ⟨e, c + u, next, ?_, ?_, by omega⟩)
                  · rw [show bodyStep (.chunk 0 0 f false) (B ++ E) =
                      chunkedStep 0 0 f false (B ++ E) from rfl,
                      chunkedStep_szpos f (B ++ E) l (r0 ++ E) c n1 hW hp, hwh]
                  · rw [show bodyStep (.chunk 0 0 f false) B =
                      chunkedStep 0 0 f false B from rfl,
                      chunkedStep_szpos f B l r0 c n1 hPl hp, hpr]
                · refine Or.inr (Or.inr (Or.inr ⟨r0, d2, true, false, true, b2, false,
                    b3, m, .chunk (n1 + 1 - r0.length) 0 false false, next2,
                    ?_, ?_, ?_, ?_, hm⟩))
                  · rw [show bodyStep (.chunk 0 0 f false) B =
                      chunkedStep 0 0 f false B from rfl,
                      chunkedStep_szpos f B l r0 c n1 hPl hp, hpr,
                      show c + r0.length = B.length by omega]
                  · show chunkedStep (n1 + 1 - r0.length) 0 false false [] = _
                    rw [chunkedStep_emit _ false [] hnz, chunkedEmit_nil]
                  · rw [show bodyStep (.chunk 0 0 f false) (B ++ E) =
                      chunkedStep 0 0 f false (B ++ E) from rfl,
                      chunkedStep_szpos f (B ++ E) l (r0 ++ E) c n1 hW hp, hwh,
                      show c + r0.length + m = B.length + m by omega]
                  · show chunkedStep (n1 + 1 - r0.length) 0 false false E = _
                    rw [chunkedStep_emit _ false E hnz]
                    exact hcont
  · rcases chunkedEmit_tri n f 0 B E hn hE with
      ⟨hB0, hmore⟩ | ⟨e, u, next, hwh, hpr, hu⟩ |
      ⟨d2, b2, b3, m, next2, hpr, hwh, hcont, hm, hnz⟩
    · subst hB0
      refine Or.inr (Or.inr (Or.inl ⟨0, .chunk n 0 f false, ?_, Nat.zero_le _, ?_⟩))
      · show chunkedStep n 0 f false [] = _
        rw [chunkedStep_emit n f [] hn, hmore]
      · rw [addConsumed_zero, List.drop_zero]
    · refine Or.inr (Or.inl ⟨e, 0 + u, next, ?_, ?_, by omega⟩)
      · rw [show bodyStep (.chunk n 0 f false) (B ++ E) =
          chunkedStep n 0 f false (B ++ E) from rfl,
          chunkedStep_emit n f (B ++ E) hn, hwh]
      · rw [show bodyStep (.chunk n 0 f false) B = chunkedStep n 0 f false B from rfl,
          chunkedStep_emit n f B hn, hpr]
    · refine Or.inr (Or.inr (Or.inr ⟨B, d2, f, false, f, b2, false, b3, m,
        .chunk (n - B.length) 0 false false, next2, ?_, ?_, ?_, ?_, hm⟩))
      · rw [show bodyStep (.chunk n 0 f false) B = chunkedStep n 0 f false B from rfl,
          chunkedStep_emit n f B hn, hpr]
        simp
      · show chunkedStep (n - B.length) 0 false false [] = _
        rw [chunkedStep_emit _ false [] hnz, chunkedEmit_nil]
      · rw [show bodyStep (.chunk n 0 f false) (B ++ E) =
          chunkedStep n 0 f false (B ++ E) from rfl,
          chunkedStep_emit n f (B ++ E) hn, hwh]
        simp
      · show chunkedStep (n - B.length) 0 false false E = _
        rw [chunkedStep_emit _ false E hnz]
        exact hcont
/-- Shifting an emitted event. -/
theorem addConsumed_out (k : Nat) (e : Event) (j : Nat) (st : Option BRState) :
    addConsumed k (.out e j st) = .out e (k + j) st := rfl

/-- Shifting a wait. -/
theorem addConsumed_more (k : Nat) (j : Nat) (st : Option BRState) :
    addConsumed k (.more j st) = .more (k + j) st := rfl

/-- Shifting a failure. -/
theorem addConsumed_fail (k : Nat) (r : RemoteErr) :
    addConsumed k (.fail r) = .fail r := rfl

/-- The chunked reader's step trichotomy outside the trailer section. -/
theorem chunkedStep_tri (n d : Nat) (f : Bool) (B E : Bytes) (hE : E ≠ []) :
    StepTri (.chunk n d f false) B E := by
  by_cases hdB : B.length < d
  · refine Or.inr (Or.inr (Or.inl ⟨B.length, .chunk n (d - B.length) f false, ?_,
      Nat.le_refl _, ?_⟩))
    · show chunkedStep n d f false B = _
      exact chunkedStep_discard_all n d f B hdB
    · rw [show bodyStep (.chunk n d f false) (B ++ E) =
        chunkedStep n d f false (B ++ E) from rfl,
        chunkedStep_shift_gen n f d B.length B E rfl (Nat.le_of_lt hdB),
        List.drop_length, List.nil_append,
        show bodyStep (.chunk n (d - B.length) f false) E =
          chunkedStep n (d - B.length) f false E from rfl]
  · have hle : d ≤ B.length := by omega
    have hpre : bodyStep (.chunk n d f false) B =
        addConsumed d (bodyStep (.chunk n 0 f false) (B.drop d)) := by
      have hsg := chunkedStep_shift_gen n f d d (B.take d) (B.drop d)
        (by rw [List.length_take]; omega) (Nat.le_refl d)
      rw [List.take_append_drop] at hsg
      rw [show bodyStep (.chunk n d f false) B = chunkedStep n d f false B from rfl,
        hsg, Nat.sub_self,
        show chunkedStep n 0 f false (B.drop d) =
          bodyStep (.chunk n 0 f false) (B.drop d) from rfl]
    have hext : bodyStep (.chunk n d f false) (B ++ E) =
        addConsumed d (bodyStep (.chunk n 0 f false) (B.drop d ++ E)) := by
      have hsg := chunkedStep_shift_gen n f d d (B.take d) (B.drop d ++ E)
        (by rw [List.length_take]; omega) (Nat.le_refl d)
      rw [← List.append_assoc, List.take_append_drop] at hsg
      rw [show bodyStep (.chunk n d f false) (B ++ E) =
        chunkedStep n d f false (B ++ E) from rfl, hsg, Nat.sub_self,
        show chunkedStep n 0 f false (B.drop d ++ E) =
          bodyStep (.chunk n 0 f false) (B.drop d ++ E) from rfl]
    have hld : (B.drop d).length = B.length - d := List.length_drop ..
    rcases chunkedStep0_tri n f (B.drop d) E hE with
      ⟨r, hfail⟩ | ⟨e, u, next, hwh, hpr, hu⟩ | ⟨k, st2, hpr, hk, hcomp⟩ |
      ⟨d1, d2, a1, b1, a2, b2, a3, b3, m, st1, next2, hpr, hst1, hwh, hcont, hm⟩
    · exact Or.inl ⟨r, by rw [hext, hfail, addConsumed_fail]⟩
    · refine Or.inr (Or.inl ⟨e, d + u, next, ?_, ?_, by omega⟩)
      · rw [hext, hwh, addConsumed_out]
      · rw [hpre, hpr, addConsumed_out]
    · refine Or.inr (Or.inr (Or.inl ⟨d + k, st2, ?_, by omega, ?_⟩))
      · rw [hpre, hpr, addConsumed_more]
      · rw [hext, hcomp, addConsumed_add, List.drop_drop]
    · refine Or.inr (Or.inr (Or.inr ⟨d1, d2, a1, b1, a2, b2, a3, b3, m, st1, next2,
        ?_, hst1, ?_, hcont, hm⟩))
      · rw [hpre, hpr, addConsumed_out,
          show d + (B.drop d).length = B.length by omega]
      · rw [hext, hwh, addConsumed_out,
          show d + ((B.drop d).length + m) = B.length + m by omega]

/-- The body reader's step trichotomy: how one step on a prefix of the
receive buffer relates to the step on the extended buffer. -/
theorem bodyStep_tri (st : BRState) (B E : Bytes) (hE : E ≠ []) : StepTri st B E := by
  cases st with
  | cl r => exact clStep_tri r B E hE
  | untilClose => exact untilCloseStep_tri B E hE
  | chunk n d f tr =>
      cases tr with
      | false => exact chunkedStep_tri n d f B E hE
      | true =>
          cases hW : extractBlock maxHeadersSize (B ++ E) with
          | tooLong =>
              exact Or.inl ⟨.tooLong, chunkedStep_tr_long n d f (B ++ E) hW⟩
          | needData =>
              refine Or.inr (Or.inr (Or.inl ⟨0, .chunk 0 0 false true, ?_,
                Nat.zero_le _, ?_⟩))
              · show chunkedStep n d f true B = _
                exact chunkedStep_tr_need n d f B (extractBlock_need_stable hW)
              · rw [addConsumed_zero, List.drop_zero]
                show chunkedStep n d f true (B ++ E) = chunkedStep 0 0 false true (B ++ E)
                exact chunkedStep_trailer_param n d f (B ++ E)
          | ok lines r2 c2 =>
              cases hl : parseHeaderLines lines with
              | none =>
                  exact Or.inl ⟨.malformed,
                    chunkedStep_tr_bad n d f (B ++ E) lines r2 c2 hW hl⟩
              | some ts =>
                  by_cases hle : E.length ≤ r2.length
                  · obtain ⟨r20, hbP, hr2⟩ := extractBlock_prefix_ok hW hle
                    refine Or.inr (Or.inl ⟨.endOfMessage ts, c2, none, ?_, ?_,
                      (extractBlock_drop hbP).2⟩)
                    · exact chunkedStep_tr_ok n d f (B ++ E) lines r2 c2 ts hW hl
                    · exact chunkedStep_tr_ok n d f B lines r20 c2 ts hbP hl
                  · have hbP := extractBlock_prefix_need hW (by omega)
                    refine Or.inr (Or.inr (Or.inl ⟨0, .chunk 0 0 false true, ?_,
                      Nat.zero_le _, ?_⟩))
                    · show chunkedStep n d f true B = _
                      exact chunkedStep_tr_need n d f B hbP
                    · rw [addConsumed_zero, List.drop_zero]
                      show chunkedStep n d f true (B ++ E) =
                        chunkedStep 0 0 false true (B ++ E)
                      exact chunkedStep_trailer_param n d f (B ++ E)
/-- Whether a list of events starts with a Data event. -/
def headIsData : List Event → Bool
  | .data .. :: _ => true
  | _ => false

/-- Prepend a Data event, dropping it when the payload is empty. -/
def consDataEv (d : Bytes) (r : List Event) : List Event :=
  if d = [] then r else .data d false false :: r

/-- One-pass normal form of an event stream: merge each Data payload
into the normalized tail and drop empty payloads on the way. -/
def norm2 : List Event → List Event
  | [] => []
  | .data d _ _ :: rest =>
      match norm2 rest with
      | .data d2 _ _ :: r2 => consDataEv (d ++ d2) r2
      | r => consDataEv d r
  | e :: rest => e :: norm2 rest

/-- Starting with a Data event, as a head test. -/
theorem headIsData_cons (x : Event) (t : List Event) :
    headIsData (x :: t) = isData x := by
  cases x <;> rfl

/-- Non-Data events are never empty Data. -/
theorem isEmptyData_of_nondata (e : Event) (he : isData e = false) :
    isEmptyData e = false := by
  cases e <;> first | rfl | simp [isData] at he

/-- The one-pass normal form keeps a non-Data head. -/
theorem norm2_cons_other (e : Event) (he : isData e = false) (rest : List Event) :
    norm2 (e :: rest) = e :: norm2 rest := by
  cases e <;> first | rfl | simp [isData] at he

/-- The one-pass normal form as its defining match on a Data head. -/
theorem norm2_data_eq (d : Bytes) (f g : Bool) (rest : List Event) :
    norm2 (.data d f g :: rest) =
      match norm2 rest with
      | .data d2 _ _ :: r2 => consDataEv (d ++ d2) r2
      | r => consDataEv d r := rfl

/-- Merging into a normalized tail that starts with Data. -/
theorem norm2_data_hit (d : Bytes) (f g : Bool) (d2 : Bytes) (f2 g2 : Bool)
    (r2 rest0 : List Event) (h : norm2 rest0 = .data d2 f2 g2 :: r2) :
    norm2 (.data d f g :: rest0) = consDataEv (d ++ d2) r2 := by
  rw [norm2_data_eq, h]

/-- Merging into a normalized tail that does not start with Data. -/
theorem norm2_data_miss (d : Bytes) (f g : Bool) (rest0 : List Event)
    (h : headIsData (norm2 rest0) = false) :
    norm2 (.data d f g :: rest0) = consDataEv d (norm2 rest0) := by
  rw [norm2_data_eq]
  cases hr : norm2 rest0 with
  | nil => rfl
  | cons x t =>
      rw [hr, headIsData_cons] at h
      cases x <;> first | rfl | simp [isData] at h

/-- A Data head of the one-pass normal form has a nonempty payload and
no Data event right behind it. -/
theorem norm2_inv (X : List Event) : ∀ d f g r, norm2 X = .data d f g :: r →
    d ≠ [] ∧ headIsData r = false := by
  induction X with
  | nil =>
      intro d f g r h
      simp [norm2] at h
  | cons e rest ih =>
      intro d f g r h
      cases he : isData e with
      | false =>
          rw [norm2_cons_other e he] at h
          obtain ⟨h1, h2⟩ := List.cons.inj h
          rw [h1] at he
          simp [isData] at he
      | true =>
          obtain ⟨d0, f0, g0, rfl⟩ : ∃ d0 f0 g0, e = .data d0 f0 g0 := by
            cases e <;> first | exact ⟨_, _, _, rfl⟩ | simp [isData] at he
          cases hr : norm2 rest with
          | nil =>
              rw [norm2_data_miss d0 f0 g0 rest (by rw [hr]; rfl), hr] at h
              unfold consDataEv at h
              split at h
              · cases h
              case isFalse hne =>
                obtain ⟨h1, h2⟩ := List.cons.inj h
                obtain ⟨hd, _, _⟩ := Event.data.inj h1
                subst hd
                exact ⟨hne, by rw [← h2]; rfl⟩
          | cons x t =>
              cases hx : isData x with
              | true =>
                  obtain ⟨d2, f2, g2, rfl⟩ : ∃ d2 f2 g2, x = .data d2 f2 g2 := by
                    cases x <;> first | exact ⟨_, _, _, rfl⟩ | simp [isData] at hx
                  obtain ⟨hd2, hht⟩ := ih d2 f2 g2 t hr
                  rw [norm2_data_hit d0 f0 g0 d2 f2 g2 t rest hr] at h
                  unfold consDataEv at h
                  rw [if_neg (by simp [hd2])] at h
                  obtain ⟨h1, h2⟩ := List.cons.inj h
                  obtain ⟨hd, _, _⟩ := Event.data.inj h1
                  subst hd
                  exact ⟨by simp [hd2], by rw [← h2]; exact hht⟩
              | false =>
                  rw [norm2_data_miss d0 f0 g0 rest
                    (by rw [hr, headIsData_cons]; exact hx), hr] at h
                  unfold consDataEv at h
                  split at h
                  · obtain ⟨h1, h2⟩ := List.cons.inj h
                    rw [h1] at hx
                    simp [isData] at hx
                  case isFalse hne =>
                    obtain ⟨h1, h2⟩ := List.cons.inj h
                    obtain ⟨hd, _, _⟩ := Event.data.inj h1
                    subst hd
                    refine ⟨hne, ?_⟩
                    rw [← h2, headIsData_cons]
                    exact hx
/-- Two adjacent Data events normalize like their merged payload. -/
theorem norm2_data_data (d1 : Bytes) (f1 g1 : Bool) (d2 : Bytes) (f2 g2 : Bool)
    (f3 g3 : Bool) (rest : List Event) :
    norm2 (.data d1 f1 g1 :: .data d2 f2 g2 :: rest) =
      norm2 (.data (d1 ++ d2) f3 g3 :: rest) := by
  cases hr : norm2 rest with
  | nil =>
      have hmiss : headIsData (norm2 rest) = false := by rw [hr]; rfl
      by_cases hd2 : d2 = []
      · rw [norm2_data_miss d1 f1 g1 (.data d2 f2 g2 :: rest)
          (by rw [norm2_data_miss d2 f2 g2 rest hmiss, hr]
              unfold consDataEv
              rw [if_pos hd2]
              rfl),
          norm2_data_miss d2 f2 g2 rest hmiss,
          norm2_data_miss (d1 ++ d2) f3 g3 rest hmiss, hr, hd2, List.append_nil]
        simp [consDataEv]
      · rw [norm2_data_hit d1 f1 g1 d2 false false [] (.data d2 f2 g2 :: rest)
          (by rw [norm2_data_miss d2 f2 g2 rest hmiss, hr]
              unfold consDataEv
              rw [if_neg hd2]),
          norm2_data_miss (d1 ++ d2) f3 g3 rest hmiss, hr]
  | cons x t =>
      cases hx : isData x with
      | true =>
          obtain ⟨d3, f4, g4, rfl⟩ : ∃ d3 f4 g4, x = .data d3 f4 g4 := by
            cases x <;> first | exact ⟨_, _, _, rfl⟩ | simp [isData] at hx
          obtain ⟨hd3, _⟩ := norm2_inv rest d3 f4 g4 t hr
          rw [norm2_data_hit d1 f1 g1 (d2 ++ d3) false false t (.data d2 f2 g2 :: rest)
            (by rw [norm2_data_hit d2 f2 g2 d3 f4 g4 t rest hr]
                unfold consDataEv
                rw [if_neg (by simp [hd3])]),
            norm2_data_hit (d1 ++ d2) f3 g3 d3 f4 g4 t rest hr, List.append_assoc]
      | false =>
          have hmiss : headIsData (norm2 rest) = false := by
            rw [hr, headIsData_cons]
            exact hx
          by_cases hd2 : d2 = []
          · rw [norm2_data_miss d1 f1 g1 (.data d2 f2 g2 :: rest)
              (by rw [norm2_data_miss d2 f2 g2 rest hmiss]
                  unfold consDataEv
                  rw [if_pos hd2]
                  exact hmiss),
              norm2_data_miss d2 f2 g2 rest hmiss,
              norm2_data_miss (d1 ++ d2) f3 g3 rest hmiss]
            unfold consDataEv
            rw [if_pos hd2, hd2, List.append_nil]
          · rw [norm2_data_hit d1 f1 g1 d2 false false (norm2 rest) (.data d2 f2 g2 :: rest)
              (by rw [norm2_data_miss d2 f2 g2 rest hmiss]
                  unfold consDataEv
                  rw [if_neg hd2]),
              norm2_data_miss (d1 ++ d2) f3 g3 rest hmiss]

/-- Normalization only looks at the normalized tail behind the head. -/
theorem norm2_cons_congr (e : Event) {X Y : List Event} (h : norm2 X = norm2 Y) :
    norm2 (e :: X) = norm2 (e :: Y) := by
  cases he : isData e with
  | true =>
      obtain ⟨d, f, g, rfl⟩ : ∃ d f g, e = .data d f g := by
        cases e <;> first | exact ⟨_, _, _, rfl⟩ | simp [isData] at he
      rw [norm2_data_eq, norm2_data_eq, h]
  | false =>
      rw [norm2_cons_other e he, norm2_cons_other e he, h]

/-- Normalization only looks at the normalized tail behind a common
prefix. -/
theorem norm2_append_congr (A : List Event) {X Y : List Event}
    (h : norm2 X = norm2 Y) : norm2 (A ++ X) = norm2 (A ++ Y) := by
  induction A with
  | nil => exact h
  | cons a A ih => exact norm2_cons_congr a ih

/-- A Data head of a coalesced stream has no Data event right behind
it. -/
theorem coalesce_inv (X : List Event) : ∀ d f g r, coalesce X = .data d f g :: r →
    headIsData r = false := by
  induction X with
  | nil =>
      intro d f g r h
      cases h
  | cons e rest ih =>
      intro d f g r h
      cases he : isData e with
      | false =>
          rw [coalesce_cons_nondata e he] at h
          obtain ⟨h1, _⟩ := List.cons.inj h
          rw [h1] at he
          simp [isData] at he
      | true =>
          obtain ⟨d0, f0, g0, rfl⟩ : ∃ d0 f0 g0, e = .data d0 f0 g0 := by
            cases e <;> first | exact ⟨_, _, _, rfl⟩ | simp [isData] at he
          rw [coalesce_cons_data] at h
          cases hr : coalesce rest with
          | nil =>
              rw [hr] at h
              obtain ⟨_, h2⟩ := List.cons.inj h
              rw [← h2]
              rfl
          | cons x t =>
              cases hx : isData x with
              | true =>
                  obtain ⟨d2, f2, g2, rfl⟩ : ∃ d2 f2 g2, x = .data d2 f2 g2 := by
                    cases x <;> first | exact ⟨_, _, _, rfl⟩ | simp [isData] at hx
                  rw [hr] at h
                  obtain ⟨_, h2⟩ := List.cons.inj h
                  rw [← h2]
                  exact ih d2 f2 g2 t hr
              | false =>
                  rw [hr, show (match (x :: t : List Event) with
                    | .data d2 _ _ :: r2 => Event.data (d0 ++ d2) false false :: r2
                    | r => .data d0 false false :: r) = .data d0 false false :: x :: t
                    from by cases x <;> first | rfl | simp [isData] at hx] at h
                  obtain ⟨_, h2⟩ := List.cons.inj h
                  rw [← h2, headIsData_cons]
                  exact hx

/-- Dropping empty Data events cannot expose a Data head. -/
theorem headIsData_filter (r : List Event) (h : headIsData r = false) :
    headIsData (r.filter (fun e => !isEmptyData e)) = false := by
  cases r with
  | nil => rfl
  | cons x t =>
      rw [headIsData_cons] at h
      rw [List.filter_cons, if_pos (by rw [isEmptyData_of_nondata x h]; rfl),
        headIsData_cons]
      exact h
/-- The one-pass normal form agrees with coalesce-then-filter
normalization. -/
theorem norm2_eq_normalize (X : List Event) : norm2 X = normalizeEvents X := by
  induction X with
  | nil => rfl
  | cons e rest ih =>
      cases he : isData e with
      | false =>
          rw [norm2_cons_other e he]
          unfold normalizeEvents
          rw [coalesce_cons_nondata e he, List.filter_cons,
            if_pos (by rw [isEmptyData_of_nondata e he]; rfl)]
          rw [ih]
          rfl
      | true =>
          obtain ⟨d, f, g, rfl⟩ : ∃ d f g, e = .data d f g := by
            cases e <;> first | exact ⟨_, _, _, rfl⟩ | simp [isData] at he
          unfold normalizeEvents
          rw [coalesce_cons_data]
          cases hc : coalesce rest with
          | nil =>
              have hrest : norm2 rest = [] := by
                rw [ih]
                unfold normalizeEvents
                rw [hc]
                rfl
              rw [norm2_data_miss d f g rest (by rw [hrest]; rfl), hrest]
              by_cases hd : d = []
              · subst hd
                simp [consDataEv, isEmptyData_data]
              · simp [consDataEv, hd, isEmptyData_data]
          | cons x t =>
              have hrest : norm2 rest = (x :: t).filter (fun e => !isEmptyData e) := by
                rw [ih]
                unfold normalizeEvents
                rw [hc]
              cases hx : isData x with
              | true =>
                  obtain ⟨d2, f2, g2, rfl⟩ : ∃ d2 f2 g2, x = .data d2 f2 g2 := by
                    cases x <;> first | exact ⟨_, _, _, rfl⟩ | simp [isData] at hx
                  have hht : headIsData t = false := coalesce_inv rest d2 f2 g2 t hc
                  by_cases hd2 : d2 = []
                  · have hrest2 : norm2 rest = t.filter (fun e => !isEmptyData e) := by
                      rw [hrest, List.filter_cons,
                        if_neg (by simp [isEmptyData_data, hd2])]
                    rw [norm2_data_miss d f g rest
                      (by rw [hrest2]; exact headIsData_filter t hht), hrest2]
                    subst hd2
                    by_cases hd : d = []
                    · subst hd
                      simp [consDataEv, isEmptyData_data]
                    · simp [consDataEv, hd, isEmptyData_data]
                  · have hrest2 : norm2 rest = .data d2 f2 g2 :: t.filter
                        (fun e => !isEmptyData e) := by
                      rw [hrest, List.filter_cons,
                        if_pos (by simp [isEmptyData_data, hd2])]
                    rw [norm2_data_hit d f g d2 f2 g2 _ rest hrest2]
                    have hdd : d ++ d2 ≠ [] := by simp [hd2]
                    simp [consDataEv, hdd, isEmptyData_data]
              | false =>
                  have hnd : (match (x :: t : List Event) with
                      | .data d2 _ _ :: r2 => Event.data (d ++ d2) false false :: r2
                      | r => .data d false false :: r) = .data d false false :: x :: t := by
                    cases x <;> first | rfl | simp [isData] at hx
                  rw [hnd]
                  rw [norm2_data_miss d f g rest
                    (by rw [hrest]
                        exact headIsData_filter (x :: t)
                          (by rw [headIsData_cons]; exact hx)),
                    hrest]
                  by_cases hd : d = []
                  · subst hd
                    simp [consDataEv, isEmptyData_data]
                  · simp [consDataEv, hd, isEmptyData_data]
/-- Receipt bookkeeping ignores the buffer: processing an event on a
connection with a replaced buffer processes as before and keeps the
replaced buffer. -/
theorem pr_buffer_param (c : Connection) (b : Bytes) (e : Event) :
    processReceivedEvent { c with buffer := b } e =
      (processReceivedEvent c e).map (fun c2 => { c2 with buffer := b }) := by
  cases e with
  | request m t hs v =>
      simp only [processReceivedEvent]
      cases hpe : processEvent (switchProposalUpdate c.cstate m hs) .client
          (.request m t hs v) with
      | none => simp [hpe]
      | some s2 => simp [hpe]
  | response status hs v reason =>
      simp only [processReceivedEvent]
      cases hpe : processResponseEvent c.cstate .server status hs v reason with
      | none => simp [hpe]
      | some s3 => simp [hpe]
  | informationalResponse status hs v reason =>
      simp only [processReceivedEvent]
      by_cases hacc : switchAccepted c.cstate.switch true status = true
      · simp only [if_pos hacc]
        cases hres : resolveSwitch c.cstate true status with
        | none => simp [hres]
        | some s1 => simp [hres]
      · simp only [if_neg hacc]
        cases hpe : processEvent c.cstate .server
            (.informationalResponse status hs v reason) with
        | none => simp [hpe]
        | some s1 => simp [hpe]
  | data d f g =>
      simp only [processReceivedEvent, Connection.theirRole]
      cases hpe : processEvent c.cstate c.ourRole.other (.data d f g) with
      | none => simp [hpe]
      | some s1 => simp [hpe]
  | endOfMessage ts =>
      simp only [processReceivedEvent, Connection.theirRole]
      cases hpe : processEvent c.cstate c.ourRole.other (.endOfMessage ts) with
      | none => simp [hpe]
      | some s1 => simp [hpe]
  | connectionClosed =>
      simp only [processReceivedEvent, Connection.theirRole]
      cases hpe : processEvent c.cstate c.ourRole.other .connectionClosed with
      | none => simp [hpe]
      | some s1 => simp [hpe]

/-- Receipt bookkeeping never touches the buffer, the EOF latch or our
role. -/
theorem pr_shape {c : Connection} {e : Event} {c2 : Connection}
    (h : processReceivedEvent c e = some c2) :
    c2.buffer = c.buffer ∧ c2.eofReceived = c.eofReceived ∧ c2.ourRole = c.ourRole := by
  cases e with
  | request m t hs v =>
      simp only [processReceivedEvent] at h
      cases hpe : processEvent (switchProposalUpdate c.cstate m hs) .client
          (.request m t hs v) with
      | none =>
          rw [hpe] at h
          exact Option.noConfusion (show (none : Option Connection) = some c2 from h)
      | some s2 =>
          rw [hpe] at h
          have h2 := Option.some.inj h
          exact ⟨by rw [← h2], by rw [← h2], by rw [← h2]⟩
  | response status hs v reason =>
      simp only [processReceivedEvent] at h
      cases hpe : processResponseEvent c.cstate .server status hs v reason with
      | none =>
          rw [hpe] at h
          exact Option.noConfusion (show (none : Option Connection) = some c2 from h)
      | some s3 =>
          rw [hpe] at h
          have h2 := Option.some.inj h
          exact ⟨by rw [← h2], by rw [← h2], by rw [← h2]⟩
  | informationalResponse status hs v reason =>
      simp only [processReceivedEvent] at h
      by_cases hacc : switchAccepted c.cstate.switch true status = true
      · rw [if_pos hacc] at h
        cases hres : resolveSwitch c.cstate true status with
        | none =>
            rw [hres] at h
            exact Option.noConfusion (show (none : Option Connection) = some c2 from h)
        | some s1 =>
            rw [hres] at h
            have h2 := Option.some.inj h
            exact ⟨by rw [← h2], by rw [← h2], by rw [← h2]⟩
      · rw [if_neg hacc] at h
        cases hpe : processEvent c.cstate .server
            (.informationalResponse status hs v reason) with
        | none =>
            rw [hpe] at h
            exact Option.noConfusion (show (none : Option Connection) = some c2 from h)
        | some s1 =>
            rw [hpe] at h
            have h2 := Option.some.inj h
            exact ⟨by rw [← h2], by rw [← h2], by rw [← h2]⟩
  | data d f g =>
      simp only [processReceivedEvent] at h
      cases hpe : processEvent c.cstate c.theirRole (.data d f g) with
      | none =>
          rw [hpe] at h
          exact Option.noConfusion (show (none : Option Connection) = some c2 from h)
      | some s1 =>
          rw [hpe] at h
          have h2 := Option.some.inj h
          exact ⟨by rw [← h2], by rw [← h2], by rw [← h2]⟩
  | endOfMessage ts =>
      simp only [processReceivedEvent] at h
      cases hpe : processEvent c.cstate c.theirRole (.endOfMessage ts) with
      | none =>
          rw [hpe] at h
          exact Option.noConfusion (show (none : Option Connection) = some c2 from h)
      | some s1 =>
          rw [hpe] at h
          have h2 := Option.some.inj h
          exact ⟨by rw [← h2], by rw [← h2], by rw [← h2]⟩
  | connectionClosed =>
      simp only [processReceivedEvent] at h
      cases hpe : processEvent c.cstate c.theirRole .connectionClosed with
      | none =>
          rw [hpe] at h
          exact Option.noConfusion (show (none : Option Connection) = some c2 from h)
      | some s1 =>
          rw [hpe] at h
          have h2 := Option.some.inj h
          exact ⟨by rw [← h2], by rw [← h2], by rw [← h2]⟩
/-- The coupling rules are a projection: applying them twice is the
same as applying them once. -/
theorem couple_idem (s : CState) : couple (couple s) = couple s := by
  obtain ⟨cl, sv, ka, sw⟩ := s
  rcases sw with _ | ⟨u, cn⟩ | _ | _ <;> cases cl <;> cases sv <;> cases ka <;> rfl

/-- After a DONE transition the coupled state of that side is never one
of the three active states. -/
theorem couple_done_phase (s : CState) (r : Role) (h : s.get r = .done) :
    (couple s).get r ≠ .idle ∧ (couple s).get r ≠ .sendResponse ∧
      (couple s).get r ≠ .sendBody := by
  obtain ⟨cl, sv, ka, sw⟩ := s
  cases r with
  | client =>
      have hc : cl = .done := h
      subst hc
      rcases sw with _ | ⟨u, cn⟩ | _ | _ <;> cases sv <;> cases ka <;>
        simp [couple, CState.get]
  | server =>
      have hc : sv = .done := h
      subst hc
      rcases sw with _ | ⟨u, cn⟩ | _ | _ <;> cases cl <;> cases ka <;>
        simp [couple, CState.get]
/-- A successful line collection consumes at least one byte. -/
theorem extractLinesGo_rest_lt {ls : List Bytes} {r : Bytes} : ∀ {fuel : Nat} {b : Bytes},
    extractLinesGo fuel b = some (ls, r) → r.length < b.length := by
  intro fuel
  induction fuel generalizing ls with
  | zero =>
      intro b h
      simp [extractLinesGo] at h
  | succ f ih =>
      intro b h
      unfold extractLinesGo at h
      cases hs : splitLine b with
      | none => simp [hs] at h
      | some p =>
          obtain ⟨l, rest⟩ := p
          simp only [hs] at h
          split at h
          case isTrue =>
            cases h
            exact splitLine_rest_lt hs
          case isFalse =>
            cases hg : extractLinesGo f rest with
            | none => rw [hg] at h; cases h
            | some q =>
                obtain ⟨ls2, r2⟩ := q
                rw [hg] at h
                cases h
                have h1 := extractLinesGo_rest_le hg
                have h2 := splitLine_rest_lt hs
                omega

/-- A successful block extraction consumes at least one byte. -/
theorem extractBlock_pos {limit : Nat} {b : Bytes} {ls : List Bytes} {r : Bytes} {n : Nat}
    (h : extractBlock limit b = .ok ls r n) : 1 ≤ n := by
  unfold extractBlock at h
  cases hx : extractLines b with
  | none =>
      simp only [hx] at h
      split at h <;> cases h
  | some p =>
      obtain ⟨ls1, r1⟩ := p
      simp only [hx] at h
      split at h
      case isTrue =>
        cases h
        unfold extractLines at hx
        have := extractLinesGo_rest_lt hx
        omega
      case isFalse => cases h

/-- A successful line extraction consumes at least one byte. -/
theorem extractLine_pos {limit : Nat} {b l r : Bytes} {n : Nat}
    (h : extractLine limit b = .ok l r n) : 1 ≤ n := by
  unfold extractLine at h
  cases hx : splitLine b with
  | none =>
      simp only [hx] at h
      split at h <;> cases h
  | some p =>
      obtain ⟨l1, r1⟩ := p
      simp only [hx] at h
      split at h
      case isTrue =>
        cases h
        have := splitLine_rest_lt hx
        omega
      case isFalse => cases h

/-- A request head event consumes at least one byte and installs no
body reader directly. -/
theorem requestStep_out {B : Bytes} {e : Event} {n : Nat} {next : Option BRState}
    (h : requestStep B = .out e n next) : 1 ≤ n ∧ n ≤ B.length ∧ next = none := by
  unfold requestStep at h
  cases hx : extractBlock maxHeadersSize B with
  | needData => rw [hx] at h; cases h
  | tooLong => rw [hx] at h; cases h
  | ok lines r c =>
      simp only [hx] at h
      cases lines with
      | nil => simp at h
      | cons rl hls =>
          cases hp : parseRequestLine rl with
          | none => simp [hp] at h
          | some v3 =>
              obtain ⟨m, t, v⟩ := v3
              cases hq : parseHeaderLines hls with
              | none => simp [hp, hq] at h
              | some hs =>
                  simp only [hp, hq] at h
                  split at h
                  · obtain ⟨_, h2, h3⟩ := RStep.out.inj h
                    exact ⟨h2 ▸ extractBlock_pos hx, h2 ▸ (extractBlock_drop hx).2, h3.symm⟩
                  · exact RStep.noConfusion h

/-- A response head event consumes at least one byte and installs no
body reader directly. -/
theorem responseStep_out {B : Bytes} {e : Event} {n : Nat} {next : Option BRState}
    (h : responseStep B = .out e n next) : 1 ≤ n ∧ n ≤ B.length ∧ next = none := by
  unfold responseStep at h
  cases hx : extractBlock maxHeadersSize B with
  | needData => rw [hx] at h; cases h
  | tooLong => rw [hx] at h; cases h
  | ok lines r c =>
      simp only [hx] at h
      cases lines with
      | nil => simp at h
      | cons sl hls =>
          cases hp : parseStatusLine sl with
          | none => simp [hp] at h
          | some v3 =>
              obtain ⟨v, status, reason⟩ := v3
              cases hq : parseHeaderLines hls with
              | none => simp [hp, hq] at h
              | some hs =>
                  simp only [hp, hq] at h
                  split at h <;> split at h
                  · obtain ⟨_, h2, h3⟩ := RStep.out.inj h
                    exact ⟨h2 ▸ extractBlock_pos hx, h2 ▸ (extractBlock_drop hx).2, h3.symm⟩
                  · exact RStep.noConfusion h
                  · obtain ⟨_, h2, h3⟩ := RStep.out.inj h
                    exact ⟨h2 ▸ extractBlock_pos hx, h2 ▸ (extractBlock_drop hx).2, h3.symm⟩
                  · exact RStep.noConfusion h
/-- The chunk emitter's events consume at least one byte when the chunk
budget is live. -/
theorem chunkedEmit_out_pos {n : Nat} {f : Bool} {c : Nat} {buf : Bytes} {e : Event}
    {k : Nat} {next : Option BRState} (hn : n ≠ 0)
    (h : chunkedEmit n f c buf = .out e k next) : 1 ≤ k := by
  unfold chunkedEmit at h
  split at h
  · exact RStep.noConfusion h
  case isFalse hb =>
    obtain ⟨_, h2, _⟩ := RStep.out.inj h
    have hbl : 1 ≤ buf.length := by
      cases buf with
      | nil => exact absurd rfl hb
      | cons a l => simp
    have : 1 ≤ min n buf.length := by omega
    omega

/-- Every event the chunked reader emits consumes at least one byte. -/
theorem chunkedStep_out_pos {n d : Nat} {f tr : Bool} {buf : Bytes} {e : Event}
    {k : Nat} {next : Option BRState}
    (h : chunkedStep n d f tr buf = .out e k next) : 1 ≤ k := by
  unfold chunkedStep at h
  split at h
  · cases hx : extractBlock maxHeadersSize buf with
    | needData => rw [hx] at h; exact RStep.noConfusion h
    | tooLong => rw [hx] at h; exact RStep.noConfusion h
    | ok lines r c =>
        simp only [hx] at h
        cases hp : parseHeaderLines lines with
        | none => rw [hp] at h; exact RStep.noConfusion h
        | some ts =>
            simp only [hp] at h
            obtain ⟨_, h2, _⟩ := RStep.out.inj h
            exact h2 ▸ extractBlock_pos hx
  · dsimp only [] at h
    split at h
    · exact RStep.noConfusion h
    · split at h
      · cases hx : extractLine maxLineSize (buf.drop (min d buf.length)) with
        | needData => rw [hx] at h; exact RStep.noConfusion h
        | tooLong => rw [hx] at h; exact RStep.noConfusion h
        | ok line rest c1 =>
            simp only [hx] at h
            cases hp : parseChunkSize line with
            | none => rw [hp] at h; exact RStep.noConfusion h
            | some sz =>
                cases sz with
                | zero =>
                    simp only [hp] at h
                    cases hb : extractBlock maxHeadersSize rest with
                    | needData => rw [hb] at h; exact RStep.noConfusion h
                    | tooLong => rw [hb] at h; exact RStep.noConfusion h
                    | ok lines r2 c2 =>
                        simp only [hb] at h
                        cases hl : parseHeaderLines lines with
                        | none => rw [hl] at h; exact RStep.noConfusion h
                        | some ts =>
                            simp only [hl] at h
                            obtain ⟨_, h2, _⟩ := RStep.out.inj h
                            have := extractLine_pos hx
                            omega
                | succ n1 =>
                    simp only [hp] at h
                    exact chunkedEmit_out_pos (Nat.succ_ne_zero n1) h
      · exact chunkedEmit_out_pos (by omega) h

/-- The only zero-byte reader event is the EndOfMessage of an exhausted
Content-Length body. -/
theorem bodyStep_out_zero {st : BRState} {buf : Bytes} {e : Event}
    {next : Option BRState} (h : bodyStep st buf = .out e 0 next) :
    e = .endOfMessage [] := by
  cases st with
  | cl r =>
      simp only [bodyStep] at h
      unfold clStep at h
      split at h
      · exact (RStep.out.inj h).1.symm
      · split at h
        · exact RStep.noConfusion h
        · rename_i hb
          obtain ⟨_, h2, _⟩ := RStep.out.inj h
          have hbl : 1 ≤ buf.length := by
            cases buf with
            | nil => exact absurd rfl hb
            | cons a l => simp
          omega
  | chunk n d f tr =>
      have := chunkedStep_out_pos (show chunkedStep n d f tr buf = .out e 0 next from h)
      omega
  | untilClose =>
      simp only [bodyStep] at h
      unfold untilCloseStep at h
      split at h
      · exact RStep.noConfusion h
      · rename_i hb
        obtain ⟨_, h2, _⟩ := RStep.out.inj h
        have hbl : 1 ≤ buf.length := by
          cases buf with
          | nil => exact absurd rfl hb
          | cons a l => simp
        omega
/-- Receiving Data during a body leaves the joint state at its coupled
value. -/
theorem pr_data (c : Connection) (hts : c.theirState = .sendBody) (d : Bytes) (f g : Bool) :
    processReceivedEvent c (.data d f g) = some { c with cstate := couple c.cstate } := by
  simp only [processReceivedEvent]
  cases hro : c.ourRole with
  | client =>
      have hrt : c.theirRole = Role.server := by
        unfold Connection.theirRole
        rw [hro]
        rfl
      have hsv : c.cstate.server = .sendBody := by
        have h2 := hts
        unfold Connection.theirState at h2
        rw [hrt] at h2
        exact h2
      rw [hrt]
      have hpe : processEvent c.cstate .server (.data d f g) = some (couple c.cstate) := by
        unfold processEvent
        simp only [hsv, serverTransition]
        rw [show ({ c.cstate with server := MState.sendBody } : CState) = c.cstate from by
          rw [← hsv]]
      rw [hpe]
      rfl
  | server =>
      have hrt : c.theirRole = Role.client := by
        unfold Connection.theirRole
        rw [hro]
        rfl
      have hcl : c.cstate.client = .sendBody := by
        have h2 := hts
        unfold Connection.theirState at h2
        rw [hrt] at h2
        exact h2
      rw [hrt]
      have hpe : processEvent c.cstate .client (.data d f g) = some (couple c.cstate) := by
        unfold processEvent
        simp only [hcl, clientTransition]
        rw [show ({ c.cstate with client := MState.sendBody } : CState) = c.cstate from by
          rw [← hcl]]
        rfl
      rw [hpe]
      rfl

/-- After an EndOfMessage is received the peer's side is never in one
of the three active states. -/
theorem pr_eom_phase {c c2 : Connection} {ts : Headers}
    (h : processReceivedEvent c (.endOfMessage ts) = some c2) :
    c2.theirState ≠ .idle ∧ c2.theirState ≠ .sendResponse ∧ c2.theirState ≠ .sendBody := by
  simp only [processReceivedEvent] at h
  cases hpe : processEvent c.cstate c.theirRole (.endOfMessage ts) with
  | none =>
      rw [hpe] at h
      exact Option.noConfusion (show (none : Option Connection) = some c2 from h)
  | some s1 =>
      rw [hpe] at h
      have h2 := Option.some.inj h
      have hts2 : c2.theirState = s1.get c.theirRole := by rw [← h2]; rfl
      cases hro : c.ourRole with
      | client =>
          have hrt : c.theirRole = Role.server := by
            unfold Connection.theirRole
            rw [hro]
            rfl
          rw [hrt] at hpe hts2
          unfold processEvent at hpe
          cases hsv : c.cstate.server with
          | sendBody =>
              simp only [hsv, serverTransition] at hpe
              have h3 := Option.some.inj hpe
              rw [hts2, ← h3]
              exact couple_done_phase { c.cstate with server := .done } .server rfl
          | idle => simp [hsv, serverTransition] at hpe
          | sendResponse => simp [hsv, serverTransition] at hpe
          | done => simp [hsv, serverTransition] at hpe
          | mustClose => simp [hsv, serverTransition] at hpe
          | closed => simp [hsv, serverTransition] at hpe
          | mightSwitchProtocol => simp [hsv, serverTransition] at hpe
          | switchedProtocol => simp [hsv, serverTransition] at hpe
          | error => simp [hsv, serverTransition] at hpe
      | server =>
          have hrt : c.theirRole = Role.client := by
            unfold Connection.theirRole
            rw [hro]
            rfl
          rw [hrt] at hpe hts2
          unfold processEvent at hpe
          cases hcl : c.cstate.client with
          | sendBody =>
              simp only [hcl, clientTransition] at hpe
              have h3 := Option.some.inj hpe
              rw [hts2, ← h3]
              exact couple_done_phase { c.cstate with client := .done } .client rfl
          | idle => simp [hcl, clientTransition] at hpe
          | sendResponse => simp [hcl, clientTransition] at hpe
          | done => simp [hcl, clientTransition] at hpe
          | mustClose => simp [hcl, clientTransition] at hpe
          | closed => simp [hcl, clientTransition] at hpe
          | mightSwitchProtocol => simp [hcl, clientTransition] at hpe
          | switchedProtocol => simp [hcl, clientTransition] at hpe
          | error => simp [hcl, clientTransition] at hpe
end H11
